import Mathlib

/-!
Canonical dimension / magnitude algebra of the `units` library.

A shallow embedding of the compile-time algebra of the `units` library
(`primes.hpp`, `meta.hpp`, `power.hpp`, `magnitude.hpp`, `dimension.hpp`, `downcast.hpp`,
`unit.hpp`) and of the conversion of quantities (`quantity.hpp`), together with theorems about
it.

Conventions of the embedding

* `uint64_t` values are natural numbers; every operation that can wrap is written with an
  explicit `% 2 ^ 64`.
* A `typelist<Ts...>` is a `List`; a type is represented by a value.
* Loops carry an explicit iteration budget and report `Outcome.out_of_fuel` when the budget
  is used up; a write past the end of a fixed-size array is reported as
  `Outcome.out_of_bounds`; a failing `static_assert` is reported as `Outcome.ill_formed`.
* Exponents of `Power` are `int` template arguments.  Arithmetic on them happens inside
  constant expressions, where an overflowing operation does not wrap but makes the program
  ill-formed, so they are embedded as exact integers.
* The value type of a quantity and the accumulation type of `ApplyMagnitudeAsFloat` are taken
  to be the rational numbers, so that the arithmetic on values is exact.
-/

namespace units

/-! ## Outcomes -/

/-- Result of running a piece of the program. -/
inductive Outcome (α : Type) where
  | ok (value : α)
  | out_of_bounds
  | out_of_fuel
  | ill_formed
  deriving DecidableEq

/-- Sequencing of two computations: the second one runs only when the first one succeeded. -/
def Outcome.bind {α β : Type} (x : Outcome α) (f : α → Outcome β) : Outcome β :=
  match x with
  | .ok a => f a
  | .out_of_bounds => .out_of_bounds
  | .out_of_fuel => .out_of_fuel
  | .ill_formed => .ill_formed

/-- The number of values of `uint64_t`. -/
def UINT64_SIZE : Nat := 2 ^ 64

/-! ## primes.hpp -/

/-- The struct `prime_factorization_result_t::factor_exponent`. -/
structure factor_exponent where
  factor : Nat
  exponent : Int
  deriving DecidableEq

/-- The struct `prime_factorization_result_t`: `factors` holds the slots `0 .. size - 1` of the
array `std::array<factor_exponent, 14>` that have been written so far, in index order, so that
`size` is its length.  The remaining slots keep their initial value and are never read. -/
structure prime_factorization_result_t where
  factors : List factor_exponent
  deriving DecidableEq

/-- The member `size`. -/
def prime_factorization_result_t.size (r : prime_factorization_result_t) : Nat :=
  r.factors.length

/-- The number of slots of the array `factors`. -/
def factors_capacity : Nat := 14

/-- The method `add_factor`: `factors[size] = {factor, exponent}; ++size;`.  The array has
`factors_capacity` slots, a write at an index beyond them is out of bounds. -/
def prime_factorization_result_t.add_factor (r : prime_factorization_result_t)
    (factor : Nat) (exponent : Int) : Outcome prime_factorization_result_t :=
  if r.size < factors_capacity then .ok ⟨r.factors ++ [⟨factor, exponent⟩]⟩
  else .out_of_bounds

/-- The loop `do { n /= factor; ++exponent; } while (n % factor == 0);` of `process_factor`,
started with the current `n` and `exponent`; returns the final `n` and `exponent`. -/
def process_factor_loop : Nat → Nat → Nat → Int → Option (Nat × Int)
  | 0, _, _, _ => none
  | fuel + 1, factor, n, exponent =>
    let n := n / factor
    let exponent := exponent + 1
    if n % factor = 0 then process_factor_loop fuel factor n exponent
    else some (n, exponent)

/-- The lambda `process_factor`: it updates the captured `n` and `result`. -/
def process_factor (fuel factor n : Nat) (result : prime_factorization_result_t) :
    Outcome (Nat × prime_factorization_result_t) :=
  match process_factor_loop fuel factor n 0 with
  | none => .out_of_fuel
  | some (n, exponent) => (result.add_factor factor exponent).bind fun result => .ok (n, result)

/-- The lambda `advance_to_next_prime`:
`do { factor += incr; incr ^= 6ULL; } while (n % factor != 0 && factor * factor < originalN);`
it updates the captured `factor` and `incr`.  The sum and the product are those of
`uint64_t`. -/
def advance_to_next_prime : Nat → Nat → Nat → Nat → Nat → Option (Nat × Nat)
  | 0, _, _, _, _ => none
  | fuel + 1, originalN, n, factor, incr =>
    let factor := (factor + incr) % UINT64_SIZE
    let incr := incr ^^^ 6
    if n % factor ≠ 0 ∧ (factor * factor) % UINT64_SIZE < originalN then
      advance_to_next_prime fuel originalN n factor incr
    else some (factor, incr)

/-- The loop
`while (n > 1 && factor * factor < originalN) { process_factor(factor); advance_to_next_prime(); }`
returning the final `n` and `result`.  The inner loops get the budget `budget` each. -/
def main_loop (budget originalN : Nat) :
    Nat → Nat → Nat → Nat → prime_factorization_result_t →
      Outcome (Nat × prime_factorization_result_t)
  | 0, _, _, _, _ => .out_of_fuel
  | fuel + 1, n, factor, incr, result =>
    if n > 1 ∧ (factor * factor) % UINT64_SIZE < originalN then
      (process_factor budget factor n result).bind fun (n, result) =>
        match advance_to_next_prime budget originalN n factor incr with
        | none => .out_of_fuel
        | some (factor, incr) => main_loop budget originalN fuel n factor incr result
    else .ok (n, result)

/-- The function `prime_factorization`, every loop of which may run `fuel` times. -/
def prime_factorization_fuel (fuel n : Nat) : Outcome prime_factorization_result_t :=
  let result : prime_factorization_result_t := ⟨[]⟩
  let originalN := n
  (if n % 2 = 0 then process_factor fuel 2 n result else .ok (n, result)).bind
    fun (n, result) =>
  (if n % 3 = 0 then process_factor fuel 3 n result else .ok (n, result)).bind
    fun (n, result) =>
  let factor := 1
  let incr := 4
  match advance_to_next_prime fuel originalN n factor incr with
  | none => .out_of_fuel
  | some (factor, incr) =>
    (main_loop fuel originalN fuel n factor incr result).bind fun (n, result) =>
      if n > 1 then result.add_factor n 1 else .ok result

/-- The function `prime_factorization` on a `uint64_t` argument.  Every loop gets a budget of
`2 ^ 64` iterations, which is enough for every `n` with `0 < n < 2 ^ 64`
(`prime_factorization_fuel_spec`). -/
def prime_factorization (n : Nat) : Outcome prime_factorization_result_t :=
  prime_factorization_fuel UINT64_SIZE n

end units

/-! ## meta.hpp -/

namespace meta

/-- The enumeration `ordering`. -/
inductive ordering where
  | less
  | equivalent
  | greater
  deriving DecidableEq

/-- Modelled from the spec: `meta::type_name` (the header `type_name.hpp` is not part of the
sources).  A C++ type that is used as a symbol, such as a base dimension or an irrational
constant, is represented by the distinguishing key that `type_name` assigns to it, its name;
names are compared with `==` and `<` as strings. -/
structure Symbol where
  type_name : String
  deriving DecidableEq

/-- The function template `merge_combine_filter_impl`.  The combiner returns `none` where the
C++ combiner returns `notype`. -/
def merge_combine_filter_impl {α : Type} (Comp : α → α → ordering)
    (combine : α → α → Option α) : List α → List α → List α → List α
  | result, [], list2 => result ++ list2
  | result, h1 :: t1, [] => result ++ (h1 :: t1)
  | result, h1 :: t1, h2 :: t2 =>
    match Comp h1 h2 with
    | .equivalent =>
      match combine h1 h2 with
      | none => merge_combine_filter_impl Comp combine result t1 t2
      | some combine_result =>
        merge_combine_filter_impl Comp combine (result ++ [combine_result]) t1 t2
    | .less => merge_combine_filter_impl Comp combine (result ++ [h1]) t1 (h2 :: t2)
    | .greater => merge_combine_filter_impl Comp combine (result ++ [h2]) (h1 :: t1) t2
termination_by _ list1 list2 => list1.length + list2.length

/-- The function template `merge_combine_filter`. -/
def merge_combine_filter {α : Type} (list1 list2 : List α) (Comp : α → α → ordering)
    (combine : α → α → Option α) : List α :=
  merge_combine_filter_impl Comp combine [] list1 list2

end meta

namespace units

open meta

/-! ## power.hpp -/

/-- The class template `Power<T, N>`: the base `T` and the exponent `N`.  The template carries
`static_assert(N != 0)`; lists of powers that respect it are described by `no_zero_exponent`. -/
structure Power (T : Type) where
  Base : T
  exponent : Int
  deriving DecidableEq

/-- The member alias `inverse`. -/
def Power.inverse {T : Type} (p : Power T) : Power T := ⟨p.Base, -p.exponent⟩

/-- The functor `PowerCombiner`; `none` stands for `meta::notype`.  The result takes its base
from the first argument; the `static_assert` of the source requires both arguments to have the
same base. -/
def PowerCombiner {T : Type} (Pow1 Pow2 : Power T) : Option (Power T) :=
  let exp1 := Pow1.exponent
  let exp2 := Pow2.exponent
  if exp1 + exp2 = 0 then none else some ⟨Pow1.Base, exp1 + exp2⟩

/-! ## magnitude.hpp -/

/-- A factor of a magnitude: `int_factor<N>` with `N` a `uint64_t`, or another type, which
stands for an irrational number (as `pi` does). -/
inductive Factor where
  | int_factor (N : Fin UINT64_SIZE)
  | other (T : Symbol)
  deriving DecidableEq

/-- The member `int_factor<N>::value`, declared as `static constexpr int64_t value = N;`: the
unsigned `N` converted to a signed 64-bit integer. -/
def int_factor_value (N : Fin UINT64_SIZE) : Int :=
  if N.val < 2 ^ 63 then (N.val : Int) else (N.val : Int) - 2 ^ 64

/-- The class template `magnitude_raw<FactorPowers...>`, given by its list of arguments. -/
abbrev magnitude_raw : Type := List (Power Factor)

/-- A `uint64_t` used as a template argument. -/
def to_uint64 (n : Nat) : Fin UINT64_SIZE := ⟨n % UINT64_SIZE, Nat.mod_lt n (by decide)⟩

/-- The function `magnitude_from_int_impl<N>::extract_factors`. -/
def extract_factors (factorization : prime_factorization_result_t) : magnitude_raw :=
  factorization.factors.map fun fe => ⟨Factor.int_factor (to_uint64 fe.factor), fe.exponent⟩

/-- The alias `MagnitudeFromInt<N>`, which is `magnitude_from_int_impl<N>::make()` under
`static_assert(N > 0)`. -/
def MagnitudeFromInt (N : Nat) : Outcome magnitude_raw :=
  if N > 0 then
    (prime_factorization N).bind fun factorization => .ok (extract_factors factorization)
  else .ill_formed

/-- The functor `MagnitudeComparator`. -/
def MagnitudeComparator (PowFactor1 PowFactor2 : Power Factor) : ordering :=
  match PowFactor1.Base, PowFactor2.Base with
  | .int_factor N1, .int_factor N2 =>
    let val1 := int_factor_value N1
    let val2 := int_factor_value N2
    if val1 = val2 then .equivalent
    else if val1 < val2 then .less
    else .greater
  | .int_factor _, .other _ => .less
  | .other _, .int_factor _ => .greater
  | .other Factor1, .other Factor2 =>
    let factor1Name := Factor1.type_name
    let factor2Name := Factor2.type_name
    if factor1Name = factor2Name then .equivalent
    else if factor1Name < factor2Name then .less
    else .greater

/-- The alias `InverseMagnitude<Magnitude>`. -/
def InverseMagnitude (Magnitude : magnitude_raw) : magnitude_raw :=
  Magnitude.map fun FactorPower => ⟨FactorPower.Base, -FactorPower.exponent⟩

/-- The alias `MultiplyMagnitude<Magnitude1, Magnitude2>`. -/
def MultiplyMagnitude (Magnitude1 Magnitude2 : magnitude_raw) : magnitude_raw :=
  merge_combine_filter Magnitude1 Magnitude2 MagnitudeComparator PowerCombiner

/-- The alias `MagnitudeFromRatio<Ratio>`, as a function of the members `Ratio::num` and
`Ratio::den`.  Both are passed as `uint64_t` template arguments of `MagnitudeFromInt`, a
conversion that is only allowed for values that `uint64_t` can hold. -/
def MagnitudeFromRatio (num den : Int) : Outcome magnitude_raw :=
  if 0 ≤ num ∧ num < UINT64_SIZE ∧ 0 ≤ den ∧ den < UINT64_SIZE then
    (MagnitudeFromInt num.toNat).bind fun Magnitude1 =>
      (MagnitudeFromInt den.toNat).bind fun Magnitude2 =>
        .ok (MultiplyMagnitude Magnitude1 (InverseMagnitude Magnitude2))
  else .ill_formed

/-! ## dimension.hpp -/

/-- The functor `DimensionComparator`. -/
def DimensionComparator (PowDim1 PowDim2 : Power Symbol) : ordering :=
  let dim1Name := PowDim1.Base.type_name
  let dim2Name := PowDim2.Base.type_name
  if dim1Name = dim2Name then .equivalent
  else if dim1Name < dim2Name then .less
  else .greater

end units

/-! ## Canonical lists -/

namespace units

open meta

/-- A list is strictly increasing under a comparator when the comparator reports `less` for
every element and its successor. -/
def strictly_increasing {α : Type} (Comp : α → α → ordering) : List α → Prop
  | [] => True
  | [_] => True
  | a :: b :: l => Comp a b = ordering.less ∧ strictly_increasing Comp (b :: l)

instance strictly_increasing_decidable {α : Type} (Comp : α → α → ordering) :
    (l : List α) → Decidable (strictly_increasing Comp l)
  | [] => isTrue trivial
  | [_] => isTrue trivial
  | a :: b :: l =>
    @instDecidableAnd (Comp a b = ordering.less) (strictly_increasing Comp (b :: l)) _
      (strictly_increasing_decidable Comp (b :: l))

/-- No term of the list has the exponent zero. -/
def no_zero_exponent {T : Type} (l : List (Power T)) : Prop :=
  ∀ p ∈ l, p.exponent ≠ 0

instance no_zero_exponent_decidable {T : Type} (l : List (Power T)) :
    Decidable (no_zero_exponent l) :=
  inferInstanceAs (Decidable (∀ p ∈ l, p.exponent ≠ 0))

/-- A canonical list: strictly increasing under the comparator and free of zero exponents. -/
def canonical {T : Type} (Comp : Power T → Power T → ordering) (l : List (Power T)) : Prop :=
  strictly_increasing Comp l ∧ no_zero_exponent l

instance canonical_decidable {T : Type} (Comp : Power T → Power T → ordering)
    (l : List (Power T)) : Decidable (canonical Comp l) :=
  inferInstanceAs (Decidable (strictly_increasing Comp l ∧ no_zero_exponent l))

/-- The exponent of the base `b` in the list `l`: that of the first term of `l` with base `b`,
and `0` when `l` has no term with base `b`. -/
def exponent_of {T : Type} [DecidableEq T] : List (Power T) → T → Int
  | [], _ => 0
  | p :: l, b => if p.Base = b then p.exponent else exponent_of l b

/-- A comparator of powers that looks at the bases only and is a strict total order on
them. -/
structure StrictTotalOrder {T : Type} (Comp : Power T → Power T → ordering) : Prop where
  base_only : ∀ p q p' q' : Power T,
    p.Base = p'.Base → q.Base = q'.Base → Comp p q = Comp p' q'
  equivalent_iff : ∀ p q : Power T, Comp p q = ordering.equivalent ↔ p.Base = q.Base
  greater_iff : ∀ p q : Power T, Comp p q = ordering.greater ↔ Comp q p = ordering.less
  less_trans : ∀ p q r : Power T,
    Comp p q = ordering.less → Comp q r = ordering.less → Comp p r = ordering.less

/-- The lambda `reducer` of `make_combined_dimension_raw_impl`: the product of two lists of
powers of base dimensions. -/
def make_combined_dimension_raw_impl.reducer (accumulated_list list_to_add : List (Power Symbol)) :
    List (Power Symbol) :=
  merge_combine_filter accumulated_list list_to_add DimensionComparator PowerCombiner

/-! ## Properties of a factorization -/

/-- The product of `factor ^ exponent` over the pairs of a factorization. -/
def factors_product (r : prime_factorization_result_t) : Nat :=
  (r.factors.map fun fe => fe.factor ^ fe.exponent.toNat).prod

/-- Every factor of the factorization is strictly greater than the one before it. -/
def factors_strictly_ascending (r : prime_factorization_result_t) : Prop :=
  ∀ i j : Fin r.factors.length, i < j → (r.factors.get i).factor < (r.factors.get j).factor

end units

/-! ## Invariants of the factorization loops -/

namespace units

/-- The outcome is a value with the property `P`, or the overflow of a fixed array; it is
neither the exhaustion of the budget nor an ill-formed program. -/
def Outcome.ok_or_out_of_bounds {α : Type} (P : α → Prop) : Outcome α → Prop
  | .ok a => P a
  | .out_of_bounds => True
  | .out_of_fuel => False
  | .ill_formed => False

/-- The states of the 6-wheel: `factor` is `1` or `5` modulo `6`, and `incr` is the step to the
next such number. -/
def wheel (factor incr : Nat) : Prop :=
  (factor % 6 = 1 ∧ incr = 4) ∨ (factor % 6 = 5 ∧ incr = 2)

/-- The invariant of the factorization: the factors found so far are increasing, have exponents
of at least one and are smaller than every divisor (other than `1`) of the part `n` that is
left, and together with `n` they multiply to `originalN`. -/
def loop_invariant (originalN n : Nat) (result : prime_factorization_result_t) : Prop :=
  1 ≤ n ∧ factors_product result * n = originalN ∧
  result.factors.Pairwise (fun a b => a.factor < b.factor) ∧
  (∀ fe ∈ result.factors, ∀ d, 2 ≤ d → d ∣ n → fe.factor < d) ∧
  (∀ fe ∈ result.factors, 2 ≤ fe.factor ∧ 1 ≤ fe.exponent)

end units

/-! ## meta.hpp and downcast.hpp: list functions and the downcast protocol -/

namespace meta

/-- The function template `transform`. -/
def transform {α β : Type} (list : List α) (fn : α → β) : List β :=
  list.map fn

/-- The function template `reduce`. -/
def reduce {ρ α : Type} (result : ρ) (list : List α) (reducer : ρ → α → ρ) : ρ :=
  match list with
  | [] => result
  | head :: tail => reduce (reducer result head) tail reducer

/-- A type that takes part in the downcast protocol: the type `T` itself, which derives from
`downcast_base<T>`, or a type `Target` that derives from `downcast_child<Target, T>` and hence
from `T`. -/
inductive downcast_type (T : Type) where
  | base (t : T)
  | child (Target : Symbol) (t : T)
  deriving DecidableEq

/-- The member alias `downcast_base_type`. -/
def downcast_type.downcast_base_type {T : Type} : downcast_type T → T
  | .base t => t
  | .child _ t => t

/-- The alias template `downcast<T>` (`downcast_target_impl<T>()`).  The friend functions
`downcast_guide` are defined by the declarations of the program: `downcast_guide t` is
`some Target` when the program declares a type `Target` that derives from
`downcast_child<Target, T>`, and then `has_downcast<T>` holds. -/
def downcast {T : Type} (downcast_guide : T → Option Symbol) (t : T) : downcast_type T :=
  match downcast_guide t with
  | some Target => .child Target t
  | none => .base t

/-- The friend functions `downcast_guide` that a list of declarations `(Target, T)` of types
`Target` deriving from `downcast_child<Target, T>` defines. -/
def declared_downcast_guide {T : Type} [DecidableEq T] (declarations : List (Symbol × T))
    (t : T) : Option Symbol :=
  match declarations.find? (fun d => d.2 = t) with
  | some d => some d.1
  | none => none

end meta

/-! ## dimension.hpp: dimensions -/

namespace units

open meta

/-- The class template `dimension_raw<DimensionPowers...>`, given by its list of arguments. -/
abbrev dimension_raw : Type := List (Power Symbol)

/-- The static member function `typelist` of a dimension: of `dimension_raw<...>` itself or of
a type that derives from it through `named_dimension`. -/
def typelist (Dimension : downcast_type dimension_raw) : List (Power Symbol) :=
  Dimension.downcast_base_type

/-- The class template `named_dimension<Child, DimensionRaw>`. -/
def named_dimension (Child : Symbol) (DimensionRaw : dimension_raw) :
    downcast_type dimension_raw :=
  .child Child DimensionRaw

/-- The alias `BaseDimension<Child>`. -/
def BaseDimension (Child : Symbol) : downcast_type dimension_raw :=
  named_dimension Child [⟨Child, 1⟩]

/-- The function template `to_base_dimensions<DimensionPower>`.  The argument is a
`Power<Dim, N>`, which carries `static_assert(N != 0)`; the lambda `pow_multiplier` carries
`static_assert(exp * exp_to_multiply != 0)`. -/
def to_base_dimensions (DimensionPower : Power (downcast_type dimension_raw)) :
    Outcome (List (Power Symbol)) :=
  let exp_to_multiply := DimensionPower.exponent
  let base_dimensions := typelist DimensionPower.Base
  if exp_to_multiply ≠ 0 ∧ ∀ DimPower ∈ base_dimensions, DimPower.exponent * exp_to_multiply ≠ 0
  then
    .ok (transform base_dimensions fun DimPower =>
      ⟨DimPower.Base, DimPower.exponent * exp_to_multiply⟩)
  else .ill_formed

/-- The list `list_of_list_of_dim_power` of `make_combined_dimension_raw_impl`. -/
def make_combined_dimension_raw_impl.list_of_list_of_dim_power :
    List (Power (downcast_type dimension_raw)) → Outcome (List (List (Power Symbol)))
  | [] => .ok []
  | DimensionPower :: DimensionPowers =>
    (to_base_dimensions DimensionPower).bind fun head =>
      (make_combined_dimension_raw_impl.list_of_list_of_dim_power DimensionPowers).bind
        fun tail => .ok (head :: tail)

/-- The alias `make_combined_dimension_raw<DimensionPowers...>`. -/
def make_combined_dimension_raw (DimensionPowers : List (Power (downcast_type dimension_raw))) :
    Outcome dimension_raw :=
  (make_combined_dimension_raw_impl.list_of_list_of_dim_power DimensionPowers).bind
    fun list_of_list_of_dim_power =>
      .ok (reduce [] list_of_list_of_dim_power make_combined_dimension_raw_impl.reducer)

/-- The alias `inverse_dimension_raw<Dimension>`. -/
def inverse_dimension_raw (Dimension : downcast_type dimension_raw) : dimension_raw :=
  transform (typelist Dimension) Power.inverse

/-- The alias `CombinedDimension<Child, DimensionPowers...>`. -/
def CombinedDimension (Child : Symbol)
    (DimensionPowers : List (Power (downcast_type dimension_raw))) :
    Outcome (downcast_type dimension_raw) :=
  (make_combined_dimension_raw DimensionPowers).bind fun DimensionRaw =>
    .ok (named_dimension Child DimensionRaw)

/-- The struct `Scalar`. -/
def Scalar : downcast_type dimension_raw :=
  named_dimension ⟨"Scalar"⟩ []

/-! ## unit.hpp -/

/-- The class template `unit_raw<Dim, Mag>` with its member aliases `Dimension` and
`Magnitude`. -/
structure unit_raw where
  Dimension : downcast_type dimension_raw
  Magnitude : magnitude_raw
  deriving DecidableEq

/-- The class template `named_unit<Child, UnitRaw>`. -/
def named_unit (Child : Symbol) (UnitRaw : unit_raw) : downcast_type unit_raw :=
  .child Child UnitRaw

/-- The alias `inverse_unit_raw<UnitRaw>`. -/
def inverse_unit_raw (UnitRaw : downcast_type unit_raw) : unit_raw :=
  ⟨.base (inverse_dimension_raw UnitRaw.downcast_base_type.Dimension),
    InverseMagnitude UnitRaw.downcast_base_type.Magnitude⟩

/-- The alias `inverse_unit<Unit>`. -/
def inverse_unit (unit_guide : unit_raw → Option Symbol) (Unit : downcast_type unit_raw) :
    downcast_type unit_raw :=
  downcast unit_guide (inverse_unit_raw Unit)

/-- The alias `multiply_unit_raw<UnitRaw1, UnitRaw2>`. -/
def multiply_unit_raw (dimension_guide : dimension_raw → Option Symbol)
    (UnitRaw1 UnitRaw2 : downcast_type unit_raw) : Outcome unit_raw :=
  (make_combined_dimension_raw
      [⟨UnitRaw1.downcast_base_type.Dimension, 1⟩,
        ⟨UnitRaw2.downcast_base_type.Dimension, 1⟩]).bind fun DimensionRaw =>
    .ok ⟨downcast dimension_guide DimensionRaw,
      MultiplyMagnitude UnitRaw1.downcast_base_type.Magnitude
        UnitRaw2.downcast_base_type.Magnitude⟩

/-- The alias `multiply_unit<Unit1, Unit2>`. -/
def multiply_unit (dimension_guide : dimension_raw → Option Symbol)
    (unit_guide : unit_raw → Option Symbol) (Unit1 Unit2 : downcast_type unit_raw) :
    Outcome (downcast_type unit_raw) :=
  (multiply_unit_raw dimension_guide Unit1 Unit2).bind fun UnitRaw =>
    .ok (downcast unit_guide UnitRaw)

/-- The `operator*` of two units. -/
def unit_times (dimension_guide : dimension_raw → Option Symbol)
    (unit_guide : unit_raw → Option Symbol) (Unit1 Unit2 : downcast_type unit_raw) :
    Outcome (downcast_type unit_raw) :=
  multiply_unit dimension_guide unit_guide Unit1 Unit2

/-- The `operator/` of two units. -/
def unit_divide (dimension_guide : dimension_raw → Option Symbol)
    (unit_guide : unit_raw → Option Symbol) (Unit1 Unit2 : downcast_type unit_raw) :
    Outcome (downcast_type unit_raw) :=
  multiply_unit dimension_guide unit_guide Unit1 (inverse_unit unit_guide Unit2)

/-- The alias `BaseUnit<Child, Dimension>`. -/
def BaseUnit (Child : Symbol) (Dimension : downcast_type dimension_raw) :
    downcast_type unit_raw :=
  named_unit Child ⟨Dimension, []⟩

/-- The alias `ScaledUnit<Child, Unit, Magnitude>`. -/
def ScaledUnit (Child : Symbol) (Unit : downcast_type unit_raw) (Magnitude : magnitude_raw) :
    downcast_type unit_raw :=
  named_unit Child ⟨Unit.downcast_base_type.Dimension,
    MultiplyMagnitude Unit.downcast_base_type.Magnitude Magnitude⟩

/-- The struct `ScalarUnit`. -/
def ScalarUnit : downcast_type unit_raw :=
  BaseUnit ⟨"ScalarUnit"⟩ Scalar

end units

/-! ## tests/unit_definition.h: the declarations used by the tests -/

namespace meta

/-- The declaration `(Target, T)` that a type `Target` deriving from
`downcast_child<Target, T>` makes; a type `T` itself declares nothing. -/
def downcast_type.declarations {T : Type} : downcast_type T → List (Symbol × T)
  | .base _ => []
  | .child Target t => [(Target, t)]

end meta

namespace units

open meta

/-- The declarations of a type whose construction may fail. -/
def Outcome.declarations {T : Type} : Outcome (downcast_type T) → List (Symbol × T)
  | .ok D => D.declarations
  | _ => []

end units

namespace unit_definition

open meta units

/-- The declaration `struct Length : units::BaseDimension<Length> {};`. -/
def Length : downcast_type dimension_raw := BaseDimension ⟨"Length"⟩

/-- The declaration `struct Time : units::BaseDimension<Time> {};`. -/
def Time : downcast_type dimension_raw := BaseDimension ⟨"Time"⟩

/-- The declaration
`struct Speed : units::CombinedDimension<Speed, units::Power<Length, 1>, units::Power<Time, -1>> {};`. -/
def Speed : Outcome (downcast_type dimension_raw) :=
  CombinedDimension ⟨"Speed"⟩ [⟨Length, 1⟩, ⟨Time, -1⟩]

/-- The declaration `struct metre : units::BaseUnit<metre, Length> {};`. -/
def metre : downcast_type unit_raw := BaseUnit ⟨"metre"⟩ Length

/-- The declaration
`struct kilometre : units::ScaledUnit<kilometre, metre, units::MagnitudeFromRatio<std::kilo>> {};`,
where `std::kilo` is `std::ratio<1000, 1>`. -/
def kilometre : Outcome (downcast_type unit_raw) :=
  (MagnitudeFromRatio 1000 1).bind fun Magnitude =>
    .ok (ScaledUnit ⟨"kilometre"⟩ metre Magnitude)

/-- The declaration
`struct millimetre : units::ScaledUnit<millimetre, metre, units::MagnitudeFromRatio<std::milli>> {};`,
where `std::milli` is `std::ratio<1, 1000>`. -/
def millimetre : Outcome (downcast_type unit_raw) :=
  (MagnitudeFromRatio 1 1000).bind fun Magnitude =>
    .ok (ScaledUnit ⟨"millimetre"⟩ metre Magnitude)

/-- The declaration `struct second : units::BaseUnit<second, Time> {};`. -/
def second : downcast_type unit_raw := BaseUnit ⟨"second"⟩ Time

/-- The declaration
`struct kilosecond : units::ScaledUnit<kilosecond, second, units::MagnitudeFromRatio<std::kilo>> {};`. -/
def kilosecond : Outcome (downcast_type unit_raw) :=
  (MagnitudeFromRatio 1000 1).bind fun Magnitude =>
    .ok (ScaledUnit ⟨"kilosecond"⟩ second Magnitude)

/-- The declaration
`struct millisecond : units::ScaledUnit<millisecond, second, units::MagnitudeFromRatio<std::milli>> {};`. -/
def millisecond : Outcome (downcast_type unit_raw) :=
  (MagnitudeFromRatio 1 1000).bind fun Magnitude =>
    .ok (ScaledUnit ⟨"millisecond"⟩ second Magnitude)

/-- The declaration
`struct minute : units::ScaledUnit<minute, second, units::MagnitudeFromInt<60>> {};`. -/
def minute : Outcome (downcast_type unit_raw) :=
  (MagnitudeFromInt 60).bind fun Magnitude =>
    .ok (ScaledUnit ⟨"minute"⟩ second Magnitude)

/-- The declaration `struct metre_per_second : units::BaseUnit<metre_per_second, Speed> {};`. -/
def metre_per_second : Outcome (downcast_type unit_raw) :=
  Speed.bind fun Speed => .ok (BaseUnit ⟨"metre_per_second"⟩ Speed)

/-- The friend functions `downcast_guide` for dimensions that the library (`Scalar`) and
`unit_definition.h` define. -/
def dimension_guide : dimension_raw → Option Symbol :=
  declared_downcast_guide
    (Scalar.declarations ++ Length.declarations ++ Time.declarations
      ++ Outcome.declarations Speed)

/-- The friend functions `downcast_guide` for units that the library (`ScalarUnit`) and
`unit_definition.h` define. -/
def unit_guide : unit_raw → Option Symbol :=
  declared_downcast_guide
    (ScalarUnit.declarations ++ metre.declarations ++ Outcome.declarations kilometre
      ++ Outcome.declarations millimetre ++ second.declarations
      ++ Outcome.declarations kilosecond ++ Outcome.declarations millisecond
      ++ Outcome.declarations minute ++ Outcome.declarations metre_per_second)

end unit_definition

/-! ## Well-formed units -/

namespace units

open meta

/-- A unit whose dimension and whose magnitude are canonical lists. -/
def canonical_unit (Unit : downcast_type unit_raw) : Prop :=
  canonical DimensionComparator (typelist Unit.downcast_base_type.Dimension) ∧
  canonical MagnitudeComparator Unit.downcast_base_type.Magnitude

/-- A unit in resolved form: its dimension is what `downcast` makes of the list of terms of the
dimension, and the unit is what `downcast` makes of its `unit_raw`.  The units that the program
declares with declared dimensions, and the results of `operator*` and `operator/`, have this
form. -/
def resolved_unit (dimension_guide : dimension_raw → Option Symbol)
    (unit_guide : unit_raw → Option Symbol) (Unit : downcast_type unit_raw) : Prop :=
  Unit.downcast_base_type.Dimension
      = downcast dimension_guide (typelist Unit.downcast_base_type.Dimension) ∧
  Unit = downcast unit_guide Unit.downcast_base_type

end units

/-! ## quantity.hpp: evaluation of a magnitude and conversion between units -/

namespace units

open meta

/-- The function template `detail::int_pow<exp>(value)`, on values that are rational numbers.
The template argument `exp` is an `int`; `exp / 2` and `exp % 2` are the truncating division
and remainder of C++. -/
def int_pow (exp : Int) (value : ℚ) : ℚ :=
  if exp < 0 then 1 / int_pow (-exp) value
  else if exp = 0 then 1
  else if exp = 1 then value
  else if exp.tmod 2 = 0 then int_pow (exp.tdiv 2) (value * value)
  else int_pow (exp.tdiv 2) (value * value) * value
termination_by 2 * exp.natAbs + (if exp < 0 then 1 else 0)
decreasing_by
  · split_ifs <;> omega
  · rw [Int.tdiv_eq_ediv (by omega) (by omega)]
    split_ifs <;> omega
  · rw [Int.tdiv_eq_ediv (by omega) (by omega)]
    split_ifs <;> omega

/-- The lambda that `ApplyMagnitudeAsFloat::apply` passes to `meta::reduce`.  The accumulation
type is taken to be the rational numbers.  For a factor that is not an `int_factor`, the member
template `Factor::value<AccumulationType>()` is the parameter `irrational_value`. -/
def ApplyMagnitudeAsFloat.reducer (irrational_value : Symbol → ℚ) (acc : ℚ)
    (FactorPower : Power Factor) : ℚ :=
  match FactorPower.Base with
  | .int_factor N => acc * int_pow FactorPower.exponent (int_factor_value N)
  | .other T => acc * int_pow FactorPower.exponent (irrational_value T)

/-- The function template `ApplyMagnitudeAsFloat::apply<Magnitude>(value)`. -/
def ApplyMagnitudeAsFloat.apply (irrational_value : Symbol → ℚ) (Magnitude : magnitude_raw)
    (value : ℚ) : ℚ :=
  let factor := reduce 1 Magnitude (ApplyMagnitudeAsFloat.reducer irrational_value)
  factor * value

/-- The class template `quantity<Unit, T, ApplyMagnitudePolicy>` with `T` the rational numbers
and the policy `ApplyMagnitudeAsFloat`: the unit and the member `value_`. -/
structure quantity where
  unit : downcast_type unit_raw
  value_ : ℚ
  deriving DecidableEq

/-- The member function template `quantity_base::in<Unit2>()`.  It takes part in overload
resolution only if `std::is_same_v<typename Unit::Dimension, typename Unit2::Dimension>`; a
call for which no function is available makes the program ill-formed. -/
def quantity_base.in_ (irrational_value : Symbol → ℚ) (q : quantity)
    (Unit2 : downcast_type unit_raw) : Outcome ℚ :=
  if q.unit.downcast_base_type.Dimension = Unit2.downcast_base_type.Dimension then
    let MagnitudeToApply := MultiplyMagnitude q.unit.downcast_base_type.Magnitude
      (InverseMagnitude Unit2.downcast_base_type.Magnitude)
    .ok (ApplyMagnitudeAsFloat.apply irrational_value MagnitudeToApply q.value_)
  else .ill_formed

/-- The member function template `quantity_base::as<Unit2>()`, under the same condition as
`in<Unit2>()`. -/
def quantity_base.as_ (irrational_value : Symbol → ℚ) (q : quantity)
    (Unit2 : downcast_type unit_raw) : Outcome quantity :=
  if q.unit.downcast_base_type.Dimension = Unit2.downcast_base_type.Dimension then
    (quantity_base.in_ irrational_value q Unit2).bind fun value => .ok ⟨Unit2, value⟩
  else .ill_formed

/-- The conversion factor from the unit `From` to the unit `To`: what `in<To>()` returns for
the quantity `quantity<From>(From{})`, whose value is `1`. -/
def conversion_factor (irrational_value : Symbol → ℚ) (From To : downcast_type unit_raw) :
    Outcome ℚ :=
  quantity_base.in_ irrational_value ⟨From, 1⟩ To

end units

namespace units

open meta

/-- The value that `ApplyMagnitudeAsFloat::apply` raises to the exponent of a term: for an
`int_factor` the member `value`, for another factor what its member template `value` returns. -/
def factor_value (irrational_value : Symbol → ℚ) : Factor → ℚ
  | .int_factor N => int_factor_value N
  | .other T => irrational_value T

/-- The number that a magnitude stands for: the product of the values of its factors, each
raised to its exponent. -/
def magnitude_value (irrational_value : Symbol → ℚ) (Magnitude : magnitude_raw) : ℚ :=
  (Magnitude.map fun FactorPower =>
    factor_value irrational_value FactorPower.Base ^ FactorPower.exponent).prod

end units

/-! ## meta.hpp: `split`, `merge` and `sort` -/

namespace meta

open units

/-- The underlying value of an enumerator of `ordering`:
`enum struct ordering : int { less = -1, equivalent = 0, greater = 1 }`. -/
def ordering.to_int : ordering → Int
  | .less => -1
  | .equivalent => 0
  | .greater => 1

/-- The function `is_less_or_equivalent`. -/
def is_less_or_equivalent (ord : ordering) : Bool :=
  decide (ord.to_int ≤ 0)

/-- The function template `concat`. -/
def concat {α : Type} (list1 list2 : List α) : List α :=
  list1 ++ list2

/-- The function template `split_impl`.  The member `head` of an empty `typelist` is not
available: a call of it makes the program ill-formed. -/
def split_impl {α : Type} : Nat → List α → List α → Outcome (List α × List α)
  | 0, left, right => .ok (left, right)
  | _ + 1, _, [] => .ill_formed
  | idx + 1, left, head :: tail => split_impl idx (left ++ [head]) tail

/-- The function template `split`. -/
def split {α : Type} (idx : Nat) (list : List α) : Outcome (List α × List α) :=
  split_impl idx [] list

/-- The function template `merge_impl`. -/
def merge_impl {α : Type} (Comp : α → α → ordering) : List α → List α → List α → List α
  | result, [], list2 => concat result list2
  | result, h1 :: t1, [] => concat result (h1 :: t1)
  | result, h1 :: t1, h2 :: t2 =>
    let compare_result := Comp h1 h2
    if is_less_or_equivalent compare_result then
      merge_impl Comp (result ++ [h1]) t1 (h2 :: t2)
    else
      merge_impl Comp (result ++ [h2]) (h1 :: t1) t2
termination_by _ list1 list2 => list1.length + list2.length

/-- The function template `merge`. -/
def merge {α : Type} (list1 list2 : List α) (Comp : α → α → ordering) : List α :=
  merge_impl Comp [] list1 list2

set_option linter.unusedVariables false in
/-- The function template `sort`.  For a list of fewer than two elements the first `return`
gives the list itself. -/
def sort {α : Type} (list : List α) (Comp : α → α → ordering) : Outcome (List α) :=
  if list.length < 2 then .ok list
  else
    let half_size := list.length / 2
    match hsplit : split half_size list with
    | .ok (left, right) =>
      (sort left Comp).bind fun sorted_left =>
        (sort right Comp).bind fun sorted_right =>
          .ok (merge sorted_left sorted_right Comp)
    | .out_of_bounds => .out_of_bounds
    | .out_of_fuel => .out_of_fuel
    | .ill_formed => .ill_formed
termination_by list.length
decreasing_by
  all_goals
    have key : ∀ (idx : Nat) (l r l' r' : List α),
        split_impl idx l r = Outcome.ok (l', r') →
          l'.length = l.length + idx ∧ r'.length + idx = r.length := by
      intro idx
      induction idx with
      | zero =>
        intro l r l' r' hs
        simp only [split_impl, Outcome.ok.injEq, Prod.mk.injEq] at hs
        obtain ⟨rfl, rfl⟩ := hs
        exact ⟨rfl, rfl⟩
      | succ idx ih =>
        intro l r l' r' hs
        cases r with
        | nil => simp [split_impl] at hs
        | cons head tail =>
          simp only [split_impl] at hs
          have := ih _ _ _ _ hs
          simp only [List.length_append, List.length_cons, List.length_nil] at this ⊢
          omega
    have hk := key _ _ _ _ _ hsplit
    simp only [List.length_nil] at hk
    omega

/-- A comparator that is a total preorder: the relation "not `greater`" is transitive, and the
answers for a pair and for the swapped pair agree, one being `greater` exactly when the other
is `less` (so that any two elements are comparable). -/
structure TotalPreorder {α : Type} (Comp : α → α → ordering) : Prop where
  greater_iff : ∀ a b : α, Comp a b = ordering.greater ↔ Comp b a = ordering.less
  le_trans : ∀ a b c : α, Comp a b ≠ ordering.greater → Comp b c ≠ ordering.greater →
    Comp a c ≠ ordering.greater

end meta

/-! ## primes.hpp: the products evaluated by the loop conditions -/

namespace units

/-- The condition `n % factor != 0 && factor * factor < originalN` of the loop of
`advance_to_next_prime` evaluates, within `fuel` rounds, a product `factor * factor` that is
not below `2 ^ 64`.  The operator `&&` evaluates the product only when `n % factor != 0`, and
the loop goes on to the next round only when the condition holds. -/
def advance_to_next_prime_overflows : Nat → Nat → Nat → Nat → Nat → Prop
  | 0, _, _, _, _ => False
  | fuel + 1, originalN, n, factor, incr =>
    let factor := (factor + incr) % UINT64_SIZE
    let incr := incr ^^^ 6
    n % factor ≠ 0 ∧
      (UINT64_SIZE ≤ factor * factor ∨
        ((factor * factor) % UINT64_SIZE < originalN ∧
          advance_to_next_prime_overflows fuel originalN n factor incr))

/-- The condition `n > 1 && factor * factor < originalN` of the main loop, or the condition of
a call of `advance_to_next_prime` in its body, evaluates a product `factor * factor` that is
not below `2 ^ 64`. -/
def main_loop_overflows (budget originalN : Nat) :
    Nat → Nat → Nat → Nat → prime_factorization_result_t → Prop
  | 0, _, _, _, _ => False
  | fuel + 1, n, factor, incr, result =>
    n > 1 ∧
      (UINT64_SIZE ≤ factor * factor ∨
        ((factor * factor) % UINT64_SIZE < originalN ∧
          match process_factor budget factor n result with
          | .ok (n, result) =>
            advance_to_next_prime_overflows budget originalN n factor incr ∨
              match advance_to_next_prime budget originalN n factor incr with
              | some (factor, incr) =>
                main_loop_overflows budget originalN fuel n factor incr result
              | none => False
          | _ => False))

/-- A loop condition of `prime_factorization` evaluates a product `factor * factor` that is not
below `2 ^ 64`, every loop running for at most `fuel` rounds. -/
def prime_factorization_fuel_overflows (fuel n : Nat) : Prop :=
  let result : prime_factorization_result_t := ⟨[]⟩
  let originalN := n
  match (if n % 2 = 0 then process_factor fuel 2 n result else .ok (n, result)) with
  | .ok (n, result) =>
    match (if n % 3 = 0 then process_factor fuel 3 n result else .ok (n, result)) with
    | .ok (n, result) =>
      let factor := 1
      let incr := 4
      advance_to_next_prime_overflows fuel originalN n factor incr ∨
        match advance_to_next_prime fuel originalN n factor incr with
        | some (factor, incr) => main_loop_overflows fuel originalN fuel n factor incr result
        | none => False
    | _ => False
  | _ => False

/-- A loop condition of `prime_factorization(n)` evaluates a product `factor * factor` that is
not below `2 ^ 64`. -/
def prime_factorization_overflows (n : Nat) : Prop :=
  prime_factorization_fuel_overflows UINT64_SIZE n

end units

/-! ## quantity.hpp: division of quantities -/

namespace units

open meta

/-- The `operator/` of two quantities (`quantity.hpp`, lines 305 to 312). -/
def quantity_divide (dimension_guide : dimension_raw → Option Symbol)
    (unit_guide : unit_raw → Option Symbol) (lhs rhs : quantity) : Outcome quantity :=
  (multiply_unit dimension_guide unit_guide lhs.unit (inverse_unit unit_guide rhs.unit)).bind
    fun ResUnit => .ok ⟨ResUnit, lhs.value_ / rhs.value_⟩

/-- The `operator/` of a quantity and a scalar,
`operator/(const quantity<Unit1, T1, ApplyMagnitudePolicy>& lhs, const T2& rhs)`
(`quantity.hpp`, lines 292 to 297). -/
def quantity_divide_scalar (dimension_guide : dimension_raw → Option Symbol)
    (unit_guide : unit_raw → Option Symbol) (lhs : quantity) (rhs : ℚ) : Outcome quantity :=
  quantity_divide dimension_guide unit_guide lhs ⟨ScalarUnit, rhs⟩

/-- The `operator/` of a scalar and a quantity,
`operator/(const T2& rhs, const quantity<Unit1, T1, ApplyMagnitudePolicy>& lhs)`
(`quantity.hpp`, lines 299 to 303): in the expression `k / q` the parameter `rhs` is `k` and the
parameter `lhs` is `q`; the body is `return lhs / quantity<ScalarUnit, T2, ...>(rhs);`. -/
def scalar_divide_quantity (dimension_guide : dimension_raw → Option Symbol)
    (unit_guide : unit_raw → Option Symbol) (rhs : ℚ) (lhs : quantity) : Outcome quantity :=
  quantity_divide dimension_guide unit_guide lhs ⟨ScalarUnit, rhs⟩

end units

/-! ## The merge: unfolding lemmas -/

namespace meta

section impl

variable {α : Type} (Comp : α → α → ordering) (combine : α → α → Option α)

theorem merge_combine_filter_impl_append (result list1 list2 : List α) :
    ∀ pre : List α, merge_combine_filter_impl Comp combine (pre ++ result) list1 list2
      = pre ++ merge_combine_filter_impl Comp combine result list1 list2 := by
  induction result, list1, list2 using merge_combine_filter_impl.induct Comp combine with
  | case1 result list2 =>
    intro pre
    simp [merge_combine_filter_impl]
  | case2 result h1 t1 =>
    intro pre
    simp [merge_combine_filter_impl]
  | case3 result h1 t1 h2 t2 hc hn ih =>
    intro pre
    rw [merge_combine_filter_impl, merge_combine_filter_impl]
    simp only [hc, hn]
    exact ih pre
  | case4 result h1 t1 h2 t2 hc c hs ih =>
    intro pre
    rw [merge_combine_filter_impl, merge_combine_filter_impl]
    simp only [hc, hs]
    rw [List.append_assoc]
    exact ih pre
  | case5 result h1 t1 h2 t2 hc ih =>
    intro pre
    rw [merge_combine_filter_impl, merge_combine_filter_impl]
    simp only [hc]
    rw [List.append_assoc]
    exact ih pre
  | case6 result h1 t1 h2 t2 hc ih =>
    intro pre
    rw [merge_combine_filter_impl, merge_combine_filter_impl]
    simp only [hc]
    rw [List.append_assoc]
    exact ih pre

theorem merge_combine_filter_nil_left (list2 : List α) :
    merge_combine_filter [] list2 Comp combine = list2 := by
  simp [merge_combine_filter, merge_combine_filter_impl]

theorem merge_combine_filter_nil_right (list1 : List α) :
    merge_combine_filter list1 [] Comp combine = list1 := by
  cases list1 <;> simp [merge_combine_filter, merge_combine_filter_impl]

theorem merge_combine_filter_less {h1 h2 : α} (t1 t2 : List α)
    (hc : Comp h1 h2 = ordering.less) :
    merge_combine_filter (h1 :: t1) (h2 :: t2) Comp combine
      = h1 :: merge_combine_filter t1 (h2 :: t2) Comp combine := by
  unfold merge_combine_filter
  rw [merge_combine_filter_impl]
  simp only [hc]
  have h := merge_combine_filter_impl_append Comp combine [] t1 (h2 :: t2) [h1]
  simpa using h

theorem merge_combine_filter_greater {h1 h2 : α} (t1 t2 : List α)
    (hc : Comp h1 h2 = ordering.greater) :
    merge_combine_filter (h1 :: t1) (h2 :: t2) Comp combine
      = h2 :: merge_combine_filter (h1 :: t1) t2 Comp combine := by
  unfold merge_combine_filter
  rw [merge_combine_filter_impl]
  simp only [hc]
  have h := merge_combine_filter_impl_append Comp combine [] (h1 :: t1) t2 [h2]
  simpa using h

theorem merge_combine_filter_equivalent_none {h1 h2 : α} (t1 t2 : List α)
    (hc : Comp h1 h2 = ordering.equivalent) (hn : combine h1 h2 = none) :
    merge_combine_filter (h1 :: t1) (h2 :: t2) Comp combine
      = merge_combine_filter t1 t2 Comp combine := by
  unfold merge_combine_filter
  rw [merge_combine_filter_impl]
  simp only [hc, hn]

theorem merge_combine_filter_equivalent_some {h1 h2 c : α} (t1 t2 : List α)
    (hc : Comp h1 h2 = ordering.equivalent) (hs : combine h1 h2 = some c) :
    merge_combine_filter (h1 :: t1) (h2 :: t2) Comp combine
      = c :: merge_combine_filter t1 t2 Comp combine := by
  unfold merge_combine_filter
  rw [merge_combine_filter_impl]
  simp only [hc, hs]
  have h := merge_combine_filter_impl_append Comp combine [] t1 t2 [c]
  simpa using h

/-- Induction along the recursion of `merge_combine_filter`. -/
theorem merge_combine_filter_induction (motive : List α → List α → Prop)
    (nil_left : ∀ list2, motive [] list2)
    (nil_right : ∀ h1 t1, motive (h1 :: t1) [])
    (equivalent_none : ∀ h1 t1 h2 t2, Comp h1 h2 = ordering.equivalent →
      combine h1 h2 = none → motive t1 t2 → motive (h1 :: t1) (h2 :: t2))
    (equivalent_some : ∀ h1 t1 h2 t2 c, Comp h1 h2 = ordering.equivalent →
      combine h1 h2 = some c → motive t1 t2 → motive (h1 :: t1) (h2 :: t2))
    (less : ∀ h1 t1 h2 t2, Comp h1 h2 = ordering.less →
      motive t1 (h2 :: t2) → motive (h1 :: t1) (h2 :: t2))
    (greater : ∀ h1 t1 h2 t2, Comp h1 h2 = ordering.greater →
      motive (h1 :: t1) t2 → motive (h1 :: t1) (h2 :: t2))
    (list1 list2 : List α) : motive list1 list2 :=
  merge_combine_filter_impl.induct Comp combine (fun _ a b => motive a b)
    (fun _ list2 => nil_left list2)
    (fun _ h1 t1 => nil_right h1 t1)
    (fun _ h1 t1 h2 t2 hc hn ih => equivalent_none h1 t1 h2 t2 hc hn ih)
    (fun _ h1 t1 h2 t2 hc c hs ih => equivalent_some h1 t1 h2 t2 c hc hs ih)
    (fun _ h1 t1 h2 t2 hc ih => less h1 t1 h2 t2 hc ih)
    (fun _ h1 t1 h2 t2 hc ih => greater h1 t1 h2 t2 hc ih)
    [] list1 list2

end impl

end meta

/-! ## The merge with `PowerCombiner` on sorted lists of powers -/

namespace units

open meta

section powers

variable {T : Type} (Comp : Power T → Power T → ordering)

theorem PowerCombiner_eq_none {p q : Power T} (h : PowerCombiner p q = none) :
    p.exponent + q.exponent = 0 := by
  unfold PowerCombiner at h
  by_contra hne
  simp [hne] at h

theorem PowerCombiner_eq_some {p q c : Power T} (h : PowerCombiner p q = some c) :
    c.Base = p.Base ∧ c.exponent = p.exponent + q.exponent ∧ c.exponent ≠ 0 := by
  unfold PowerCombiner at h
  by_cases hz : p.exponent + q.exponent = 0
  · simp [hz] at h
  · simp only [hz, if_false, Option.some.injEq] at h
    subst h
    exact ⟨rfl, rfl, hz⟩

/-- Every base of the merged list is a base of one of the two arguments. -/
theorem merge_combine_filter_base (P : T → Prop) (l1 l2 : List (Power T)) :
    (∀ p ∈ l1, P p.Base) → (∀ p ∈ l2, P p.Base) →
      ∀ p ∈ merge_combine_filter l1 l2 Comp PowerCombiner, P p.Base := by
  induction l1, l2 using merge_combine_filter_induction Comp PowerCombiner with
  | nil_left list2 =>
    intro _ h2
    rw [merge_combine_filter_nil_left]
    exact h2
  | nil_right h1 t1 =>
    intro h1 _
    rw [merge_combine_filter_nil_right]
    exact h1
  | equivalent_none h1 t1 h2 t2 hc hn ih =>
    intro H1 H2
    rw [merge_combine_filter_equivalent_none Comp PowerCombiner t1 t2 hc hn]
    exact ih (fun p hp => H1 p (List.mem_cons_of_mem _ hp))
      (fun p hp => H2 p (List.mem_cons_of_mem _ hp))
  | equivalent_some h1 t1 h2 t2 c hc hs ih =>
    intro H1 H2
    rw [merge_combine_filter_equivalent_some Comp PowerCombiner t1 t2 hc hs]
    intro p hp
    rcases List.mem_cons.mp hp with rfl | hp
    · rw [(PowerCombiner_eq_some hs).1]
      exact H1 h1 (List.mem_cons_self _ _)
    · exact ih (fun p hp => H1 p (List.mem_cons_of_mem _ hp))
        (fun p hp => H2 p (List.mem_cons_of_mem _ hp)) p hp
  | less h1 t1 h2 t2 hc ih =>
    intro H1 H2
    rw [merge_combine_filter_less Comp PowerCombiner t1 t2 hc]
    intro p hp
    rcases List.mem_cons.mp hp with rfl | hp
    · exact H1 p (List.mem_cons_self _ _)
    · exact ih (fun p hp => H1 p (List.mem_cons_of_mem _ hp)) H2 p hp
  | greater h1 t1 h2 t2 hc ih =>
    intro H1 H2
    rw [merge_combine_filter_greater Comp PowerCombiner t1 t2 hc]
    intro p hp
    rcases List.mem_cons.mp hp with rfl | hp
    · exact H2 p (List.mem_cons_self _ _)
    · exact ih H1 (fun p hp => H2 p (List.mem_cons_of_mem _ hp)) p hp

/-- The merge never produces a zero exponent out of nonzero exponents. -/
theorem merge_combine_filter_no_zero_exponent (l1 l2 : List (Power T)) :
    no_zero_exponent l1 → no_zero_exponent l2 →
      no_zero_exponent (merge_combine_filter l1 l2 Comp PowerCombiner) := by
  unfold no_zero_exponent
  induction l1, l2 using merge_combine_filter_induction Comp PowerCombiner with
  | nil_left list2 =>
    intro _ h2
    rw [merge_combine_filter_nil_left]
    exact h2
  | nil_right h1 t1 =>
    intro h1 _
    rw [merge_combine_filter_nil_right]
    exact h1
  | equivalent_none h1 t1 h2 t2 hc hn ih =>
    intro H1 H2
    rw [merge_combine_filter_equivalent_none Comp PowerCombiner t1 t2 hc hn]
    exact ih (fun p hp => H1 p (List.mem_cons_of_mem _ hp))
      (fun p hp => H2 p (List.mem_cons_of_mem _ hp))
  | equivalent_some h1 t1 h2 t2 c hc hs ih =>
    intro H1 H2
    rw [merge_combine_filter_equivalent_some Comp PowerCombiner t1 t2 hc hs]
    intro p hp
    rcases List.mem_cons.mp hp with rfl | hp
    · exact (PowerCombiner_eq_some hs).2.2
    · exact ih (fun p hp => H1 p (List.mem_cons_of_mem _ hp))
        (fun p hp => H2 p (List.mem_cons_of_mem _ hp)) p hp
  | less h1 t1 h2 t2 hc ih =>
    intro H1 H2
    rw [merge_combine_filter_less Comp PowerCombiner t1 t2 hc]
    intro p hp
    rcases List.mem_cons.mp hp with rfl | hp
    · exact H1 p (List.mem_cons_self _ _)
    · exact ih (fun p hp => H1 p (List.mem_cons_of_mem _ hp)) H2 p hp
  | greater h1 t1 h2 t2 hc ih =>
    intro H1 H2
    rw [merge_combine_filter_greater Comp PowerCombiner t1 t2 hc]
    intro p hp
    rcases List.mem_cons.mp hp with rfl | hp
    · exact H2 p (List.mem_cons_self _ _)
    · exact ih H1 (fun p hp => H2 p (List.mem_cons_of_mem _ hp)) p hp

variable {Comp}

theorem StrictTotalOrder.irrefl (L : StrictTotalOrder Comp) (p : Power T) :
    Comp p p ≠ ordering.less := by
  intro h
  have := (L.equivalent_iff p p).mpr rfl
  rw [h] at this
  cases this

theorem StrictTotalOrder.base_ne (L : StrictTotalOrder Comp) {p q : Power T}
    (h : Comp p q = ordering.less) : q.Base ≠ p.Base := by
  intro hb
  have := (L.equivalent_iff p q).mpr hb.symm
  rw [h] at this
  cases this

theorem StrictTotalOrder.less_of_base (L : StrictTotalOrder Comp) {p q p' q' : Power T}
    (hp : p.Base = p'.Base) (hq : q.Base = q'.Base) (h : Comp p q = ordering.less) :
    Comp p' q' = ordering.less := by
  rw [← L.base_only p q p' q' hp hq]
  exact h

theorem strictly_increasing_iff_chain {α : Type} (C : α → α → ordering) (l : List α) :
    strictly_increasing C l ↔ List.Chain' (fun a b => C a b = ordering.less) l := by
  induction l with
  | nil => simp [strictly_increasing]
  | cons a l ih =>
    cases l with
    | nil => simp [strictly_increasing]
    | cons b l => simp only [strictly_increasing, List.chain'_cons, ih]

/-- Under a strict total order, "strictly increasing" relates every term to all later ones. -/
theorem strictly_increasing_iff_pairwise (L : StrictTotalOrder Comp) (l : List (Power T)) :
    strictly_increasing Comp l ↔ l.Pairwise (fun p q => Comp p q = ordering.less) := by
  rw [strictly_increasing_iff_chain]
  haveI : IsTrans (Power T) (fun p q => Comp p q = ordering.less) := ⟨L.less_trans⟩
  exact List.chain'_iff_pairwise

/-- A term below all terms of both arguments is below all terms of the merged list. -/
theorem merge_combine_filter_lower_bound (L : StrictTotalOrder Comp) (x : Power T)
    (l1 l2 : List (Power T)) (h1 : ∀ p ∈ l1, Comp x p = ordering.less)
    (h2 : ∀ p ∈ l2, Comp x p = ordering.less) :
    ∀ p ∈ merge_combine_filter l1 l2 Comp PowerCombiner, Comp x p = ordering.less := by
  intro p hp
  have key := merge_combine_filter_base Comp
    (fun b => ∀ q : Power T, q.Base = b → Comp x q = ordering.less) l1 l2
    (fun r hr q hq => L.less_of_base rfl hq.symm (h1 r hr))
    (fun r hr q hq => L.less_of_base rfl hq.symm (h2 r hr)) p hp
  exact key p rfl

/-- The merge of two sorted lists is sorted. -/
theorem merge_combine_filter_pairwise (L : StrictTotalOrder Comp) (l1 l2 : List (Power T)) :
    l1.Pairwise (fun p q => Comp p q = ordering.less) →
    l2.Pairwise (fun p q => Comp p q = ordering.less) →
      (merge_combine_filter l1 l2 Comp PowerCombiner).Pairwise
        (fun p q => Comp p q = ordering.less) := by
  induction l1, l2 using merge_combine_filter_induction Comp PowerCombiner with
  | nil_left list2 =>
    intro _ h2
    rw [merge_combine_filter_nil_left]
    exact h2
  | nil_right h1 t1 =>
    intro h1 _
    rw [merge_combine_filter_nil_right]
    exact h1
  | equivalent_none h1 t1 h2 t2 hc hn ih =>
    intro H1 H2
    rw [merge_combine_filter_equivalent_none Comp PowerCombiner t1 t2 hc hn]
    exact ih (List.pairwise_cons.mp H1).2 (List.pairwise_cons.mp H2).2
  | equivalent_some h1 t1 h2 t2 c hc hs ih =>
    intro H1 H2
    rw [merge_combine_filter_equivalent_some Comp PowerCombiner t1 t2 hc hs]
    have hcb : c.Base = h1.Base := (PowerCombiner_eq_some hs).1
    have hb : h1.Base = h2.Base := (L.equivalent_iff h1 h2).mp hc
    refine List.pairwise_cons.mpr
      ⟨?_, ih (List.pairwise_cons.mp H1).2 (List.pairwise_cons.mp H2).2⟩
    apply merge_combine_filter_lower_bound L c t1 t2
    · intro q hq
      exact L.less_of_base hcb.symm rfl ((List.pairwise_cons.mp H1).1 q hq)
    · intro q hq
      exact L.less_of_base (hb.symm.trans hcb.symm) rfl ((List.pairwise_cons.mp H2).1 q hq)
  | less h1 t1 h2 t2 hc ih =>
    intro H1 H2
    rw [merge_combine_filter_less Comp PowerCombiner t1 t2 hc]
    refine List.pairwise_cons.mpr ⟨?_, ih (List.pairwise_cons.mp H1).2 H2⟩
    apply merge_combine_filter_lower_bound L h1 t1 (h2 :: t2)
    · exact (List.pairwise_cons.mp H1).1
    · intro q hq
      rcases List.mem_cons.mp hq with rfl | hq
      · exact hc
      · exact L.less_trans _ _ _ hc ((List.pairwise_cons.mp H2).1 q hq)
  | greater h1 t1 h2 t2 hc ih =>
    intro H1 H2
    rw [merge_combine_filter_greater Comp PowerCombiner t1 t2 hc]
    have hc' : Comp h2 h1 = ordering.less := (L.greater_iff h1 h2).mp hc
    refine List.pairwise_cons.mpr ⟨?_, ih H1 (List.pairwise_cons.mp H2).2⟩
    apply merge_combine_filter_lower_bound L h2 (h1 :: t1) t2
    · intro q hq
      rcases List.mem_cons.mp hq with rfl | hq
      · exact hc'
      · exact L.less_trans _ _ _ hc' ((List.pairwise_cons.mp H1).1 q hq)
    · exact (List.pairwise_cons.mp H2).1

end powers

end units

/-! ## Exponents of the merged list, and uniqueness of canonical lists -/

namespace units

open meta

section exponents

variable {T : Type} [DecidableEq T] {Comp : Power T → Power T → ordering}

theorem exponent_of_eq_zero (l : List (Power T)) (b : T) (h : ∀ p ∈ l, p.Base ≠ b) :
    exponent_of l b = 0 := by
  induction l with
  | nil => rfl
  | cons p l ih =>
    have hp : p.Base ≠ b := h p (List.mem_cons_self _ _)
    simp only [exponent_of, hp, if_false]
    exact ih (fun q hq => h q (List.mem_cons_of_mem _ hq))

/-- In a sorted list no later term repeats the base of the head. -/
theorem exponent_of_tail_eq_zero (L : StrictTotalOrder Comp) {x : Power T} {l : List (Power T)}
    (h : ∀ p ∈ l, Comp x p = ordering.less) : exponent_of l x.Base = 0 :=
  exponent_of_eq_zero l x.Base (fun p hp => L.base_ne (h p hp))

theorem exponent_of_mem (L : StrictTotalOrder Comp) (l : List (Power T))
    (hl : l.Pairwise (fun p q => Comp p q = ordering.less)) :
    ∀ p ∈ l, exponent_of l p.Base = p.exponent := by
  induction l with
  | nil => intro p hp; cases hp
  | cons x l ih =>
    intro p hp
    rcases List.mem_cons.mp hp with rfl | hp
    · simp [exponent_of]
    · have hne : x.Base ≠ p.Base := fun hb =>
        L.base_ne ((List.pairwise_cons.mp hl).1 p hp) hb.symm
      simp only [exponent_of, hne, if_false]
      exact ih (List.pairwise_cons.mp hl).2 p hp

theorem exponent_of_ne_zero_iff (L : StrictTotalOrder Comp) (l : List (Power T))
    (hl : l.Pairwise (fun p q => Comp p q = ordering.less)) (h0 : no_zero_exponent l) (b : T) :
    exponent_of l b ≠ 0 ↔ ∃ p ∈ l, p.Base = b := by
  constructor
  · intro h
    by_contra hno
    exact h (exponent_of_eq_zero l b (fun p hp hb => hno ⟨p, hp, hb⟩))
  · rintro ⟨p, hp, rfl⟩
    rw [exponent_of_mem L l hl p hp]
    exact h0 p hp

/-- The exponent of a base in the merged list is the sum of its exponents in the arguments. -/
theorem merge_combine_filter_exponent_of (L : StrictTotalOrder Comp) (l1 l2 : List (Power T))
    (b : T) :
    l1.Pairwise (fun p q => Comp p q = ordering.less) →
    l2.Pairwise (fun p q => Comp p q = ordering.less) →
      exponent_of (merge_combine_filter l1 l2 Comp PowerCombiner) b
        = exponent_of l1 b + exponent_of l2 b := by
  induction l1, l2 using merge_combine_filter_induction Comp PowerCombiner with
  | nil_left list2 =>
    intro _ _
    rw [merge_combine_filter_nil_left]
    simp [exponent_of]
  | nil_right h1 t1 =>
    intro _ _
    rw [merge_combine_filter_nil_right]
    simp [exponent_of]
  | equivalent_none h1 t1 h2 t2 hc hn ih =>
    intro H1 H2
    rw [merge_combine_filter_equivalent_none Comp PowerCombiner t1 t2 hc hn,
      ih (List.pairwise_cons.mp H1).2 (List.pairwise_cons.mp H2).2]
    have hb : h1.Base = h2.Base := (L.equivalent_iff h1 h2).mp hc
    have hsum := PowerCombiner_eq_none hn
    by_cases hx : h1.Base = b
    · have hx2 : h2.Base = b := hb ▸ hx
      have z1 := exponent_of_tail_eq_zero L (List.pairwise_cons.mp H1).1
      have z2 := exponent_of_tail_eq_zero L (List.pairwise_cons.mp H2).1
      rw [hx] at z1
      rw [hx2] at z2
      simp only [exponent_of, hx, hx2, if_true, z1, z2]
      omega
    · have hx2 : h2.Base ≠ b := hb ▸ hx
      simp only [exponent_of, hx, hx2, if_false]
  | equivalent_some h1 t1 h2 t2 c hc hs ih =>
    intro H1 H2
    rw [merge_combine_filter_equivalent_some Comp PowerCombiner t1 t2 hc hs]
    have hb : h1.Base = h2.Base := (L.equivalent_iff h1 h2).mp hc
    obtain ⟨hcb, hce, _⟩ := PowerCombiner_eq_some hs
    have IH := ih (List.pairwise_cons.mp H1).2 (List.pairwise_cons.mp H2).2
    by_cases hx : h1.Base = b
    · have hx2 : h2.Base = b := hb ▸ hx
      have hxc : c.Base = b := hcb.trans hx
      simp only [exponent_of, hx, hx2, hxc, if_true]
      exact hce
    · have hx2 : h2.Base ≠ b := hb ▸ hx
      have hxc : c.Base ≠ b := fun h => hx (hcb.symm.trans h)
      simp only [exponent_of, hx, hx2, hxc, if_false]
      exact IH
  | less h1 t1 h2 t2 hc ih =>
    intro H1 H2
    rw [merge_combine_filter_less Comp PowerCombiner t1 t2 hc]
    have IH := ih (List.pairwise_cons.mp H1).2 H2
    by_cases hx : h1.Base = b
    · have z2 : exponent_of (h2 :: t2) h1.Base = 0 := by
        apply exponent_of_tail_eq_zero L
        intro q hq
        rcases List.mem_cons.mp hq with rfl | hq
        · exact hc
        · exact L.less_trans _ _ _ hc ((List.pairwise_cons.mp H2).1 q hq)
      rw [hx] at z2
      rw [z2]
      simp [exponent_of, hx]
    · have e1 : exponent_of (h1 :: t1) b = exponent_of t1 b := by
        simp only [exponent_of, hx, if_false]
      rw [exponent_of, if_neg hx, IH, e1]
  | greater h1 t1 h2 t2 hc ih =>
    intro H1 H2
    rw [merge_combine_filter_greater Comp PowerCombiner t1 t2 hc]
    have hc' : Comp h2 h1 = ordering.less := (L.greater_iff h1 h2).mp hc
    have IH := ih H1 (List.pairwise_cons.mp H2).2
    by_cases hx : h2.Base = b
    · have z1 : exponent_of (h1 :: t1) h2.Base = 0 := by
        apply exponent_of_tail_eq_zero L
        intro q hq
        rcases List.mem_cons.mp hq with rfl | hq
        · exact hc'
        · exact L.less_trans _ _ _ hc' ((List.pairwise_cons.mp H1).1 q hq)
      rw [hx] at z1
      rw [z1]
      simp [exponent_of, hx]
    · have e2 : exponent_of (h2 :: t2) b = exponent_of t2 b := by
        simp only [exponent_of, hx, if_false]
      rw [exponent_of, if_neg hx, IH, e2]

/-- Two canonical lists that give every base the same exponent are the same list. -/
theorem canonical_ext (L : StrictTotalOrder Comp) :
    ∀ l l' : List (Power T),
      l.Pairwise (fun p q => Comp p q = ordering.less) → no_zero_exponent l →
      l'.Pairwise (fun p q => Comp p q = ordering.less) → no_zero_exponent l' →
      (∀ b, exponent_of l b = exponent_of l' b) → l = l' := by
  intro l
  induction l with
  | nil =>
    intro l' _ _ _ h0' h
    cases l' with
    | nil => rfl
    | cons x' t' =>
      exfalso
      have := h x'.Base
      simp only [exponent_of, if_true] at this
      exact h0' x' (List.mem_cons_self _ _) this.symm
  | cons x t ih =>
    intro l' hl h0 hl' h0' h
    cases l' with
    | nil =>
      exfalso
      have := h x.Base
      simp only [exponent_of, if_true] at this
      exact h0 x (List.mem_cons_self _ _) this
    | cons x' t' =>
      have hx := (List.pairwise_cons.mp hl)
      have hx' := (List.pairwise_cons.mp hl')
      cases hc : Comp x x' with
      | less =>
        exfalso
        have z : exponent_of (x' :: t') x.Base = 0 := by
          apply exponent_of_tail_eq_zero L
          intro q hq
          rcases List.mem_cons.mp hq with rfl | hq
          · exact hc
          · exact L.less_trans _ _ _ hc (hx'.1 q hq)
        have := h x.Base
        rw [z] at this
        simp only [exponent_of, if_true] at this
        exact h0 x (List.mem_cons_self _ _) this
      | greater =>
        exfalso
        have hc' : Comp x' x = ordering.less := (L.greater_iff x x').mp hc
        have z : exponent_of (x :: t) x'.Base = 0 := by
          apply exponent_of_tail_eq_zero L
          intro q hq
          rcases List.mem_cons.mp hq with rfl | hq
          · exact hc'
          · exact L.less_trans _ _ _ hc' (hx.1 q hq)
        have := h x'.Base
        rw [z] at this
        simp only [exponent_of, if_true] at this
        exact h0' x' (List.mem_cons_self _ _) this.symm
      | equivalent =>
        have hb : x.Base = x'.Base := (L.equivalent_iff x x').mp hc
        have he : x.exponent = x'.exponent := by
          have := h x.Base
          simpa [exponent_of, hb] using this
        have hxx : x = x' := by
          cases x
          cases x'
          simp only at hb he
          subst hb
          subst he
          rfl
        subst hxx
        have ht : t = t' := by
          apply ih t' hx.2 (fun p hp => h0 p (List.mem_cons_of_mem _ hp)) hx'.2
            (fun p hp => h0' p (List.mem_cons_of_mem _ hp))
          intro b
          by_cases hbx : x.Base = b
          · rw [← hbx, exponent_of_tail_eq_zero L hx.1, exponent_of_tail_eq_zero L hx'.1]
          · have := h b
            simpa [exponent_of, hbx] using this
        rw [ht]

end exponents

end units

/-! ## The two comparators are strict total orders -/

namespace units

open meta

theorem int_factor_value_injective {a b : Fin UINT64_SIZE}
    (h : int_factor_value a = int_factor_value b) : a = b := by
  have ha : a.val < 2 ^ 64 := a.isLt
  have hb : b.val < 2 ^ 64 := b.isLt
  unfold int_factor_value at h
  apply Fin.ext
  split_ifs at h <;> omega

theorem type_name_greater_iff (n1 n2 : String) :
    (if n1 = n2 then ordering.equivalent else if n1 < n2 then ordering.less
      else ordering.greater) = ordering.greater ↔
    (if n2 = n1 then ordering.equivalent else if n2 < n1 then ordering.less
      else ordering.greater) = ordering.less := by
  rcases lt_trichotomy n1 n2 with h | h | h
  · have hne : n1 ≠ n2 := ne_of_lt h
    have hn : ¬ n2 < n1 := lt_asymm h
    simp [hne, hne.symm, h, hn]
  · subst h
    simp
  · have hne : n2 ≠ n1 := ne_of_lt h
    have hn : ¬ n1 < n2 := lt_asymm h
    simp [hne, hne.symm, h, hn]

theorem MagnitudeComparator_strict_total_order : StrictTotalOrder MagnitudeComparator where
  base_only := by
    intro p q p' q' hp hq
    simp only [MagnitudeComparator, hp, hq]
  equivalent_iff := by
    rintro ⟨pb, pe⟩ ⟨qb, qe⟩
    cases pb with
    | int_factor N1 =>
      cases qb with
      | int_factor N2 =>
        simp only [MagnitudeComparator]
        constructor
        · intro h
          have hv : int_factor_value N1 = int_factor_value N2 := by
            by_contra hne
            simp only [hne, if_false] at h
            split_ifs at h
          rw [int_factor_value_injective hv]
        · intro h
          simp only [Factor.int_factor.injEq] at h
          simp [h]
      | other F2 => simp [MagnitudeComparator]
    | other F1 =>
      cases qb with
      | int_factor N2 => simp [MagnitudeComparator]
      | other F2 =>
        obtain ⟨n1⟩ := F1
        obtain ⟨n2⟩ := F2
        simp only [MagnitudeComparator]
        constructor
        · intro h
          have hv : n1 = n2 := by
            by_contra hne
            simp only [hne, if_false] at h
            split_ifs at h
          rw [hv]
        · intro h
          simp only [Factor.other.injEq, Symbol.mk.injEq] at h
          simp [h]
  greater_iff := by
    rintro ⟨pb, pe⟩ ⟨qb, qe⟩
    cases pb with
    | int_factor N1 =>
      cases qb with
      | int_factor N2 =>
        simp only [MagnitudeComparator]
        split_ifs <;> simp <;> omega
      | other F2 => simp [MagnitudeComparator]
    | other F1 =>
      cases qb with
      | int_factor N2 => simp [MagnitudeComparator]
      | other F2 =>
        simp only [MagnitudeComparator]
        exact type_name_greater_iff F1.type_name F2.type_name
  less_trans := by
    rintro ⟨pb, pe⟩ ⟨qb, qe⟩ ⟨rb, re⟩
    cases pb with
    | int_factor N1 =>
      cases qb with
      | int_factor N2 =>
        cases rb with
        | int_factor N3 =>
          simp only [MagnitudeComparator]
          split_ifs <;> simp <;> omega
        | other F3 => simp [MagnitudeComparator]
      | other F2 =>
        cases rb with
        | int_factor N3 => simp [MagnitudeComparator]
        | other F3 => simp [MagnitudeComparator]
    | other F1 =>
      cases qb with
      | int_factor N2 => simp [MagnitudeComparator]
      | other F2 =>
        cases rb with
        | int_factor N3 => simp [MagnitudeComparator]
        | other F3 =>
          simp only [MagnitudeComparator]
          intro h12 h23
          have a12 : F1.type_name < F2.type_name := by
            split_ifs at h12
            assumption
          have a23 : F2.type_name < F3.type_name := by
            split_ifs at h23
            assumption
          have a13 := lt_trans a12 a23
          rw [if_neg (ne_of_lt a13), if_pos a13]

theorem DimensionComparator_strict_total_order : StrictTotalOrder DimensionComparator where
  base_only := by
    intro p q p' q' hp hq
    simp only [DimensionComparator, hp, hq]
  equivalent_iff := by
    rintro ⟨⟨n1⟩, pe⟩ ⟨⟨n2⟩, qe⟩
    simp only [DimensionComparator]
    constructor
    · intro h
      have hv : n1 = n2 := by
        by_contra hne
        simp only [hne, if_false] at h
        split_ifs at h
      rw [hv]
    · intro h
      simp only [Symbol.mk.injEq] at h
      simp [h]
  greater_iff := by
    rintro ⟨⟨n1⟩, pe⟩ ⟨⟨n2⟩, qe⟩
    simp only [DimensionComparator]
    exact type_name_greater_iff n1 n2
  less_trans := by
    rintro ⟨⟨n1⟩, pe⟩ ⟨⟨n2⟩, qe⟩ ⟨⟨n3⟩, re⟩
    simp only [DimensionComparator]
    intro h12 h23
    have a12 : n1 < n2 := by
      split_ifs at h12
      assumption
    have a23 : n2 < n3 := by
      split_ifs at h23
      assumption
    have a13 := lt_trans a12 a23
    rw [if_neg (ne_of_lt a13), if_pos a13]

end units

/-! ## Commutativity and associativity of the merge on canonical lists -/

namespace units

open meta

section algebra

variable {T : Type} {Comp : Power T → Power T → ordering}

theorem canonical_pairwise (L : StrictTotalOrder Comp) {l : List (Power T)}
    (h : canonical Comp l) : l.Pairwise (fun p q => Comp p q = ordering.less) :=
  (strictly_increasing_iff_pairwise L l).mp h.1

theorem merge_combine_filter_preserves_canonical (L : StrictTotalOrder Comp)
    {l1 l2 : List (Power T)} (h1 : canonical Comp l1) (h2 : canonical Comp l2) :
    canonical Comp (merge_combine_filter l1 l2 Comp PowerCombiner) :=
  ⟨(strictly_increasing_iff_pairwise L _).mpr
      (merge_combine_filter_pairwise L l1 l2 (canonical_pairwise L h1) (canonical_pairwise L h2)),
    merge_combine_filter_no_zero_exponent Comp l1 l2 h1.2 h2.2⟩

variable [DecidableEq T]

theorem canonical_eq_of_exponent_of (L : StrictTotalOrder Comp) {l l' : List (Power T)}
    (h : canonical Comp l) (h' : canonical Comp l')
    (he : ∀ b, exponent_of l b = exponent_of l' b) : l = l' :=
  canonical_ext L l l' (canonical_pairwise L h) h.2 (canonical_pairwise L h') h'.2 he

theorem merge_combine_filter_comm (L : StrictTotalOrder Comp) {l1 l2 : List (Power T)}
    (h1 : canonical Comp l1) (h2 : canonical Comp l2) :
    merge_combine_filter l1 l2 Comp PowerCombiner
      = merge_combine_filter l2 l1 Comp PowerCombiner := by
  apply canonical_eq_of_exponent_of L
    (merge_combine_filter_preserves_canonical L h1 h2)
    (merge_combine_filter_preserves_canonical L h2 h1)
  intro b
  rw [merge_combine_filter_exponent_of L l1 l2 b (canonical_pairwise L h1)
      (canonical_pairwise L h2),
    merge_combine_filter_exponent_of L l2 l1 b (canonical_pairwise L h2)
      (canonical_pairwise L h1)]
  exact Int.add_comm _ _

theorem merge_combine_filter_assoc (L : StrictTotalOrder Comp) {l1 l2 l3 : List (Power T)}
    (h1 : canonical Comp l1) (h2 : canonical Comp l2) (h3 : canonical Comp l3) :
    merge_combine_filter (merge_combine_filter l1 l2 Comp PowerCombiner) l3 Comp PowerCombiner
      = merge_combine_filter l1 (merge_combine_filter l2 l3 Comp PowerCombiner)
          Comp PowerCombiner := by
  have h12 := merge_combine_filter_preserves_canonical L h1 h2
  have h23 := merge_combine_filter_preserves_canonical L h2 h3
  apply canonical_eq_of_exponent_of L
    (merge_combine_filter_preserves_canonical L h12 h3)
    (merge_combine_filter_preserves_canonical L h1 h23)
  intro b
  rw [merge_combine_filter_exponent_of L _ l3 b (canonical_pairwise L h12)
      (canonical_pairwise L h3),
    merge_combine_filter_exponent_of L l1 l2 b (canonical_pairwise L h1)
      (canonical_pairwise L h2),
    merge_combine_filter_exponent_of L l1 _ b (canonical_pairwise L h1)
      (canonical_pairwise L h23),
    merge_combine_filter_exponent_of L l2 l3 b (canonical_pairwise L h2)
      (canonical_pairwise L h3)]
  exact Int.add_assoc _ _ _

end algebra

end units

/-! ## The factorization loops -/

namespace units

theorem Outcome.ok_or_out_of_bounds_bind {α β : Type} {P : α → Prop} {Q : β → Prop}
    {x : Outcome α} {f : α → Outcome β} (hx : x.ok_or_out_of_bounds P)
    (hf : ∀ a, P a → (f a).ok_or_out_of_bounds Q) : (x.bind f).ok_or_out_of_bounds Q := by
  cases x with
  | ok a => exact hf a hx
  | out_of_bounds => trivial
  | out_of_fuel => exact hx
  | ill_formed => exact hx

theorem Outcome.ok_or_out_of_bounds_mono {α : Type} {P Q : α → Prop} {x : Outcome α}
    (hx : x.ok_or_out_of_bounds P) (h : ∀ a, P a → Q a) : x.ok_or_out_of_bounds Q := by
  cases x with
  | ok a => exact h a hx
  | out_of_bounds => trivial
  | out_of_fuel => exact hx
  | ill_formed => exact hx

theorem add_factor_spec (r : prime_factorization_result_t) (factor : Nat) (exponent : Int) :
    (r.add_factor factor exponent).ok_or_out_of_bounds
      (fun r' => r'.factors = r.factors ++ [⟨factor, exponent⟩]) := by
  unfold prime_factorization_result_t.add_factor
  split_ifs
  · exact rfl
  · trivial

/-- The loop of `process_factor` divides `n` by the largest power of `factor` that divides it,
and counts the exponent of that power. -/
theorem process_factor_loop_spec (factor : Nat) (hf : 2 ≤ factor) :
    ∀ (fuel n : Nat) (e : Int), 1 ≤ n → n % factor = 0 → n ≤ fuel →
      ∃ n' k : Nat, process_factor_loop fuel factor n e = some (n', e + (k : Int)) ∧
        1 ≤ k ∧ n = n' * factor ^ k ∧ 1 ≤ n' ∧ n' % factor ≠ 0 := by
  intro fuel
  induction fuel with
  | zero =>
    intro n e h1 _ hle
    omega
  | succ fuel ih =>
    intro n e h1 hdiv hle
    have hmul : n = factor * (n / factor) := by
      have := Nat.div_add_mod n factor
      omega
    have hq1 : 1 ≤ n / factor := by
      rcases Nat.eq_zero_or_pos (n / factor) with h | h
      · rw [h] at hmul
        omega
      · exact h
    have hqlt : n / factor < n := Nat.div_lt_self (by omega) (by omega)
    unfold process_factor_loop
    by_cases hc : (n / factor) % factor = 0
    · simp only [hc, if_true]
      obtain ⟨n', k, hrun, hk, hn, hn', hnd⟩ := ih (n / factor) (e + 1) hq1 hc (by omega)
      refine ⟨n', k + 1, ?_, by omega, ?_, hn', hnd⟩
      · rw [hrun]
        congr 2
        push_cast
        ring
      · calc n = factor * (n / factor) := hmul
          _ = factor * (n' * factor ^ k) := by rw [← hn]
          _ = n' * factor ^ (k + 1) := by ring
    · simp only [hc, if_false]
      refine ⟨n / factor, 1, by simp, le_refl 1, ?_, hq1, hc⟩
      rw [pow_one, Nat.mul_comm]
      exact hmul

theorem process_factor_spec (factor : Nat) (hf : 2 ≤ factor) (fuel n : Nat)
    (result : prime_factorization_result_t) (h1 : 1 ≤ n) (hdiv : n % factor = 0)
    (hle : n ≤ fuel) :
    (process_factor fuel factor n result).ok_or_out_of_bounds
      (fun s => ∃ k : Nat, 1 ≤ k ∧ n = s.1 * factor ^ k ∧ 1 ≤ s.1 ∧ s.1 % factor ≠ 0 ∧
        s.2.factors = result.factors ++ [⟨factor, (k : Int)⟩]) := by
  obtain ⟨n', k, hrun, hk, hn, hn', hnd⟩ := process_factor_loop_spec factor hf fuel n 0 h1 hdiv hle
  unfold process_factor
  rw [hrun]
  simp only
  apply Outcome.ok_or_out_of_bounds_bind (add_factor_spec result factor (0 + (k : Int)))
  intro r' hr'
  refine ⟨k, hk, hn, hn', hnd, ?_⟩
  simpa using hr'

end units

namespace units

theorem UINT64_SIZE_eq : UINT64_SIZE = 18446744073709551616 := by decide

theorem wheel_xor {factor incr : Nat} (h : wheel factor incr) :
    (incr = 4 ∧ incr ^^^ 6 = 2) ∨ (incr = 2 ∧ incr ^^^ 6 = 4) := by
  rcases h with ⟨_, rfl⟩ | ⟨_, rfl⟩
  · exact Or.inl ⟨rfl, by decide⟩
  · exact Or.inr ⟨rfl, by decide⟩

/-- A divisor of a number that is divisible neither by `2` nor by `3` is `1` or `5` modulo `6`. -/
theorem divisor_mod_six {n d : Nat} (h2 : n % 2 ≠ 0) (h3 : n % 3 ≠ 0) (hd : d ∣ n) :
    d % 6 = 1 ∨ d % 6 = 5 := by
  have d2 : d % 2 ≠ 0 := fun h =>
    h2 (Nat.mod_eq_zero_of_dvd ((Nat.dvd_of_mod_eq_zero h).trans hd))
  have d3 : d % 3 ≠ 0 := fun h =>
    h3 (Nat.mod_eq_zero_of_dvd ((Nat.dvd_of_mod_eq_zero h).trans hd))
  omega

/-- The loop of `advance_to_next_prime` stops, and when `n > 1` it stops at a number of the
wheel that is at most the least divisor of `n` other than `1`. -/
theorem advance_to_next_prime_spec (originalN n : Nat) (hn1 : 1 ≤ n) (hn : n < UINT64_SIZE)
    (h2 : n % 2 ≠ 0) (h3 : n % 3 ≠ 0) :
    ∀ fuel factor incr : Nat, wheel factor incr → factor < UINT64_SIZE →
      (∀ d, 2 ≤ d → d ∣ n → factor < d) → UINT64_SIZE ≤ fuel + factor →
      ∃ f' i' : Nat, advance_to_next_prime fuel originalN n factor incr = some (f', i') ∧
        (n % f' = 0 ∨ ¬ ((f' * f') % UINT64_SIZE < originalN)) ∧
        (1 < n → wheel f' i' ∧ factor < f' ∧ f' < UINT64_SIZE ∧
          ∀ d, 2 ≤ d → d ∣ n → f' ≤ d) := by
  intro fuel
  induction fuel with
  | zero =>
    intro factor incr _ hlt _ hfuel
    rw [UINT64_SIZE_eq] at hlt hfuel
    omega
  | succ fuel ih =>
    intro factor incr hw hlt hD hfuel
    unfold advance_to_next_prime
    simp only
    rw [UINT64_SIZE_eq] at hlt hfuel hn ⊢
    by_cases hwrap : factor + incr < 18446744073709551616
    · -- no wrap-around
      rw [Nat.mod_eq_of_lt hwrap]
      have hw' : wheel (factor + incr) (incr ^^^ 6) := by
        rcases hw with ⟨hm, rfl⟩ | ⟨hm, rfl⟩
        · exact Or.inr ⟨by omega, by decide⟩
        · exact Or.inl ⟨by omega, by decide⟩
      have hnext : ∀ d, 2 ≤ d → d ∣ n → factor + incr ≤ d := by
        intro d hd2 hdn
        have h6 := divisor_mod_six h2 h3 hdn
        have hgt := hD d hd2 hdn
        rcases hw with ⟨hm, rfl⟩ | ⟨hm, rfl⟩ <;> omega
      have hpos : 0 < incr := by
        rcases hw with ⟨_, rfl⟩ | ⟨_, rfl⟩ <;> omega
      by_cases hc : n % (factor + incr) ≠ 0 ∧
          ((factor + incr) * (factor + incr)) % 18446744073709551616 < originalN
      · rw [if_pos hc]
        have hD' : ∀ d, 2 ≤ d → d ∣ n → factor + incr < d := by
          intro d hd2 hdn
          have hle := hnext d hd2 hdn
          have hne : d ≠ factor + incr := by
            intro h
            rw [h] at hdn
            exact hc.1 (Nat.mod_eq_zero_of_dvd hdn)
          omega
        obtain ⟨f', i', hrun, hexit, hpost⟩ :=
          ih (factor + incr) (incr ^^^ 6) hw' (by rw [UINT64_SIZE_eq]; exact hwrap) hD'
            (by rw [UINT64_SIZE_eq]; omega)
        rw [UINT64_SIZE_eq] at hexit hpost
        refine ⟨f', i', hrun, hexit, ?_⟩
        intro hn2
        obtain ⟨a, b, c, d⟩ := hpost hn2
        exact ⟨a, by omega, c, d⟩
      · rw [if_neg hc]
        refine ⟨factor + incr, incr ^^^ 6, rfl, ?_, ?_⟩
        · by_cases hz : n % (factor + incr) = 0
          · exact Or.inl hz
          · exact Or.inr (fun h => hc ⟨hz, h⟩)
        · intro _
          exact ⟨hw', by omega, hwrap, hnext⟩
    · -- the sum wraps around: this only happens when `n = 1`
      have hn_one : n = 1 := by
        by_contra hne
        have hgt := hD n (by omega) (dvd_refl n)
        rcases hw with ⟨hm, rfl⟩ | ⟨hm, rfl⟩ <;> omega
      have hf1 : (factor + incr) % 18446744073709551616 = 1 := by
        rcases hw with ⟨hm, rfl⟩ | ⟨hm, rfl⟩ <;> omega
      rw [hf1]
      have hc : ¬ (n % 1 ≠ 0 ∧ (1 * 1) % 18446744073709551616 < originalN) := by
        intro h
        exact h.1 (Nat.mod_one n)
      rw [if_neg hc]
      refine ⟨1, incr ^^^ 6, rfl, Or.inl (Nat.mod_one n), ?_⟩
      intro hn2
      omega

end units

namespace units

theorem factors_product_append (r r' : prime_factorization_result_t) (factor k : Nat)
    (h : r'.factors = r.factors ++ [⟨factor, (k : Int)⟩]) :
    factors_product r' = factors_product r * factor ^ k := by
  unfold factors_product
  rw [h]
  simp

/-- Dividing out the full power of the least divisor keeps the invariant. -/
theorem loop_invariant_process {originalN n n' factor k : Nat}
    {result r' : prime_factorization_result_t} (hinv : loop_invariant originalN n result)
    (hf : 2 ≤ factor) (hk : 1 ≤ k) (hn : n = n' * factor ^ k) (hn' : 1 ≤ n')
    (hnd : n' % factor ≠ 0) (hleast : ∀ d, 2 ≤ d → d ∣ n → factor ≤ d)
    (hr : r'.factors = result.factors ++ [⟨factor, (k : Int)⟩]) :
    loop_invariant originalN n' r' ∧ (∀ d, 2 ≤ d → d ∣ n' → factor < d) ∧ n' < n := by
  obtain ⟨_, hprod, hsorted, hbelow, hexp⟩ := hinv
  have hdvd : n' ∣ n := ⟨factor ^ k, hn⟩
  have hfdvd : factor ∣ n := by
    rw [hn]
    exact Dvd.dvd.mul_left (dvd_pow_self factor (by omega)) n'
  have hgt : ∀ d, 2 ≤ d → d ∣ n' → factor < d := by
    intro d hd2 hdn
    have hle := hleast d hd2 (hdn.trans hdvd)
    have hne : d ≠ factor := by
      intro h
      rw [h] at hdn
      exact hnd (Nat.mod_eq_zero_of_dvd hdn)
    omega
  have hpow : 2 ≤ factor ^ k :=
    le_trans hf (Nat.le_self_pow (by omega) factor)
  refine ⟨⟨hn', ?_, ?_, ?_, ?_⟩, hgt, ?_⟩
  · rw [factors_product_append result r' factor k hr, ← hprod, hn]
    ring
  · rw [hr, List.pairwise_append]
    refine ⟨hsorted, List.pairwise_singleton _ _, ?_⟩
    intro a ha b hb
    rw [List.mem_singleton] at hb
    subst hb
    exact hbelow a ha factor hf hfdvd
  · intro fe hfe d hd2 hdn
    rw [hr, List.mem_append, List.mem_singleton] at hfe
    rcases hfe with hfe | rfl
    · exact hbelow fe hfe d hd2 (hdn.trans hdvd)
    · exact hgt d hd2 hdn
  · intro fe hfe
    rw [hr, List.mem_append, List.mem_singleton] at hfe
    rcases hfe with hfe | rfl
    · exact hexp fe hfe
    · refine ⟨hf, ?_⟩
      show (1 : Int) ≤ (k : Int)
      exact_mod_cast hk
  · rw [hn]
    nlinarith

theorem mod_ne_zero_of_dvd {n n' c : Nat} (hdvd : n' ∣ n) (h : n % c ≠ 0) : n' % c ≠ 0 :=
  fun h' => h (Nat.mod_eq_zero_of_dvd ((Nat.dvd_of_mod_eq_zero h').trans hdvd))

/-- The main loop keeps the invariant and stops. -/
theorem main_loop_spec (originalN budget : Nat) (hb : UINT64_SIZE ≤ budget) :
    ∀ (fuel n factor incr : Nat) (result : prime_factorization_result_t),
      n ≤ fuel → n < UINT64_SIZE → n % 2 ≠ 0 → n % 3 ≠ 0 →
      (n % factor = 0 ∨ ¬ ((factor * factor) % UINT64_SIZE < originalN)) →
      (1 < n → wheel factor incr ∧ 2 ≤ factor ∧ factor < UINT64_SIZE ∧
        ∀ d, 2 ≤ d → d ∣ n → factor ≤ d) →
      loop_invariant originalN n result →
      (main_loop budget originalN fuel n factor incr result).ok_or_out_of_bounds
        (fun s => loop_invariant originalN s.1 s.2) := by
  intro fuel
  induction fuel with
  | zero =>
    intro n factor incr result hle _ _ _ _ _ hinv
    have := hinv.1
    omega
  | succ fuel ih =>
    intro n factor incr result hle hn h2 h3 hexit hpost hinv
    unfold main_loop
    by_cases hc : n > 1 ∧ (factor * factor) % UINT64_SIZE < originalN
    · rw [if_pos hc]
      obtain ⟨hw, hf2, hfU, hleast⟩ := hpost hc.1
      have hdiv : n % factor = 0 := by
        rcases hexit with h | h
        · exact h
        · exact absurd hc.2 h
      apply Outcome.ok_or_out_of_bounds_bind
        (process_factor_spec factor hf2 budget n result hinv.1 hdiv (by omega))
      rintro ⟨n', r'⟩ ⟨k, hk, hnk, hn', hnd, hr⟩
      simp only at hnk hn' hnd hr ⊢
      obtain ⟨hinv', hgt, hlt⟩ := loop_invariant_process hinv hf2 hk hnk hn' hnd hleast hr
      have hdvd : n' ∣ n := ⟨factor ^ k, hnk⟩
      obtain ⟨f', i', hrun, hexit', hpost'⟩ :=
        advance_to_next_prime_spec originalN n' hn' (by omega) (mod_ne_zero_of_dvd hdvd h2)
          (mod_ne_zero_of_dvd hdvd h3) budget factor incr hw hfU hgt (by omega)
      rw [hrun]
      simp only
      apply ih n' f' i' r' (by omega) (by omega) (mod_ne_zero_of_dvd hdvd h2)
        (mod_ne_zero_of_dvd hdvd h3) hexit' _ hinv'
      intro hn1
      obtain ⟨a, b, c, d⟩ := hpost' hn1
      exact ⟨a, by omega, c, d⟩
    · rw [if_neg hc]
      exact hinv

/-- For every `n` with `0 < n < 2 ^ 64`, and a budget of at least `2 ^ 64` iterations for each
loop, `prime_factorization` stops.  Unless it overflows the array `factors`, it returns factors
that are increasing, are at least `2`, have exponents of at least `1`, and whose powers multiply
to `n`. -/
theorem prime_factorization_fuel_spec (n : Nat) (h0 : 0 < n) (hn : n < UINT64_SIZE)
    (fuel : Nat) (hfuel : UINT64_SIZE ≤ fuel) :
    (prime_factorization_fuel fuel n).ok_or_out_of_bounds
      (fun r => factors_product r = n ∧
        r.factors.Pairwise (fun a b => a.factor < b.factor) ∧
        ∀ fe ∈ r.factors, 2 ≤ fe.factor ∧ 1 ≤ fe.exponent) := by
  unfold prime_factorization_fuel
  simp only
  have hinit : loop_invariant n n ⟨[]⟩ := by
    refine ⟨h0, ?_, List.Pairwise.nil, ?_, ?_⟩
    · simp [factors_product]
    · intro fe hfe
      cases hfe
    · intro fe hfe
      cases hfe
  -- dividing out 2
  have stage2 : (if n % 2 = 0 then process_factor fuel 2 n ⟨[]⟩
      else Outcome.ok (n, ⟨[]⟩)).ok_or_out_of_bounds
      (fun s => loop_invariant n s.1 s.2 ∧ s.1 % 2 ≠ 0 ∧ s.1 ≤ n) := by
    by_cases hc : n % 2 = 0
    · rw [if_pos hc]
      apply Outcome.ok_or_out_of_bounds_mono
        (process_factor_spec 2 (le_refl 2) fuel n ⟨[]⟩ h0 hc (by omega))
      rintro ⟨n', r'⟩ ⟨k, hk, hnk, hn', hnd, hr⟩
      simp only at hnk hn' hnd hr ⊢
      obtain ⟨hinv', _, hlt⟩ := loop_invariant_process hinit (le_refl 2) hk hnk hn' hnd
        (fun d hd _ => hd) hr
      exact ⟨hinv', hnd, by omega⟩
    · rw [if_neg hc]
      exact ⟨hinit, hc, le_refl n⟩
  apply Outcome.ok_or_out_of_bounds_bind stage2
  rintro ⟨n2, r2⟩ ⟨hinv2, h2, hle2⟩
  simp only at hinv2 h2 hle2 ⊢
  -- dividing out 3
  have stage3 : (if n2 % 3 = 0 then process_factor fuel 3 n2 r2
      else Outcome.ok (n2, r2)).ok_or_out_of_bounds
      (fun s => loop_invariant n s.1 s.2 ∧ s.1 % 2 ≠ 0 ∧ s.1 % 3 ≠ 0 ∧ s.1 ≤ n) := by
    by_cases hc : n2 % 3 = 0
    · rw [if_pos hc]
      apply Outcome.ok_or_out_of_bounds_mono
        (process_factor_spec 3 (by omega) fuel n2 r2 hinv2.1 hc (by omega))
      rintro ⟨n', r'⟩ ⟨k, hk, hnk, hn', hnd, hr⟩
      simp only at hnk hn' hnd hr ⊢
      have hleast : ∀ d, 2 ≤ d → d ∣ n2 → 3 ≤ d := by
        intro d hd hdn
        have hne : d ≠ 2 := by
          intro h
          rw [h] at hdn
          exact h2 (Nat.mod_eq_zero_of_dvd hdn)
        omega
      obtain ⟨hinv', _, hlt⟩ := loop_invariant_process hinv2 (by omega) hk hnk hn' hnd
        hleast hr
      exact ⟨hinv', mod_ne_zero_of_dvd ⟨3 ^ k, hnk⟩ h2, hnd, by omega⟩
    · rw [if_neg hc]
      exact ⟨hinv2, h2, hc, hle2⟩
  apply Outcome.ok_or_out_of_bounds_bind stage3
  rintro ⟨n3, r3⟩ ⟨hinv3, h32, h33, hle3⟩
  simp only at hinv3 h32 h33 hle3 ⊢
  -- the first candidate
  obtain ⟨f, i, hrun, hexit, hpost⟩ :=
    advance_to_next_prime_spec n n3 hinv3.1 (by omega) h32 h33 fuel 1 4
      (Or.inl ⟨by decide, rfl⟩) (by rw [UINT64_SIZE_eq]; omega)
      (fun d hd _ => by omega) (by omega)
  rw [hrun]
  simp only
  -- the main loop
  have hloop := main_loop_spec n fuel hfuel fuel n3 f i r3 (by omega) (by omega) h32 h33 hexit
    (fun hn1 => by
      obtain ⟨a, b, c, d⟩ := hpost hn1
      exact ⟨a, by omega, c, d⟩) hinv3
  apply Outcome.ok_or_out_of_bounds_bind hloop
  rintro ⟨n4, r4⟩ ⟨hn4, hprod, hsorted, hbelow, hexp⟩
  simp only at hn4 hprod hsorted hbelow hexp ⊢
  -- the remainder
  by_cases hc : n4 > 1
  · rw [if_pos hc]
    apply Outcome.ok_or_out_of_bounds_mono (add_factor_spec r4 n4 1)
    intro r5 hr5
    have hr5' : r5.factors = r4.factors ++ [⟨n4, ((1 : Nat) : Int)⟩] := by
      rw [hr5]
      rfl
    refine ⟨?_, ?_, ?_⟩
    · rw [factors_product_append r4 r5 n4 1 hr5', pow_one]
      exact hprod
    · rw [hr5, List.pairwise_append]
      refine ⟨hsorted, List.pairwise_singleton _ _, ?_⟩
      intro a ha b hb
      rw [List.mem_singleton] at hb
      subst hb
      exact hbelow a ha n4 hc (dvd_refl n4)
    · intro fe hfe
      rw [hr5, List.mem_append, List.mem_singleton] at hfe
      rcases hfe with hfe | rfl
      · exact hexp fe hfe
      · exact ⟨hc, le_refl 1⟩
  · rw [if_neg hc]
    have h1 : n4 = 1 := by omega
    rw [h1, Nat.mul_one] at hprod
    exact ⟨hprod, hsorted, hexp⟩

/-- For every `n` with `0 < n < 2 ^ 64` the function `prime_factorization` either overflows the
array `factors` or returns pairs that are strictly ascending by factor, have factors of at least
`2` and exponents of at least `1`, and whose powers multiply to `n`. -/
theorem prime_factorization_spec (n : Nat) (h0 : 0 < n) (hn : n < UINT64_SIZE) :
    prime_factorization n = Outcome.out_of_bounds ∨
    ∃ r, prime_factorization n = Outcome.ok r ∧ factors_product r = n ∧
      factors_strictly_ascending r ∧ ∀ fe ∈ r.factors, 2 ≤ fe.factor ∧ 1 ≤ fe.exponent := by
  have h := prime_factorization_fuel_spec n h0 hn UINT64_SIZE (le_refl _)
  unfold prime_factorization
  cases hrun : prime_factorization_fuel UINT64_SIZE n with
  | ok r =>
    rw [hrun] at h
    obtain ⟨hp, hs, he⟩ := h
    refine Or.inr ⟨r, rfl, hp, ?_, he⟩
    intro i j hij
    exact (List.pairwise_iff_get.mp hs) i j hij
  | out_of_bounds => exact Or.inl rfl
  | out_of_fuel =>
    rw [hrun] at h
    exact absurd h id
  | ill_formed =>
    rw [hrun] at h
    exact absurd h id

end units

/-! ## The claims -/

namespace units

open meta

/-- C1: the product of `factor ^ exponent` over the pairs returned by `prime_factorization n`
is meant to be `n` for every 64-bit `n > 0`.  At `n = 614889782588491410`, the product of the
first fifteen primes, the function returns no list of pairs at all: the fifteenth `add_factor`
writes past the fourteen slots of `factors`. -/
theorem prime_factorization_product_fails :
    0 < 614889782588491410 ∧ 614889782588491410 < UINT64_SIZE ∧
      ¬ ∃ r, prime_factorization 614889782588491410 = Outcome.ok r ∧
        factors_product r = 614889782588491410 := by
  refine ⟨by decide, by decide, ?_⟩
  have h : prime_factorization 614889782588491410 = Outcome.out_of_bounds := by decide
  rw [h]
  rintro ⟨r, hr, _⟩
  cases hr

/-- C2: every factor returned by `prime_factorization` is meant to be prime.  For `n = 25` the
function returns the single pair `(25, 1)`: the loop bound `factor * factor < originalN` is
false for `factor = 5`, so `5` is never divided out and the remainder `25` is appended as if
it were prime. -/
theorem prime_factorization_square_not_prime :
    prime_factorization 25 = Outcome.ok ⟨[⟨25, 1⟩]⟩ ∧ ¬ Nat.Prime 25 := by
  refine ⟨by decide, ?_⟩
  norm_num

/-- C3: `MultiplyMagnitude<MagnitudeFromInt<5>, MagnitudeFromInt<5>>` is
`magnitude_raw<Power<int_factor<5>, 2>>`, whereas `MagnitudeFromInt<25>` is
`magnitude_raw<Power<int_factor<25>, 1>>`. -/
theorem multiply_magnitude_from_int_differs :
    MagnitudeFromInt 5 = Outcome.ok [⟨Factor.int_factor (to_uint64 5), 1⟩] ∧
    MultiplyMagnitude [⟨Factor.int_factor (to_uint64 5), 1⟩]
        [⟨Factor.int_factor (to_uint64 5), 1⟩] = [⟨Factor.int_factor (to_uint64 5), 2⟩] ∧
    MagnitudeFromInt (5 * 5) = Outcome.ok [⟨Factor.int_factor (to_uint64 25), 1⟩] ∧
    ([⟨Factor.int_factor (to_uint64 5), 2⟩] : magnitude_raw)
      ≠ [⟨Factor.int_factor (to_uint64 25), 1⟩] := by
  refine ⟨by decide, ?_, by decide, by decide⟩
  unfold MultiplyMagnitude
  rw [merge_combine_filter_equivalent_some MagnitudeComparator PowerCombiner [] []
      (by decide) (by decide : PowerCombiner _ _ = some ⟨Factor.int_factor (to_uint64 5), 2⟩),
    merge_combine_filter_nil_left]

/-- C4: with `gcd(25, 5) = 5`, the magnitude of the ratio `25 / 5` is
`magnitude_raw<Power<int_factor<5>, -1>, Power<int_factor<25>, 1>>`, whereas the magnitude of
the reduced ratio `5 / 1` is `magnitude_raw<Power<int_factor<5>, 1>>`. -/
theorem magnitude_from_ratio_not_reduced :
    Int.gcd 25 5 = 5 ∧
    MagnitudeFromRatio 25 5 = Outcome.ok
      [⟨Factor.int_factor (to_uint64 5), -1⟩, ⟨Factor.int_factor (to_uint64 25), 1⟩] ∧
    MagnitudeFromRatio (25 / 5) (5 / 5) = Outcome.ok [⟨Factor.int_factor (to_uint64 5), 1⟩] ∧
    MagnitudeFromRatio 25 5 ≠ MagnitudeFromRatio (25 / 5) (5 / 5) := by
  have h25 : MagnitudeFromInt 25 = Outcome.ok [⟨Factor.int_factor (to_uint64 25), 1⟩] := by
    decide
  have h5 : MagnitudeFromInt 5 = Outcome.ok [⟨Factor.int_factor (to_uint64 5), 1⟩] := by decide
  have h1 : MagnitudeFromInt 1 = Outcome.ok [] := by decide
  have hm : MultiplyMagnitude [⟨Factor.int_factor (to_uint64 25), 1⟩]
      (InverseMagnitude [⟨Factor.int_factor (to_uint64 5), 1⟩])
      = [⟨Factor.int_factor (to_uint64 5), -1⟩, ⟨Factor.int_factor (to_uint64 25), 1⟩] := by
    unfold MultiplyMagnitude
    have hi : InverseMagnitude [⟨Factor.int_factor (to_uint64 5), 1⟩]
        = [⟨Factor.int_factor (to_uint64 5), -1⟩] := by decide
    rw [hi, merge_combine_filter_greater MagnitudeComparator PowerCombiner [] [] (by decide),
      merge_combine_filter_nil_right]
  have hm' : MultiplyMagnitude [⟨Factor.int_factor (to_uint64 5), 1⟩] (InverseMagnitude [])
      = [⟨Factor.int_factor (to_uint64 5), 1⟩] := by
    unfold MultiplyMagnitude
    have hi : InverseMagnitude [] = [] := by decide
    rw [hi, merge_combine_filter_nil_right]
  have e1 : MagnitudeFromRatio 25 5 = Outcome.ok
      [⟨Factor.int_factor (to_uint64 5), -1⟩, ⟨Factor.int_factor (to_uint64 25), 1⟩] := by
    unfold MagnitudeFromRatio
    rw [if_pos (by decide)]
    have t25 : (25 : Int).toNat = 25 := by decide
    have t5 : (5 : Int).toNat = 5 := by decide
    rw [t25, t5, h25, h5]
    simp only [Outcome.bind]
    rw [hm]
  have e2 : MagnitudeFromRatio (25 / 5) (5 / 5) = Outcome.ok
      [⟨Factor.int_factor (to_uint64 5), 1⟩] := by
    unfold MagnitudeFromRatio
    rw [if_pos (by decide)]
    have t5 : ((25 : Int) / 5).toNat = 5 := by decide
    have t1 : ((5 : Int) / 5).toNat = 1 := by decide
    rw [t5, t1, h5, h1]
    simp only [Outcome.bind]
    rw [hm']
  refine ⟨by decide, e1, e2, ?_⟩
  rw [e1, e2]
  decide

/-- C5: `prime_factorization` is meant to need at most the fourteen slots of `factors`.  The
number `614889782588491410 = 2 * 3 * 5 * 7 * 11 * 13 * 17 * 19 * 23 * 29 * 31 * 37 * 41 * 43 * 47`
is below `2 ^ 64` and has fifteen prime factors; on it the fifteenth call of `add_factor` writes
at index 14, beyond the end of the array. -/
theorem prime_factorization_out_of_bounds :
    2 * 3 * 5 * 7 * 11 * 13 * 17 * 19 * 23 * 29 * 31 * 37 * 41 * 43 * 47 = 614889782588491410 ∧
    614889782588491410 < UINT64_SIZE ∧
    prime_factorization 614889782588491410 = Outcome.out_of_bounds := by
  refine ⟨by decide, by decide, by decide⟩

/-- C6: the factors returned by `prime_factorization n` are meant to be strictly ascending for
every 64-bit `n > 0`.  At `n = 614889782588491410` no list of factors is returned, because the
array `factors` overflows. -/
theorem prime_factorization_ascending_fails :
    0 < 614889782588491410 ∧ 614889782588491410 < UINT64_SIZE ∧
      ¬ ∃ r, prime_factorization 614889782588491410 = Outcome.ok r ∧
        factors_strictly_ascending r := by
  refine ⟨by decide, by decide, ?_⟩
  have h : prime_factorization 614889782588491410 = Outcome.out_of_bounds := by decide
  rw [h]
  rintro ⟨r, hr, _⟩
  cases hr

/-- C7: `merge_combine_filter` with `PowerCombiner` preserves canonical form.  For a comparator
that is a strict total order on bases (as `MagnitudeComparator` and `DimensionComparator` are),
if both lists are strictly increasing under the comparator and free of zero exponents, then so
is the merged list; in particular every term of it is `less` than all later terms and no base
occurs twice. -/
theorem merge_combine_filter_canonical {T : Type} (Comp : Power T → Power T → ordering)
    (hComp : StrictTotalOrder Comp) (list1 list2 : List (Power T))
    (h1 : strictly_increasing Comp list1 ∧ no_zero_exponent list1)
    (h2 : strictly_increasing Comp list2 ∧ no_zero_exponent list2) :
    strictly_increasing Comp (merge_combine_filter list1 list2 Comp PowerCombiner) ∧
    no_zero_exponent (merge_combine_filter list1 list2 Comp PowerCombiner) ∧
    (merge_combine_filter list1 list2 Comp PowerCombiner).Pairwise
      (fun p q => Comp p q = ordering.less) ∧
    ((merge_combine_filter list1 list2 Comp PowerCombiner).map Power.Base).Nodup := by
  have hc := merge_combine_filter_preserves_canonical hComp h1 h2
  have hp := canonical_pairwise hComp hc
  refine ⟨hc.1, hc.2, hp, ?_⟩
  rw [List.Nodup, List.pairwise_map]
  exact List.Pairwise.imp
    (fun {p q} (h : Comp p q = ordering.less) (hb : p.Base = q.Base) => hComp.base_ne h hb.symm) hp

/-- The theorem of C7 applied to the magnitudes `2 * 3` and `3⁻¹ * 5 ^ 2`. -/
theorem merge_combine_filter_canonical_witness :
    StrictTotalOrder MagnitudeComparator ∧
    (strictly_increasing MagnitudeComparator
        [⟨Factor.int_factor (to_uint64 2), 1⟩, ⟨Factor.int_factor (to_uint64 3), 1⟩] ∧
      no_zero_exponent
        [⟨Factor.int_factor (to_uint64 2), 1⟩, ⟨Factor.int_factor (to_uint64 3), 1⟩]) ∧
    (strictly_increasing MagnitudeComparator
        [⟨Factor.int_factor (to_uint64 3), -1⟩, ⟨Factor.int_factor (to_uint64 5), 2⟩] ∧
      no_zero_exponent
        [⟨Factor.int_factor (to_uint64 3), -1⟩, ⟨Factor.int_factor (to_uint64 5), 2⟩]) ∧
    (strictly_increasing MagnitudeComparator
        (merge_combine_filter
          [⟨Factor.int_factor (to_uint64 2), 1⟩, ⟨Factor.int_factor (to_uint64 3), 1⟩]
          [⟨Factor.int_factor (to_uint64 3), -1⟩, ⟨Factor.int_factor (to_uint64 5), 2⟩]
          MagnitudeComparator PowerCombiner) ∧
      no_zero_exponent
        (merge_combine_filter
          [⟨Factor.int_factor (to_uint64 2), 1⟩, ⟨Factor.int_factor (to_uint64 3), 1⟩]
          [⟨Factor.int_factor (to_uint64 3), -1⟩, ⟨Factor.int_factor (to_uint64 5), 2⟩]
          MagnitudeComparator PowerCombiner) ∧
      (merge_combine_filter
          [⟨Factor.int_factor (to_uint64 2), 1⟩, ⟨Factor.int_factor (to_uint64 3), 1⟩]
          [⟨Factor.int_factor (to_uint64 3), -1⟩, ⟨Factor.int_factor (to_uint64 5), 2⟩]
          MagnitudeComparator PowerCombiner).Pairwise
        (fun p q => MagnitudeComparator p q = ordering.less) ∧
      ((merge_combine_filter
          [⟨Factor.int_factor (to_uint64 2), 1⟩, ⟨Factor.int_factor (to_uint64 3), 1⟩]
          [⟨Factor.int_factor (to_uint64 3), -1⟩, ⟨Factor.int_factor (to_uint64 5), 2⟩]
          MagnitudeComparator PowerCombiner).map Power.Base).Nodup) :=
  ⟨MagnitudeComparator_strict_total_order, by decide, by decide,
    merge_combine_filter_canonical MagnitudeComparator MagnitudeComparator_strict_total_order
      _ _ (by decide) (by decide)⟩

end units

namespace units

open meta

/-- C8: for canonical lists `list1` and `list2` (under a comparator that is a strict total order
on bases) the list `merge_combine_filter list1 list2` with `PowerCombiner` has a term with base
`b` exactly when `exponent_of list1 b + exponent_of list2 b` is not zero, and the exponent of
such a term is that sum. -/
theorem merge_combine_filter_exponents {T : Type} [DecidableEq T]
    (Comp : Power T → Power T → ordering) (hComp : StrictTotalOrder Comp)
    (list1 list2 : List (Power T)) (h1 : canonical Comp list1) (h2 : canonical Comp list2)
    (b : T) :
    ((∃ p ∈ merge_combine_filter list1 list2 Comp PowerCombiner, p.Base = b) ↔
      exponent_of list1 b + exponent_of list2 b ≠ 0) ∧
    (∀ p ∈ merge_combine_filter list1 list2 Comp PowerCombiner, p.Base = b →
      p.exponent = exponent_of list1 b + exponent_of list2 b) := by
  have hc := merge_combine_filter_preserves_canonical hComp h1 h2
  have hp := canonical_pairwise hComp hc
  have hs := merge_combine_filter_exponent_of hComp list1 list2 b
    (canonical_pairwise hComp h1) (canonical_pairwise hComp h2)
  constructor
  · rw [← hs]
    exact (exponent_of_ne_zero_iff hComp _ hp hc.2 b).symm
  · intro p hmem hb
    rw [← hs, ← hb]
    exact (exponent_of_mem hComp _ hp p hmem).symm

/-- The theorem of C8 applied to the magnitudes `2 * 3` and `3⁻¹ * 5 ^ 2` and the base `3`. -/
theorem merge_combine_filter_exponents_witness :
    StrictTotalOrder MagnitudeComparator ∧
    canonical MagnitudeComparator
      [⟨Factor.int_factor (to_uint64 2), 1⟩, ⟨Factor.int_factor (to_uint64 3), 1⟩] ∧
    canonical MagnitudeComparator
      [⟨Factor.int_factor (to_uint64 3), -1⟩, ⟨Factor.int_factor (to_uint64 5), 2⟩] ∧
    (((∃ p ∈ merge_combine_filter
          [⟨Factor.int_factor (to_uint64 2), 1⟩, ⟨Factor.int_factor (to_uint64 3), 1⟩]
          [⟨Factor.int_factor (to_uint64 3), -1⟩, ⟨Factor.int_factor (to_uint64 5), 2⟩]
          MagnitudeComparator PowerCombiner, p.Base = Factor.int_factor (to_uint64 3)) ↔
        exponent_of [⟨Factor.int_factor (to_uint64 2), 1⟩, ⟨Factor.int_factor (to_uint64 3), 1⟩]
            (Factor.int_factor (to_uint64 3)) +
          exponent_of
            [⟨Factor.int_factor (to_uint64 3), -1⟩, ⟨Factor.int_factor (to_uint64 5), 2⟩]
            (Factor.int_factor (to_uint64 3)) ≠ 0) ∧
      (∀ p ∈ merge_combine_filter
          [⟨Factor.int_factor (to_uint64 2), 1⟩, ⟨Factor.int_factor (to_uint64 3), 1⟩]
          [⟨Factor.int_factor (to_uint64 3), -1⟩, ⟨Factor.int_factor (to_uint64 5), 2⟩]
          MagnitudeComparator PowerCombiner, p.Base = Factor.int_factor (to_uint64 3) →
        p.exponent =
          exponent_of [⟨Factor.int_factor (to_uint64 2), 1⟩, ⟨Factor.int_factor (to_uint64 3), 1⟩]
            (Factor.int_factor (to_uint64 3)) +
          exponent_of
            [⟨Factor.int_factor (to_uint64 3), -1⟩, ⟨Factor.int_factor (to_uint64 5), 2⟩]
            (Factor.int_factor (to_uint64 3)))) :=
  ⟨MagnitudeComparator_strict_total_order, by decide, by decide,
    merge_combine_filter_exponents MagnitudeComparator MagnitudeComparator_strict_total_order
      _ _ (by decide) (by decide) _⟩

theorem DimensionComparator_Length_Time (e1 e2 : Int) :
    DimensionComparator ⟨⟨"Length"⟩, e1⟩ ⟨⟨"Time"⟩, e2⟩ = ordering.less := by
  simp [DimensionComparator]
  decide

theorem DimensionComparator_Mass_Time (e1 e2 : Int) :
    DimensionComparator ⟨⟨"Mass"⟩, e1⟩ ⟨⟨"Time"⟩, e2⟩ = ordering.less := by
  simp [DimensionComparator]
  decide

/-- C9: multiplication is commutative on canonical lists, for magnitudes (`MultiplyMagnitude`)
and for lists of powers of base dimensions (the `reducer` of
`make_combined_dimension_raw_impl`). -/
theorem multiply_commutative (A B : magnitude_raw) (D E : List (Power Symbol))
    (hA : canonical MagnitudeComparator A) (hB : canonical MagnitudeComparator B)
    (hD : canonical DimensionComparator D) (hE : canonical DimensionComparator E) :
    MultiplyMagnitude A B = MultiplyMagnitude B A ∧
    make_combined_dimension_raw_impl.reducer D E
      = make_combined_dimension_raw_impl.reducer E D :=
  ⟨merge_combine_filter_comm MagnitudeComparator_strict_total_order hA hB,
    merge_combine_filter_comm DimensionComparator_strict_total_order hD hE⟩

/-- The theorem of C9 applied to the magnitudes `2 * 3` and `3⁻¹ * 5 ^ 2` and to the dimensions
`Length * Time⁻²` and `Time`. -/
theorem multiply_commutative_witness :
    canonical MagnitudeComparator
      [⟨Factor.int_factor (to_uint64 2), 1⟩, ⟨Factor.int_factor (to_uint64 3), 1⟩] ∧
    canonical MagnitudeComparator
      [⟨Factor.int_factor (to_uint64 3), -1⟩, ⟨Factor.int_factor (to_uint64 5), 2⟩] ∧
    canonical DimensionComparator [⟨⟨"Length"⟩, 1⟩, ⟨⟨"Time"⟩, -2⟩] ∧
    canonical DimensionComparator [⟨⟨"Time"⟩, 1⟩] ∧
    (MultiplyMagnitude
        [⟨Factor.int_factor (to_uint64 2), 1⟩, ⟨Factor.int_factor (to_uint64 3), 1⟩]
        [⟨Factor.int_factor (to_uint64 3), -1⟩, ⟨Factor.int_factor (to_uint64 5), 2⟩]
      = MultiplyMagnitude
        [⟨Factor.int_factor (to_uint64 3), -1⟩, ⟨Factor.int_factor (to_uint64 5), 2⟩]
        [⟨Factor.int_factor (to_uint64 2), 1⟩, ⟨Factor.int_factor (to_uint64 3), 1⟩] ∧
      make_combined_dimension_raw_impl.reducer [⟨⟨"Length"⟩, 1⟩, ⟨⟨"Time"⟩, -2⟩] [⟨⟨"Time"⟩, 1⟩]
        = make_combined_dimension_raw_impl.reducer [⟨⟨"Time"⟩, 1⟩]
            [⟨⟨"Length"⟩, 1⟩, ⟨⟨"Time"⟩, -2⟩]) :=
  ⟨by decide, by decide,
    ⟨⟨DimensionComparator_Length_Time 1 (-2), trivial⟩, by decide⟩, by decide,
    multiply_commutative _ _ _ _ (by decide) (by decide)
      ⟨⟨DimensionComparator_Length_Time 1 (-2), trivial⟩, by decide⟩ (by decide)⟩

/-- C10: multiplication is associative on canonical lists, for magnitudes (`MultiplyMagnitude`)
and for lists of powers of base dimensions (the `reducer` of
`make_combined_dimension_raw_impl`). -/
theorem multiply_associative (A B C : magnitude_raw) (D E F : List (Power Symbol))
    (hA : canonical MagnitudeComparator A) (hB : canonical MagnitudeComparator B)
    (hC : canonical MagnitudeComparator C)
    (hD : canonical DimensionComparator D) (hE : canonical DimensionComparator E)
    (hF : canonical DimensionComparator F) :
    MultiplyMagnitude (MultiplyMagnitude A B) C = MultiplyMagnitude A (MultiplyMagnitude B C) ∧
    make_combined_dimension_raw_impl.reducer (make_combined_dimension_raw_impl.reducer D E) F
      = make_combined_dimension_raw_impl.reducer D
          (make_combined_dimension_raw_impl.reducer E F) :=
  ⟨merge_combine_filter_assoc MagnitudeComparator_strict_total_order hA hB hC,
    merge_combine_filter_assoc DimensionComparator_strict_total_order hD hE hF⟩

/-- The theorem of C10 applied to the magnitudes `2 * 3`, `3⁻¹ * 5 ^ 2` and `2⁻¹ * 7` and to
the dimensions `Length * Time⁻²`, `Time` and `Mass * Time`. -/
theorem multiply_associative_witness :
    canonical MagnitudeComparator
      [⟨Factor.int_factor (to_uint64 2), 1⟩, ⟨Factor.int_factor (to_uint64 3), 1⟩] ∧
    canonical MagnitudeComparator
      [⟨Factor.int_factor (to_uint64 3), -1⟩, ⟨Factor.int_factor (to_uint64 5), 2⟩] ∧
    canonical MagnitudeComparator
      [⟨Factor.int_factor (to_uint64 2), -1⟩, ⟨Factor.int_factor (to_uint64 7), 1⟩] ∧
    canonical DimensionComparator [⟨⟨"Length"⟩, 1⟩, ⟨⟨"Time"⟩, -2⟩] ∧
    canonical DimensionComparator [⟨⟨"Time"⟩, 1⟩] ∧
    canonical DimensionComparator [⟨⟨"Mass"⟩, 1⟩, ⟨⟨"Time"⟩, 1⟩] ∧
    (MultiplyMagnitude
        (MultiplyMagnitude
          [⟨Factor.int_factor (to_uint64 2), 1⟩, ⟨Factor.int_factor (to_uint64 3), 1⟩]
          [⟨Factor.int_factor (to_uint64 3), -1⟩, ⟨Factor.int_factor (to_uint64 5), 2⟩])
        [⟨Factor.int_factor (to_uint64 2), -1⟩, ⟨Factor.int_factor (to_uint64 7), 1⟩]
      = MultiplyMagnitude
        [⟨Factor.int_factor (to_uint64 2), 1⟩, ⟨Factor.int_factor (to_uint64 3), 1⟩]
        (MultiplyMagnitude
          [⟨Factor.int_factor (to_uint64 3), -1⟩, ⟨Factor.int_factor (to_uint64 5), 2⟩]
          [⟨Factor.int_factor (to_uint64 2), -1⟩, ⟨Factor.int_factor (to_uint64 7), 1⟩]) ∧
      make_combined_dimension_raw_impl.reducer
          (make_combined_dimension_raw_impl.reducer [⟨⟨"Length"⟩, 1⟩, ⟨⟨"Time"⟩, -2⟩]
            [⟨⟨"Time"⟩, 1⟩])
          [⟨⟨"Mass"⟩, 1⟩, ⟨⟨"Time"⟩, 1⟩]
        = make_combined_dimension_raw_impl.reducer [⟨⟨"Length"⟩, 1⟩, ⟨⟨"Time"⟩, -2⟩]
            (make_combined_dimension_raw_impl.reducer [⟨⟨"Time"⟩, 1⟩]
              [⟨⟨"Mass"⟩, 1⟩, ⟨⟨"Time"⟩, 1⟩])) :=
  ⟨by decide, by decide, by decide,
    ⟨⟨DimensionComparator_Length_Time 1 (-2), trivial⟩, by decide⟩, by decide,
    ⟨⟨DimensionComparator_Mass_Time 1 1, trivial⟩, by decide⟩,
    multiply_associative _ _ _ _ _ _ (by decide) (by decide) (by decide)
      ⟨⟨DimensionComparator_Length_Time 1 (-2), trivial⟩, by decide⟩ (by decide)
      ⟨⟨DimensionComparator_Mass_Time 1 1, trivial⟩, by decide⟩⟩

end units

/-! ## Inverses and multiples of canonical lists -/

namespace units

open meta

section maps

variable {T : Type} {Comp : Power T → Power T → ordering}

/-- Changing the exponents of a canonical list by a function that keeps them away from zero
gives a canonical list. -/
theorem canonical_map_exponent (L : StrictTotalOrder Comp) (f : Int → Int)
    (hf : ∀ e, e ≠ 0 → f e ≠ 0) {l : List (Power T)} (h : canonical Comp l) :
    canonical Comp (l.map fun p => ⟨p.Base, f p.exponent⟩) := by
  constructor
  · rw [strictly_increasing_iff_pairwise L, List.pairwise_map]
    refine List.Pairwise.imp ?_ ((strictly_increasing_iff_pairwise L l).mp h.1)
    intro p q hpq
    rw [← L.base_only p q ⟨p.Base, f p.exponent⟩ ⟨q.Base, f q.exponent⟩ rfl rfl]
    exact hpq
  · intro p hp
    obtain ⟨q, hq, rfl⟩ := List.mem_map.mp hp
    exact hf _ (h.2 q hq)

theorem exponent_of_map_exponent [DecidableEq T] (f : Int → Int) (hf : f 0 = 0)
    (l : List (Power T)) (b : T) :
    exponent_of (l.map fun p => ⟨p.Base, f p.exponent⟩) b = f (exponent_of l b) := by
  induction l with
  | nil => simp [exponent_of, hf]
  | cons p l ih =>
    simp only [List.map_cons, exponent_of]
    by_cases hb : p.Base = b
    · simp [hb]
    · simp [hb, ih]

theorem map_inverse_eq (l : List (Power T)) :
    l.map Power.inverse = l.map fun p => ⟨p.Base, (fun e : Int => -e) p.exponent⟩ := rfl

theorem canonical_inverse (L : StrictTotalOrder Comp) {l : List (Power T)}
    (h : canonical Comp l) : canonical Comp (l.map Power.inverse) := by
  rw [map_inverse_eq]
  exact canonical_map_exponent L (fun e => -e) (fun e he => neg_ne_zero.mpr he) h

theorem exponent_of_inverse [DecidableEq T] (l : List (Power T)) (b : T) :
    exponent_of (l.map Power.inverse) b = -exponent_of l b := by
  rw [map_inverse_eq]
  exact exponent_of_map_exponent (fun e => -e) (by simp) l b

/-- The exponent of a base in the product of two canonical lists. -/
theorem exponent_of_merge [DecidableEq T] (L : StrictTotalOrder Comp) {l1 l2 : List (Power T)}
    (h1 : canonical Comp l1) (h2 : canonical Comp l2) (b : T) :
    exponent_of (merge_combine_filter l1 l2 Comp PowerCombiner) b
      = exponent_of l1 b + exponent_of l2 b :=
  merge_combine_filter_exponent_of L l1 l2 b (canonical_pairwise L h1) (canonical_pairwise L h2)

/-- Multiplying by a list and then by its inverse changes nothing. -/
theorem merge_combine_filter_cancel [DecidableEq T] (L : StrictTotalOrder Comp)
    {a b : List (Power T)} (ha : canonical Comp a) (hb : canonical Comp b) :
    merge_combine_filter (merge_combine_filter a (b.map Power.inverse) Comp PowerCombiner) b
      Comp PowerCombiner = a := by
  have hi := canonical_inverse L hb
  have h1 := merge_combine_filter_preserves_canonical L ha hi
  apply canonical_eq_of_exponent_of L (merge_combine_filter_preserves_canonical L h1 hb) ha
  intro x
  rw [exponent_of_merge L h1 hb, exponent_of_merge L ha hi, exponent_of_inverse]
  omega

/-- A common factor cancels in a quotient. -/
theorem merge_combine_filter_common_factor [DecidableEq T] (L : StrictTotalOrder Comp)
    {u v m : List (Power T)} (hu : canonical Comp u) (hv : canonical Comp v)
    (hm : canonical Comp m) :
    merge_combine_filter (merge_combine_filter u m Comp PowerCombiner)
        ((merge_combine_filter v m Comp PowerCombiner).map Power.inverse) Comp PowerCombiner
      = merge_combine_filter u (v.map Power.inverse) Comp PowerCombiner := by
  have hum := merge_combine_filter_preserves_canonical L hu hm
  have hvm := merge_combine_filter_preserves_canonical L hv hm
  have hvmi := canonical_inverse L hvm
  have hvi := canonical_inverse L hv
  apply canonical_eq_of_exponent_of L (merge_combine_filter_preserves_canonical L hum hvmi)
    (merge_combine_filter_preserves_canonical L hu hvi)
  intro x
  rw [exponent_of_merge L hum hvmi, exponent_of_merge L hu hm, exponent_of_inverse,
    exponent_of_merge L hv hm, exponent_of_merge L hu hvi, exponent_of_inverse]
  omega

/-- Two factors can be exchanged between the operands of a product. -/
theorem merge_combine_filter_exchange [DecidableEq T] (L : StrictTotalOrder Comp)
    {u v a b : List (Power T)} (hu : canonical Comp u) (hv : canonical Comp v)
    (ha : canonical Comp a) (hb : canonical Comp b) :
    merge_combine_filter (merge_combine_filter u a Comp PowerCombiner)
        (merge_combine_filter v b Comp PowerCombiner) Comp PowerCombiner
      = merge_combine_filter (merge_combine_filter u b Comp PowerCombiner)
        (merge_combine_filter v a Comp PowerCombiner) Comp PowerCombiner := by
  have hua := merge_combine_filter_preserves_canonical L hu ha
  have hvb := merge_combine_filter_preserves_canonical L hv hb
  have hub := merge_combine_filter_preserves_canonical L hu hb
  have hva := merge_combine_filter_preserves_canonical L hv ha
  apply canonical_eq_of_exponent_of L (merge_combine_filter_preserves_canonical L hua hvb)
    (merge_combine_filter_preserves_canonical L hub hva)
  intro x
  rw [exponent_of_merge L hua hvb, exponent_of_merge L hu ha, exponent_of_merge L hv hb,
    exponent_of_merge L hub hva, exponent_of_merge L hu hb, exponent_of_merge L hv ha]
  omega

/-- The product of a list and its inverse is empty. -/
theorem merge_combine_filter_inverse (L : StrictTotalOrder Comp) (l : List (Power T)) :
    merge_combine_filter l (l.map Power.inverse) Comp PowerCombiner = [] := by
  induction l with
  | nil => exact merge_combine_filter_nil_left Comp PowerCombiner _
  | cons p l ih =>
    rw [List.map_cons, merge_combine_filter_equivalent_none Comp PowerCombiner l
      (l.map Power.inverse) ((L.equivalent_iff p p.inverse).mpr rfl)
      (by simp [PowerCombiner, Power.inverse])]
    exact ih

end maps

end units

/-! ## Combination of dimensions -/

namespace units

open meta

theorem downcast_base_type_downcast {T : Type} (downcast_guide : T → Option Symbol) (t : T) :
    (downcast downcast_guide t).downcast_base_type = t := by
  unfold downcast
  cases downcast_guide t <;> rfl

theorem to_base_dimensions_ok (t : Power (downcast_type dimension_raw)) (he : t.exponent ≠ 0)
    (h0 : no_zero_exponent (typelist t.Base)) :
    to_base_dimensions t
      = Outcome.ok ((typelist t.Base).map fun p => ⟨p.Base, p.exponent * t.exponent⟩) := by
  unfold to_base_dimensions
  simp only
  rw [if_pos]
  · rfl
  · exact ⟨he, fun p hp => mul_ne_zero (h0 p hp) he⟩

theorem list_of_list_of_dim_power_ok (terms : List (Power (downcast_type dimension_raw)))
    (h : ∀ t ∈ terms, t.exponent ≠ 0 ∧ no_zero_exponent (typelist t.Base)) :
    make_combined_dimension_raw_impl.list_of_list_of_dim_power terms
      = Outcome.ok (terms.map fun t =>
          (typelist t.Base).map fun p => ⟨p.Base, p.exponent * t.exponent⟩) := by
  induction terms with
  | nil => rfl
  | cons t terms ih =>
    have ht := h t (List.mem_cons_self _ _)
    rw [make_combined_dimension_raw_impl.list_of_list_of_dim_power,
      to_base_dimensions_ok t ht.1 ht.2, ih (fun s hs => h s (List.mem_cons_of_mem _ hs))]
    rfl

/-- Folding canonical lists with the `reducer` gives a canonical list, in which the exponent of
a base is the sum of its exponents in the folded lists. -/
theorem reduce_reducer_spec :
    ∀ (lists : List (List (Power Symbol))) (accumulated_list : List (Power Symbol)),
      canonical DimensionComparator accumulated_list →
      (∀ l ∈ lists, canonical DimensionComparator l) →
      canonical DimensionComparator
          (reduce accumulated_list lists make_combined_dimension_raw_impl.reducer) ∧
        ∀ b, exponent_of
            (reduce accumulated_list lists make_combined_dimension_raw_impl.reducer) b
          = exponent_of accumulated_list b + (lists.map fun l => exponent_of l b).sum := by
  intro lists
  induction lists with
  | nil =>
    intro acc hacc _
    exact ⟨hacc, fun b => by simp [reduce]⟩
  | cons l lists ih =>
    intro acc hacc hl
    have hl1 := hl l (List.mem_cons_self _ _)
    have hstep : canonical DimensionComparator
        (make_combined_dimension_raw_impl.reducer acc l) :=
      merge_combine_filter_preserves_canonical DimensionComparator_strict_total_order hacc hl1
    obtain ⟨hc, he⟩ := ih (make_combined_dimension_raw_impl.reducer acc l) hstep
      (fun m hm => hl m (List.mem_cons_of_mem _ hm))
    refine ⟨hc, fun b => ?_⟩
    rw [reduce, he b]
    unfold make_combined_dimension_raw_impl.reducer
    rw [exponent_of_merge DimensionComparator_strict_total_order hacc hl1 b]
    simp only [List.map_cons, List.sum_cons]
    omega

theorem canonical_nil {T : Type} (Comp : Power T → Power T → ordering) :
    canonical Comp ([] : List (Power T)) :=
  ⟨trivial, fun p hp => by cases hp⟩

/-- The combination of terms `(D_i, e_i)` with canonical `D_i` and nonzero `e_i` is defined and
canonical, and the exponent of a base in it is the sum of `e_i` times its exponent in `D_i`. -/
theorem make_combined_dimension_raw_spec
    (terms : List (Power (downcast_type dimension_raw)))
    (h : ∀ t ∈ terms, t.exponent ≠ 0 ∧ canonical DimensionComparator (typelist t.Base)) :
    ∃ out, make_combined_dimension_raw terms = Outcome.ok out ∧
      canonical DimensionComparator out ∧
      ∀ b, exponent_of out b
        = (terms.map fun t => t.exponent * exponent_of (typelist t.Base) b).sum := by
  have hok := list_of_list_of_dim_power_ok terms (fun t ht => ⟨(h t ht).1, (h t ht).2.2⟩)
  have hlists : ∀ l ∈ (terms.map fun t =>
      (typelist t.Base).map fun p => (⟨p.Base, p.exponent * t.exponent⟩ : Power Symbol)),
      canonical DimensionComparator l := by
    intro l hl
    obtain ⟨t, ht, rfl⟩ := List.mem_map.mp hl
    exact canonical_map_exponent DimensionComparator_strict_total_order
      (fun e => e * t.exponent) (fun e he => mul_ne_zero he (h t ht).1) (h t ht).2
  obtain ⟨hc, he⟩ := reduce_reducer_spec _ [] (canonical_nil DimensionComparator) hlists
  refine ⟨_, ?_, hc, ?_⟩
  · unfold make_combined_dimension_raw
    rw [hok]
    rfl
  · intro b
    rw [he b]
    simp only [exponent_of, zero_add, List.map_map]
    congr 1
    apply List.map_congr_left
    intro t _
    simp only [Function.comp]
    rw [exponent_of_map_exponent (fun e => e * t.exponent) (by simp) (typelist t.Base) b]
    ring

/-- The combination of two dimensions, each taken to the power one, is the product of their
lists. -/
theorem make_combined_dimension_raw_pair (D1 D2 : downcast_type dimension_raw)
    (h1 : no_zero_exponent (typelist D1)) (h2 : no_zero_exponent (typelist D2)) :
    make_combined_dimension_raw [⟨D1, 1⟩, ⟨D2, 1⟩]
      = Outcome.ok (make_combined_dimension_raw_impl.reducer (typelist D1) (typelist D2)) := by
  have hok := list_of_list_of_dim_power_ok [⟨D1, 1⟩, ⟨D2, 1⟩] (by
    intro t ht
    simp only [List.mem_cons, List.mem_singleton, List.not_mem_nil, or_false] at ht
    rcases ht with rfl | rfl
    · exact ⟨one_ne_zero, h1⟩
    · exact ⟨one_ne_zero, h2⟩)
  have hid : ∀ l : List (Power Symbol),
      (l.map fun p => (⟨p.Base, p.exponent * 1⟩ : Power Symbol)) = l := by
    intro l
    induction l with
    | nil => rfl
    | cons p l ih =>
      rw [List.map_cons, ih, mul_one]
  unfold make_combined_dimension_raw
  rw [hok]
  simp only [Outcome.bind, List.map_cons, List.map_nil, hid, reduce]
  unfold make_combined_dimension_raw_impl.reducer
  rw [merge_combine_filter_nil_left]

end units

/-! ## The declarations of `unit_definition.h`, evaluated -/

namespace unit_definition

open meta units

theorem DimensionComparator_same (b : Symbol) (e1 e2 : Int) :
    DimensionComparator ⟨b, e1⟩ ⟨b, e2⟩ = ordering.equivalent :=
  (DimensionComparator_strict_total_order.equivalent_iff ⟨b, e1⟩ ⟨b, e2⟩).mpr rfl

theorem make_combined_dimension_raw_Length_Time :
    make_combined_dimension_raw [⟨Length, 1⟩, ⟨Time, -1⟩]
      = Outcome.ok [⟨⟨"Length"⟩, 1⟩, ⟨⟨"Time"⟩, -1⟩] := by
  have hl : make_combined_dimension_raw_impl.list_of_list_of_dim_power
      [⟨Length, 1⟩, ⟨Time, -1⟩] = Outcome.ok [[⟨⟨"Length"⟩, 1⟩], [⟨⟨"Time"⟩, -1⟩]] := by
    decide
  unfold make_combined_dimension_raw
  rw [hl]
  simp only [Outcome.bind, reduce]
  unfold make_combined_dimension_raw_impl.reducer
  rw [merge_combine_filter_nil_left,
    merge_combine_filter_less DimensionComparator PowerCombiner [] []
      (DimensionComparator_Length_Time 1 (-1)),
    merge_combine_filter_nil_left]

theorem Speed_eq :
    Speed = Outcome.ok (named_dimension ⟨"Speed"⟩ [⟨⟨"Length"⟩, 1⟩, ⟨⟨"Time"⟩, -1⟩]) := by
  unfold Speed CombinedDimension
  rw [make_combined_dimension_raw_Length_Time]
  rfl

theorem MagnitudeFromRatio_kilo :
    MagnitudeFromRatio 1000 1 = Outcome.ok
      [⟨Factor.int_factor (to_uint64 2), 3⟩, ⟨Factor.int_factor (to_uint64 5), 3⟩] := by
  have h1000 : MagnitudeFromInt 1000 = Outcome.ok
      [⟨Factor.int_factor (to_uint64 2), 3⟩, ⟨Factor.int_factor (to_uint64 5), 3⟩] := by decide
  have h1 : MagnitudeFromInt 1 = Outcome.ok [] := by decide
  unfold MagnitudeFromRatio
  rw [if_pos (by decide)]
  have t1000 : (1000 : Int).toNat = 1000 := by decide
  have t1 : (1 : Int).toNat = 1 := by decide
  rw [t1000, t1, h1000, h1]
  simp only [Outcome.bind]
  have hi : InverseMagnitude [] = [] := by decide
  unfold MultiplyMagnitude
  rw [hi, merge_combine_filter_nil_right]

theorem MagnitudeFromRatio_milli :
    MagnitudeFromRatio 1 1000 = Outcome.ok
      [⟨Factor.int_factor (to_uint64 2), -3⟩, ⟨Factor.int_factor (to_uint64 5), -3⟩] := by
  have h1000 : MagnitudeFromInt 1000 = Outcome.ok
      [⟨Factor.int_factor (to_uint64 2), 3⟩, ⟨Factor.int_factor (to_uint64 5), 3⟩] := by decide
  have h1 : MagnitudeFromInt 1 = Outcome.ok [] := by decide
  unfold MagnitudeFromRatio
  rw [if_pos (by decide)]
  have t1000 : (1000 : Int).toNat = 1000 := by decide
  have t1 : (1 : Int).toNat = 1 := by decide
  rw [t1000, t1, h1000, h1]
  simp only [Outcome.bind]
  have hi : InverseMagnitude
      [⟨Factor.int_factor (to_uint64 2), 3⟩, ⟨Factor.int_factor (to_uint64 5), 3⟩]
      = [⟨Factor.int_factor (to_uint64 2), -3⟩, ⟨Factor.int_factor (to_uint64 5), -3⟩] := by
    decide
  unfold MultiplyMagnitude
  rw [hi, merge_combine_filter_nil_left]

theorem ScaledUnit_of_base (Child BaseChild : Symbol) (Dimension : downcast_type dimension_raw)
    (Magnitude : magnitude_raw) :
    ScaledUnit Child (BaseUnit BaseChild Dimension) Magnitude
      = named_unit Child ⟨Dimension, Magnitude⟩ := by
  unfold ScaledUnit BaseUnit named_unit MultiplyMagnitude
  simp only [downcast_type.downcast_base_type]
  rw [merge_combine_filter_nil_left]

theorem kilometre_eq :
    kilometre = Outcome.ok (named_unit ⟨"kilometre"⟩ ⟨Length,
      [⟨Factor.int_factor (to_uint64 2), 3⟩, ⟨Factor.int_factor (to_uint64 5), 3⟩]⟩) := by
  unfold kilometre
  rw [MagnitudeFromRatio_kilo]
  simp only [Outcome.bind, metre, ScaledUnit_of_base]

theorem millimetre_eq :
    millimetre = Outcome.ok (named_unit ⟨"millimetre"⟩ ⟨Length,
      [⟨Factor.int_factor (to_uint64 2), -3⟩, ⟨Factor.int_factor (to_uint64 5), -3⟩]⟩) := by
  unfold millimetre
  rw [MagnitudeFromRatio_milli]
  simp only [Outcome.bind, metre, ScaledUnit_of_base]

theorem kilosecond_eq :
    kilosecond = Outcome.ok (named_unit ⟨"kilosecond"⟩ ⟨Time,
      [⟨Factor.int_factor (to_uint64 2), 3⟩, ⟨Factor.int_factor (to_uint64 5), 3⟩]⟩) := by
  unfold kilosecond
  rw [MagnitudeFromRatio_kilo]
  simp only [Outcome.bind, second, ScaledUnit_of_base]

theorem millisecond_eq :
    millisecond = Outcome.ok (named_unit ⟨"millisecond"⟩ ⟨Time,
      [⟨Factor.int_factor (to_uint64 2), -3⟩, ⟨Factor.int_factor (to_uint64 5), -3⟩]⟩) := by
  unfold millisecond
  rw [MagnitudeFromRatio_milli]
  simp only [Outcome.bind, second, ScaledUnit_of_base]

theorem minute_eq :
    minute = Outcome.ok (named_unit ⟨"minute"⟩ ⟨Time,
      [⟨Factor.int_factor (to_uint64 2), 2⟩, ⟨Factor.int_factor (to_uint64 3), 1⟩,
        ⟨Factor.int_factor (to_uint64 5), 1⟩]⟩) := by
  have h60 : MagnitudeFromInt 60 = Outcome.ok
      [⟨Factor.int_factor (to_uint64 2), 2⟩, ⟨Factor.int_factor (to_uint64 3), 1⟩,
        ⟨Factor.int_factor (to_uint64 5), 1⟩] := by decide
  unfold minute
  rw [h60]
  simp only [Outcome.bind, second, ScaledUnit_of_base]

theorem metre_per_second_eq :
    metre_per_second = Outcome.ok (named_unit ⟨"metre_per_second"⟩
      ⟨named_dimension ⟨"Speed"⟩ [⟨⟨"Length"⟩, 1⟩, ⟨⟨"Time"⟩, -1⟩], []⟩) := by
  unfold metre_per_second
  rw [Speed_eq]
  rfl

/-- The table of the declared dimensions. -/
theorem dimension_guide_eq :
    dimension_guide = declared_downcast_guide
      [(⟨"Scalar"⟩, []), (⟨"Length"⟩, [⟨⟨"Length"⟩, 1⟩]), (⟨"Time"⟩, [⟨⟨"Time"⟩, 1⟩]),
        (⟨"Speed"⟩, [⟨⟨"Length"⟩, 1⟩, ⟨⟨"Time"⟩, -1⟩])] := by
  unfold dimension_guide
  rw [Speed_eq]
  rfl

/-- The table of the declared units. -/
theorem unit_guide_eq :
    unit_guide = declared_downcast_guide
      [(⟨"ScalarUnit"⟩, ⟨Scalar, []⟩),
        (⟨"metre"⟩, ⟨Length, []⟩),
        (⟨"kilometre"⟩, ⟨Length,
          [⟨Factor.int_factor (to_uint64 2), 3⟩, ⟨Factor.int_factor (to_uint64 5), 3⟩]⟩),
        (⟨"millimetre"⟩, ⟨Length,
          [⟨Factor.int_factor (to_uint64 2), -3⟩, ⟨Factor.int_factor (to_uint64 5), -3⟩]⟩),
        (⟨"second"⟩, ⟨Time, []⟩),
        (⟨"kilosecond"⟩, ⟨Time,
          [⟨Factor.int_factor (to_uint64 2), 3⟩, ⟨Factor.int_factor (to_uint64 5), 3⟩]⟩),
        (⟨"millisecond"⟩, ⟨Time,
          [⟨Factor.int_factor (to_uint64 2), -3⟩, ⟨Factor.int_factor (to_uint64 5), -3⟩]⟩),
        (⟨"minute"⟩, ⟨Time,
          [⟨Factor.int_factor (to_uint64 2), 2⟩, ⟨Factor.int_factor (to_uint64 3), 1⟩,
            ⟨Factor.int_factor (to_uint64 5), 1⟩]⟩),
        (⟨"metre_per_second"⟩,
          ⟨named_dimension ⟨"Speed"⟩ [⟨⟨"Length"⟩, 1⟩, ⟨⟨"Time"⟩, -1⟩], []⟩)] := by
  unfold unit_guide
  rw [kilometre_eq, millimetre_eq, kilosecond_eq, millisecond_eq, minute_eq,
    metre_per_second_eq]
  rfl

end unit_definition

/-! ## The claims on inverses and on the combination of dimensions -/

namespace units

open meta

theorem map_inverse_inverse {T : Type} (l : List (Power T)) :
    (l.map Power.inverse).map Power.inverse = l := by
  rw [List.map_map]
  conv_rhs => rw [← List.map_id l]
  apply List.map_congr_left
  intro p _
  simp [Power.inverse]

/-- C11: inverting twice gives back the original: `InverseMagnitude<InverseMagnitude<M>>` is `M`
for every magnitude `M`, and `inverse_dimension_raw` applied to the inverse of a dimension `D`
has the list of terms of `D`. -/
theorem invert_involution (M : magnitude_raw) (D : downcast_type dimension_raw) :
    InverseMagnitude (InverseMagnitude M) = M ∧
    inverse_dimension_raw (downcast_type.base (inverse_dimension_raw D)) = typelist D :=
  ⟨map_inverse_inverse M, map_inverse_inverse (typelist D)⟩

/-- C12: `MultiplyMagnitude<M, InverseMagnitude<M>>` is the empty magnitude for every magnitude
`M` (canonical or not), and the empty magnitude is `MagnitudeFromInt<1>`. -/
theorem multiply_by_inverse_magnitude (M : magnitude_raw) :
    MultiplyMagnitude M (InverseMagnitude M) = [] ∧ MagnitudeFromInt 1 = Outcome.ok [] :=
  ⟨merge_combine_filter_inverse MagnitudeComparator_strict_total_order M, by decide⟩

/-- C13: for terms `(D_i, e_i)` with canonical `D_i` and nonzero `e_i` the combined dimension
is defined; it has a term with base `b` exactly when the sum of `e_i * exponent_of D_i b` is not
zero, and the exponent of that term is this sum. -/
theorem make_combined_dimension_raw_exponents
    (terms : List (Power (downcast_type dimension_raw)))
    (h : ∀ t ∈ terms, t.exponent ≠ 0 ∧ canonical DimensionComparator (typelist t.Base))
    (b : Symbol) :
    ∃ out, make_combined_dimension_raw terms = Outcome.ok out ∧
      ((∃ p ∈ out, p.Base = b) ↔
        (terms.map fun t => t.exponent * exponent_of (typelist t.Base) b).sum ≠ 0) ∧
      (∀ p ∈ out, p.Base = b →
        p.exponent = (terms.map fun t => t.exponent * exponent_of (typelist t.Base) b).sum) := by
  obtain ⟨out, hrun, hc, he⟩ := make_combined_dimension_raw_spec terms h
  have hp := canonical_pairwise DimensionComparator_strict_total_order hc
  refine ⟨out, hrun, ?_, ?_⟩
  · rw [← he b]
    exact (exponent_of_ne_zero_iff DimensionComparator_strict_total_order out hp hc.2 b).symm
  · intro p hmem hb
    rw [← he b, ← hb]
    exact (exponent_of_mem DimensionComparator_strict_total_order out hp p hmem).symm

theorem canonical_Length_Time (e1 e2 : Int) (h1 : e1 ≠ 0) (h2 : e2 ≠ 0) :
    canonical DimensionComparator [⟨⟨"Length"⟩, e1⟩, ⟨⟨"Time"⟩, e2⟩] := by
  refine ⟨⟨DimensionComparator_Length_Time e1 e2, trivial⟩, ?_⟩
  intro p hp
  simp only [List.mem_cons, List.mem_singleton, List.not_mem_nil, or_false] at hp
  rcases hp with rfl | rfl
  · exact h1
  · exact h2

theorem canonical_singleton {T : Type} (Comp : Power T → Power T → ordering) (p : Power T)
    (h : p.exponent ≠ 0) : canonical Comp [p] := by
  refine ⟨trivial, ?_⟩
  intro q hq
  rw [List.mem_singleton] at hq
  rw [hq]
  exact h

/-- The dimensions `Acceleration * Time` and `Length * Time⁻¹` combine to the same list. -/
theorem combined_Acceleration_Time :
    make_combined_dimension_raw
        [⟨named_dimension ⟨"Acceleration"⟩ [⟨⟨"Length"⟩, 1⟩, ⟨⟨"Time"⟩, -2⟩], 1⟩,
          ⟨unit_definition.Time, 1⟩]
      = Outcome.ok [⟨⟨"Length"⟩, 1⟩, ⟨⟨"Time"⟩, -1⟩] ∧
    make_combined_dimension_raw [⟨unit_definition.Length, 1⟩, ⟨unit_definition.Time, -1⟩]
      = Outcome.ok [⟨⟨"Length"⟩, 1⟩, ⟨⟨"Time"⟩, -1⟩] := by
  refine ⟨?_, unit_definition.make_combined_dimension_raw_Length_Time⟩
  rw [make_combined_dimension_raw_pair
    (named_dimension ⟨"Acceleration"⟩ [⟨⟨"Length"⟩, 1⟩, ⟨⟨"Time"⟩, -2⟩]) unit_definition.Time
    (canonical_Length_Time 1 (-2) (by decide) (by decide)).2 (by decide)]
  unfold make_combined_dimension_raw_impl.reducer
  show Outcome.ok (merge_combine_filter [⟨⟨"Length"⟩, 1⟩, ⟨⟨"Time"⟩, -2⟩] [⟨⟨"Time"⟩, 1⟩]
    DimensionComparator PowerCombiner) = _
  rw [merge_combine_filter_less DimensionComparator PowerCombiner _ []
      (DimensionComparator_Length_Time 1 1),
    merge_combine_filter_equivalent_some DimensionComparator PowerCombiner [] []
      (unit_definition.DimensionComparator_same ⟨"Time"⟩ (-2) 1)
      (by decide : PowerCombiner _ _ = some ⟨⟨"Time"⟩, -1⟩),
    merge_combine_filter_nil_left]

end units

namespace units

open meta

theorem terms_Acceleration_Time_canonical :
    ∀ t ∈ ([⟨named_dimension ⟨"Acceleration"⟩ [⟨⟨"Length"⟩, 1⟩, ⟨⟨"Time"⟩, -2⟩], 1⟩,
        ⟨unit_definition.Time, 1⟩] : List (Power (downcast_type dimension_raw))),
      t.exponent ≠ 0 ∧ canonical DimensionComparator (typelist t.Base) := by
  intro t ht
  simp only [List.mem_cons, List.mem_singleton, List.not_mem_nil, or_false] at ht
  rcases ht with rfl | rfl
  · exact ⟨by decide, canonical_Length_Time 1 (-2) (by decide) (by decide)⟩
  · exact ⟨by decide, by decide⟩

theorem terms_Length_Time_canonical :
    ∀ t ∈ ([⟨unit_definition.Length, 1⟩, ⟨unit_definition.Time, -1⟩] :
        List (Power (downcast_type dimension_raw))),
      t.exponent ≠ 0 ∧ canonical DimensionComparator (typelist t.Base) := by
  intro t ht
  simp only [List.mem_cons, List.mem_singleton, List.not_mem_nil, or_false] at ht
  rcases ht with rfl | rfl
  · exact ⟨by decide, by decide⟩
  · exact ⟨by decide, by decide⟩

/-- The theorem of C13 applied to the terms `(Acceleration, 1)`, `(Time, 1)` and the base `Time`,
where `Acceleration` is `Length * Time⁻²`; the combination is the same list as the one of
`(Length, 1)`, `(Time, -1)`. -/
theorem make_combined_dimension_raw_exponents_witness :
    (∀ t ∈ ([⟨named_dimension ⟨"Acceleration"⟩ [⟨⟨"Length"⟩, 1⟩, ⟨⟨"Time"⟩, -2⟩], 1⟩,
        ⟨unit_definition.Time, 1⟩] : List (Power (downcast_type dimension_raw))),
      t.exponent ≠ 0 ∧ canonical DimensionComparator (typelist t.Base)) ∧
    (∃ out, make_combined_dimension_raw
        [⟨named_dimension ⟨"Acceleration"⟩ [⟨⟨"Length"⟩, 1⟩, ⟨⟨"Time"⟩, -2⟩], 1⟩,
          ⟨unit_definition.Time, 1⟩] = Outcome.ok out ∧
      ((∃ p ∈ out, p.Base = ⟨"Time"⟩) ↔
        (([⟨named_dimension ⟨"Acceleration"⟩ [⟨⟨"Length"⟩, 1⟩, ⟨⟨"Time"⟩, -2⟩], 1⟩,
          ⟨unit_definition.Time, 1⟩] : List (Power (downcast_type dimension_raw))).map
            fun t => t.exponent * exponent_of (typelist t.Base) ⟨"Time"⟩).sum ≠ 0) ∧
      (∀ p ∈ out, p.Base = ⟨"Time"⟩ →
        p.exponent =
          (([⟨named_dimension ⟨"Acceleration"⟩ [⟨⟨"Length"⟩, 1⟩, ⟨⟨"Time"⟩, -2⟩], 1⟩,
            ⟨unit_definition.Time, 1⟩] : List (Power (downcast_type dimension_raw))).map
              fun t => t.exponent * exponent_of (typelist t.Base) ⟨"Time"⟩).sum)) ∧
    make_combined_dimension_raw
        [⟨named_dimension ⟨"Acceleration"⟩ [⟨⟨"Length"⟩, 1⟩, ⟨⟨"Time"⟩, -2⟩], 1⟩,
          ⟨unit_definition.Time, 1⟩]
      = make_combined_dimension_raw
        [⟨unit_definition.Length, 1⟩, ⟨unit_definition.Time, -1⟩] :=
  ⟨terms_Acceleration_Time_canonical,
    make_combined_dimension_raw_exponents _ terms_Acceleration_Time_canonical ⟨"Time"⟩,
    combined_Acceleration_Time.1.trans combined_Acceleration_Time.2.symm⟩

/-- C14: the combination of dimensions does not depend on the order of its arguments: for terms
`(D_i, e_i)` with canonical `D_i` and nonzero `e_i`, every permutation of the terms gives the
same result of `make_combined_dimension_raw`. -/
theorem make_combined_dimension_raw_perm
    (terms terms' : List (Power (downcast_type dimension_raw))) (hperm : terms.Perm terms')
    (h : ∀ t ∈ terms, t.exponent ≠ 0 ∧ canonical DimensionComparator (typelist t.Base)) :
    make_combined_dimension_raw terms = make_combined_dimension_raw terms' ∧
    ∃ out, make_combined_dimension_raw terms = Outcome.ok out := by
  have h' : ∀ t ∈ terms', t.exponent ≠ 0 ∧ canonical DimensionComparator (typelist t.Base) :=
    fun t ht => h t (hperm.mem_iff.mpr ht)
  obtain ⟨out, hrun, hc, he⟩ := make_combined_dimension_raw_spec terms h
  obtain ⟨out', hrun', hc', he'⟩ := make_combined_dimension_raw_spec terms' h'
  refine ⟨?_, out, hrun⟩
  rw [hrun, hrun']
  congr 1
  apply canonical_eq_of_exponent_of DimensionComparator_strict_total_order hc hc'
  intro b
  rw [he b, he' b]
  exact (hperm.map _).sum_eq

/-- The theorem of C14 applied to the terms `(Length, 1)`, `(Time, -1)` and their exchange. -/
theorem make_combined_dimension_raw_perm_witness :
    ([⟨unit_definition.Length, 1⟩, ⟨unit_definition.Time, -1⟩] :
        List (Power (downcast_type dimension_raw))).Perm
      [⟨unit_definition.Time, -1⟩, ⟨unit_definition.Length, 1⟩] ∧
    (∀ t ∈ ([⟨unit_definition.Length, 1⟩, ⟨unit_definition.Time, -1⟩] :
        List (Power (downcast_type dimension_raw))),
      t.exponent ≠ 0 ∧ canonical DimensionComparator (typelist t.Base)) ∧
    (make_combined_dimension_raw [⟨unit_definition.Length, 1⟩, ⟨unit_definition.Time, -1⟩]
      = make_combined_dimension_raw [⟨unit_definition.Time, -1⟩, ⟨unit_definition.Length, 1⟩] ∧
    ∃ out, make_combined_dimension_raw
      [⟨unit_definition.Length, 1⟩, ⟨unit_definition.Time, -1⟩] = Outcome.ok out) :=
  ⟨List.Perm.swap _ _ _, terms_Length_Time_canonical,
    make_combined_dimension_raw_perm _ _ (List.Perm.swap _ _ _) terms_Length_Time_canonical⟩

/-- C15: the result of `make_combined_dimension_raw` is canonical: for terms `(D_i, e_i)` with
canonical `D_i` and nonzero `e_i` the result is defined, strictly increasing under
`DimensionComparator` and free of zero exponents. -/
theorem make_combined_dimension_raw_canonical
    (terms : List (Power (downcast_type dimension_raw)))
    (h : ∀ t ∈ terms, t.exponent ≠ 0 ∧ canonical DimensionComparator (typelist t.Base)) :
    ∃ out, make_combined_dimension_raw terms = Outcome.ok out ∧
      strictly_increasing DimensionComparator out ∧ no_zero_exponent out := by
  obtain ⟨out, hrun, hc, _⟩ := make_combined_dimension_raw_spec terms h
  exact ⟨out, hrun, hc.1, hc.2⟩

/-- The theorem of C15 applied to the terms `(Acceleration, 1)`, `(Time, 1)`. -/
theorem make_combined_dimension_raw_canonical_witness :
    (∀ t ∈ ([⟨named_dimension ⟨"Acceleration"⟩ [⟨⟨"Length"⟩, 1⟩, ⟨⟨"Time"⟩, -2⟩], 1⟩,
        ⟨unit_definition.Time, 1⟩] : List (Power (downcast_type dimension_raw))),
      t.exponent ≠ 0 ∧ canonical DimensionComparator (typelist t.Base)) ∧
    ∃ out, make_combined_dimension_raw
        [⟨named_dimension ⟨"Acceleration"⟩ [⟨⟨"Length"⟩, 1⟩, ⟨⟨"Time"⟩, -2⟩], 1⟩,
          ⟨unit_definition.Time, 1⟩] = Outcome.ok out ∧
      strictly_increasing DimensionComparator out ∧ no_zero_exponent out :=
  ⟨terms_Acceleration_Time_canonical,
    make_combined_dimension_raw_canonical _ terms_Acceleration_Time_canonical⟩

/-- C16: the empty dimension `Scalar` and the empty magnitude are identities: combining a
canonical dimension `D` with `Scalar`, in either order, gives the list of terms of `D`, and
`MultiplyMagnitude` of a magnitude `M` with the empty magnitude, in either order, is `M`. -/
theorem scalar_identity (D : downcast_type dimension_raw) (M : magnitude_raw)
    (hD : canonical DimensionComparator (typelist D)) :
    make_combined_dimension_raw [⟨D, 1⟩, ⟨Scalar, 1⟩] = Outcome.ok (typelist D) ∧
    make_combined_dimension_raw [⟨Scalar, 1⟩, ⟨D, 1⟩] = Outcome.ok (typelist D) ∧
    MultiplyMagnitude M [] = M ∧ MultiplyMagnitude [] M = M := by
  have hS : no_zero_exponent (typelist Scalar) := by decide
  refine ⟨?_, ?_, merge_combine_filter_nil_right _ _ M, merge_combine_filter_nil_left _ _ M⟩
  · rw [make_combined_dimension_raw_pair D Scalar hD.2 hS]
    unfold make_combined_dimension_raw_impl.reducer
    exact congrArg Outcome.ok (merge_combine_filter_nil_right _ _ (typelist D))
  · rw [make_combined_dimension_raw_pair Scalar D hS hD.2]
    unfold make_combined_dimension_raw_impl.reducer
    exact congrArg Outcome.ok (merge_combine_filter_nil_left _ _ (typelist D))

/-- The theorem of C16 applied to the dimension `Speed` and the magnitude `1000`. -/
theorem scalar_identity_witness :
    canonical DimensionComparator
      (typelist (named_dimension ⟨"Speed"⟩ [⟨⟨"Length"⟩, 1⟩, ⟨⟨"Time"⟩, -1⟩])) ∧
    (make_combined_dimension_raw
        [⟨named_dimension ⟨"Speed"⟩ [⟨⟨"Length"⟩, 1⟩, ⟨⟨"Time"⟩, -1⟩], 1⟩, ⟨Scalar, 1⟩]
      = Outcome.ok (typelist (named_dimension ⟨"Speed"⟩ [⟨⟨"Length"⟩, 1⟩, ⟨⟨"Time"⟩, -1⟩])) ∧
    make_combined_dimension_raw
        [⟨Scalar, 1⟩, ⟨named_dimension ⟨"Speed"⟩ [⟨⟨"Length"⟩, 1⟩, ⟨⟨"Time"⟩, -1⟩], 1⟩]
      = Outcome.ok (typelist (named_dimension ⟨"Speed"⟩ [⟨⟨"Length"⟩, 1⟩, ⟨⟨"Time"⟩, -1⟩])) ∧
    MultiplyMagnitude
        [⟨Factor.int_factor (to_uint64 2), 3⟩, ⟨Factor.int_factor (to_uint64 5), 3⟩] []
      = [⟨Factor.int_factor (to_uint64 2), 3⟩, ⟨Factor.int_factor (to_uint64 5), 3⟩] ∧
    MultiplyMagnitude []
        [⟨Factor.int_factor (to_uint64 2), 3⟩, ⟨Factor.int_factor (to_uint64 5), 3⟩]
      = [⟨Factor.int_factor (to_uint64 2), 3⟩, ⟨Factor.int_factor (to_uint64 5), 3⟩]) :=
  ⟨canonical_Length_Time 1 (-1) (by decide) (by decide),
    scalar_identity _ _ (canonical_Length_Time 1 (-1) (by decide) (by decide))⟩

end units

/-! ## Products and quotients of units -/

namespace units

open meta

theorem typelist_downcast (dimension_guide : dimension_raw → Option Symbol)
    (DimensionRaw : dimension_raw) :
    typelist (downcast dimension_guide DimensionRaw) = DimensionRaw :=
  downcast_base_type_downcast dimension_guide DimensionRaw

theorem unit_times_eq (dimension_guide : dimension_raw → Option Symbol)
    (unit_guide : unit_raw → Option Symbol) (U V : downcast_type unit_raw)
    (hU : no_zero_exponent (typelist U.downcast_base_type.Dimension))
    (hV : no_zero_exponent (typelist V.downcast_base_type.Dimension)) :
    unit_times dimension_guide unit_guide U V
      = Outcome.ok (downcast unit_guide
          ⟨downcast dimension_guide
              (make_combined_dimension_raw_impl.reducer
                (typelist U.downcast_base_type.Dimension)
                (typelist V.downcast_base_type.Dimension)),
            MultiplyMagnitude U.downcast_base_type.Magnitude V.downcast_base_type.Magnitude⟩) := by
  unfold unit_times multiply_unit multiply_unit_raw
  rw [make_combined_dimension_raw_pair _ _ hU hV]
  rfl

theorem no_zero_exponent_inverse {T : Type} {l : List (Power T)} (h : no_zero_exponent l) :
    no_zero_exponent (l.map Power.inverse) := by
  intro p hp
  obtain ⟨q, hq, rfl⟩ := List.mem_map.mp hp
  exact neg_ne_zero.mpr (h q hq)

theorem unit_divide_eq (dimension_guide : dimension_raw → Option Symbol)
    (unit_guide : unit_raw → Option Symbol) (U V : downcast_type unit_raw)
    (hU : no_zero_exponent (typelist U.downcast_base_type.Dimension))
    (hV : no_zero_exponent (typelist V.downcast_base_type.Dimension)) :
    unit_divide dimension_guide unit_guide U V
      = Outcome.ok (downcast unit_guide
          ⟨downcast dimension_guide
              (make_combined_dimension_raw_impl.reducer
                (typelist U.downcast_base_type.Dimension)
                ((typelist V.downcast_base_type.Dimension).map Power.inverse)),
            MultiplyMagnitude U.downcast_base_type.Magnitude
              (V.downcast_base_type.Magnitude.map Power.inverse)⟩) := by
  unfold unit_divide
  have hd : (inverse_unit unit_guide V).downcast_base_type
      = ⟨downcast_type.base ((typelist V.downcast_base_type.Dimension).map Power.inverse),
          V.downcast_base_type.Magnitude.map Power.inverse⟩ :=
    downcast_base_type_downcast unit_guide (inverse_unit_raw V)
  have h := unit_times_eq dimension_guide unit_guide U (inverse_unit unit_guide V) hU (by
    rw [hd]
    exact no_zero_exponent_inverse hV)
  unfold unit_times at h
  rw [h, hd]
  rfl

end units

/-! ## The claims on units -/

namespace units

open meta

theorem canonical_unit_scaled {Child : Symbol} {U : downcast_type unit_raw} {M : magnitude_raw}
    (hU : canonical_unit U) (hM : canonical MagnitudeComparator M) :
    canonical_unit (ScaledUnit Child U M) :=
  ⟨hU.1, merge_combine_filter_preserves_canonical MagnitudeComparator_strict_total_order
    hU.2 hM⟩

/-- C17: dividing by a unit and multiplying by it again cancels.  For units `U` and `V` with
canonical dimension and magnitude, `(U / V) * V` is defined and has the list of terms of the
dimension of `U` and the magnitude of `U`; when `U` is in resolved form (as a unit declared
under a name is), `(U / V) * V` is `U` itself. -/
theorem unit_divide_times_cancel (dimension_guide : dimension_raw → Option Symbol)
    (unit_guide : unit_raw → Option Symbol) (U V : downcast_type unit_raw)
    (hU : canonical_unit U) (hV : canonical_unit V) :
    ∃ Q W, unit_divide dimension_guide unit_guide U V = Outcome.ok Q ∧
      unit_times dimension_guide unit_guide Q V = Outcome.ok W ∧
      typelist W.downcast_base_type.Dimension = typelist U.downcast_base_type.Dimension ∧
      W.downcast_base_type.Magnitude = U.downcast_base_type.Magnitude ∧
      (resolved_unit dimension_guide unit_guide U → W = U) := by
  have LD := DimensionComparator_strict_total_order
  have LM := MagnitudeComparator_strict_total_order
  have hVi := canonical_inverse LD hV.1
  have hX := merge_combine_filter_preserves_canonical LD hU.1 hVi
  have hQ := unit_divide_eq dimension_guide unit_guide U V hU.1.2 hV.1.2
  have hW := unit_times_eq dimension_guide unit_guide
    (downcast unit_guide
      ⟨downcast dimension_guide
          (make_combined_dimension_raw_impl.reducer
            (typelist U.downcast_base_type.Dimension)
            ((typelist V.downcast_base_type.Dimension).map Power.inverse)),
        MultiplyMagnitude U.downcast_base_type.Magnitude
          (V.downcast_base_type.Magnitude.map Power.inverse)⟩) V (by
      rw [downcast_base_type_downcast, typelist_downcast]
      exact hX.2) hV.1.2
  rw [downcast_base_type_downcast, typelist_downcast] at hW
  have hd : make_combined_dimension_raw_impl.reducer
      (make_combined_dimension_raw_impl.reducer
        (typelist U.downcast_base_type.Dimension)
        ((typelist V.downcast_base_type.Dimension).map Power.inverse))
      (typelist V.downcast_base_type.Dimension)
      = typelist U.downcast_base_type.Dimension :=
    merge_combine_filter_cancel LD hU.1 hV.1
  have hm : MultiplyMagnitude
      (MultiplyMagnitude U.downcast_base_type.Magnitude
        (V.downcast_base_type.Magnitude.map Power.inverse))
      V.downcast_base_type.Magnitude = U.downcast_base_type.Magnitude :=
    merge_combine_filter_cancel LM hU.2 hV.2
  simp only [hd, hm] at hW
  refine ⟨_, _, hQ, hW, ?_, ?_, ?_⟩
  · rw [downcast_base_type_downcast, typelist_downcast]
  · rw [downcast_base_type_downcast]
  · intro hres
    rw [← hres.1]
    exact hres.2.symm

/-- C18: a common scale factor cancels in a quotient of units: for units `U` and `V` with
canonical dimension and magnitude and a canonical magnitude `M`, the quotient of `U` scaled by
`M` and `V` scaled by `M` is defined and is the same unit as `U / V`. -/
theorem scaled_unit_quotient (dimension_guide : dimension_raw → Option Symbol)
    (unit_guide : unit_raw → Option Symbol) (U V : downcast_type unit_raw) (M : magnitude_raw)
    (Child1 Child2 : Symbol) (hU : canonical_unit U) (hV : canonical_unit V)
    (hM : canonical MagnitudeComparator M) :
    unit_divide dimension_guide unit_guide (ScaledUnit Child1 U M) (ScaledUnit Child2 V M)
      = unit_divide dimension_guide unit_guide U V ∧
    ∃ Q, unit_divide dimension_guide unit_guide U V = Outcome.ok Q := by
  have hQ := unit_divide_eq dimension_guide unit_guide U V hU.1.2 hV.1.2
  refine ⟨?_, _, hQ⟩
  rw [hQ, unit_divide_eq dimension_guide unit_guide (ScaledUnit Child1 U M)
    (ScaledUnit Child2 V M) hU.1.2 hV.1.2]
  have hm : MultiplyMagnitude (ScaledUnit Child1 U M).downcast_base_type.Magnitude
      ((ScaledUnit Child2 V M).downcast_base_type.Magnitude.map Power.inverse)
      = MultiplyMagnitude U.downcast_base_type.Magnitude
        (V.downcast_base_type.Magnitude.map Power.inverse) :=
    merge_combine_filter_common_factor MagnitudeComparator_strict_total_order hU.2 hV.2 hM
  rw [hm]
  rfl

/-- C19: scale factors can be exchanged between the operands of a product of units: for units
`U` and `V` with canonical dimension and magnitude and canonical magnitudes `A` and `B`, the
product of `U` scaled by `A` and `V` scaled by `B` is defined and is the same unit as the
product of `U` scaled by `B` and `V` scaled by `A`. -/
theorem scaled_unit_exchange (dimension_guide : dimension_raw → Option Symbol)
    (unit_guide : unit_raw → Option Symbol) (U V : downcast_type unit_raw)
    (A B : magnitude_raw) (Child1 Child2 Child3 Child4 : Symbol)
    (hU : canonical_unit U) (hV : canonical_unit V)
    (hA : canonical MagnitudeComparator A) (hB : canonical MagnitudeComparator B) :
    unit_times dimension_guide unit_guide (ScaledUnit Child1 U A) (ScaledUnit Child2 V B)
      = unit_times dimension_guide unit_guide (ScaledUnit Child3 U B) (ScaledUnit Child4 V A) ∧
    ∃ W, unit_times dimension_guide unit_guide (ScaledUnit Child1 U A) (ScaledUnit Child2 V B)
      = Outcome.ok W := by
  have h1 := unit_times_eq dimension_guide unit_guide (ScaledUnit Child1 U A)
    (ScaledUnit Child2 V B) hU.1.2 hV.1.2
  have h2 := unit_times_eq dimension_guide unit_guide (ScaledUnit Child3 U B)
    (ScaledUnit Child4 V A) hU.1.2 hV.1.2
  refine ⟨?_, _, h1⟩
  rw [h1, h2]
  have hm : MultiplyMagnitude (ScaledUnit Child1 U A).downcast_base_type.Magnitude
      (ScaledUnit Child2 V B).downcast_base_type.Magnitude
      = MultiplyMagnitude (ScaledUnit Child3 U B).downcast_base_type.Magnitude
        (ScaledUnit Child4 V A).downcast_base_type.Magnitude :=
    merge_combine_filter_exchange MagnitudeComparator_strict_total_order hU.2 hV.2 hA hB
  rw [hm]
  rfl

/-- C20: the dimension of a product or of a quotient of units is the resolved form of the
combined dimension.  For units `U` and `V` with canonical dimension and magnitude, the
combination `raw` of their dimensions (of the dimension of `U` and the inverse of the dimension
of `V`) is defined, and the `Dimension` of `U * V` (of `U / V`) is `downcast` of `raw`: the
type declared for `raw` when there is one, and `raw` itself otherwise. -/
theorem unit_product_dimension_resolved (dimension_guide : dimension_raw → Option Symbol)
    (unit_guide : unit_raw → Option Symbol) (U V : downcast_type unit_raw)
    (hU : canonical_unit U) (hV : canonical_unit V) :
    (∃ raw W,
      make_combined_dimension_raw
        [⟨U.downcast_base_type.Dimension, 1⟩, ⟨V.downcast_base_type.Dimension, 1⟩]
        = Outcome.ok raw ∧
      unit_times dimension_guide unit_guide U V = Outcome.ok W ∧
      (∀ Target, dimension_guide raw = some Target →
        W.downcast_base_type.Dimension = downcast_type.child Target raw) ∧
      (dimension_guide raw = none → W.downcast_base_type.Dimension = downcast_type.base raw)) ∧
    (∃ raw W,
      make_combined_dimension_raw
        [⟨U.downcast_base_type.Dimension, 1⟩,
          ⟨downcast_type.base (inverse_dimension_raw V.downcast_base_type.Dimension), 1⟩]
        = Outcome.ok raw ∧
      unit_divide dimension_guide unit_guide U V = Outcome.ok W ∧
      (∀ Target, dimension_guide raw = some Target →
        W.downcast_base_type.Dimension = downcast_type.child Target raw) ∧
      (dimension_guide raw = none → W.downcast_base_type.Dimension = downcast_type.base raw)) := by
  constructor
  · refine ⟨_, _, make_combined_dimension_raw_pair _ _ hU.1.2 hV.1.2,
      unit_times_eq dimension_guide unit_guide U V hU.1.2 hV.1.2, ?_, ?_⟩
    · intro Target hT
      rw [downcast_base_type_downcast]
      simp only [downcast, hT]
    · intro hT
      rw [downcast_base_type_downcast]
      simp only [downcast, hT]
  · refine ⟨_, _, make_combined_dimension_raw_pair _ _ hU.1.2
        (no_zero_exponent_inverse hV.1.2),
      unit_divide_eq dimension_guide unit_guide U V hU.1.2 hV.1.2, ?_, ?_⟩
    · intro Target hT
      rw [downcast_base_type_downcast]
      simp only [downcast]
      rw [show typelist (downcast_type.base
          (inverse_dimension_raw V.downcast_base_type.Dimension))
          = (typelist V.downcast_base_type.Dimension).map Power.inverse from rfl] at hT
      simp only [hT]
      rfl
    · intro hT
      rw [downcast_base_type_downcast]
      simp only [downcast]
      rw [show typelist (downcast_type.base
          (inverse_dimension_raw V.downcast_base_type.Dimension))
          = (typelist V.downcast_base_type.Dimension).map Power.inverse from rfl] at hT
      simp only [hT]
      rfl

end units

/-! ## The units of `unit_definition.h` -/

namespace unit_definition

open meta units

theorem kilometre_scaled :
    kilometre = Outcome.ok (ScaledUnit ⟨"kilometre"⟩ metre
      [⟨Factor.int_factor (to_uint64 2), 3⟩, ⟨Factor.int_factor (to_uint64 5), 3⟩]) := by
  unfold kilometre
  rw [MagnitudeFromRatio_kilo]
  rfl

theorem kilosecond_scaled :
    kilosecond = Outcome.ok (ScaledUnit ⟨"kilosecond"⟩ second
      [⟨Factor.int_factor (to_uint64 2), 3⟩, ⟨Factor.int_factor (to_uint64 5), 3⟩]) := by
  unfold kilosecond
  rw [MagnitudeFromRatio_kilo]
  rfl

theorem millimetre_scaled :
    millimetre = Outcome.ok (ScaledUnit ⟨"millimetre"⟩ metre
      [⟨Factor.int_factor (to_uint64 2), -3⟩, ⟨Factor.int_factor (to_uint64 5), -3⟩]) := by
  unfold millimetre
  rw [MagnitudeFromRatio_milli]
  rfl

theorem millisecond_scaled :
    millisecond = Outcome.ok (ScaledUnit ⟨"millisecond"⟩ second
      [⟨Factor.int_factor (to_uint64 2), -3⟩, ⟨Factor.int_factor (to_uint64 5), -3⟩]) := by
  unfold millisecond
  rw [MagnitudeFromRatio_milli]
  rfl

theorem canonical_unit_metre : canonical_unit metre := ⟨by decide, by decide⟩

theorem canonical_unit_second : canonical_unit second := ⟨by decide, by decide⟩

theorem resolved_unit_metre : resolved_unit dimension_guide unit_guide metre := by
  unfold resolved_unit
  rw [dimension_guide_eq, unit_guide_eq]
  exact ⟨by decide, by decide⟩

/-- The unit `m / s` is `metre_per_second`. -/
theorem metre_divide_second :
    unit_divide dimension_guide unit_guide metre second = metre_per_second := by
  rw [unit_divide_eq dimension_guide unit_guide metre second canonical_unit_metre.1.2
    canonical_unit_second.1.2, metre_per_second_eq]
  have hd : make_combined_dimension_raw_impl.reducer
      (typelist metre.downcast_base_type.Dimension)
      ((typelist second.downcast_base_type.Dimension).map Power.inverse)
      = [⟨⟨"Length"⟩, 1⟩, ⟨⟨"Time"⟩, -1⟩] := by
    unfold make_combined_dimension_raw_impl.reducer
    show merge_combine_filter [⟨⟨"Length"⟩, 1⟩] [⟨⟨"Time"⟩, -1⟩] DimensionComparator
      PowerCombiner = _
    rw [merge_combine_filter_less DimensionComparator PowerCombiner [] []
        (DimensionComparator_Length_Time 1 (-1)),
      merge_combine_filter_nil_left]
  have hm : MultiplyMagnitude metre.downcast_base_type.Magnitude
      (second.downcast_base_type.Magnitude.map Power.inverse) = [] :=
    merge_combine_filter_nil_left _ _ _
  rw [hd, hm, dimension_guide_eq, unit_guide_eq]
  have h1 : downcast (declared_downcast_guide
      [((⟨"Scalar"⟩ : Symbol), ([] : dimension_raw)), (⟨"Length"⟩, [⟨⟨"Length"⟩, 1⟩]),
        (⟨"Time"⟩, [⟨⟨"Time"⟩, 1⟩]),
        (⟨"Speed"⟩, [⟨⟨"Length"⟩, 1⟩, ⟨⟨"Time"⟩, -1⟩])])
      [⟨⟨"Length"⟩, 1⟩, ⟨⟨"Time"⟩, -1⟩]
      = named_dimension ⟨"Speed"⟩ [⟨⟨"Length"⟩, 1⟩, ⟨⟨"Time"⟩, -1⟩] := by decide
  rw [h1]
  exact congrArg Outcome.ok (by decide)

end unit_definition

namespace unit_definition

open meta units

theorem canonical_kilo : canonical MagnitudeComparator
    [⟨Factor.int_factor (to_uint64 2), 3⟩, ⟨Factor.int_factor (to_uint64 5), 3⟩] := by
  decide

theorem canonical_milli : canonical MagnitudeComparator
    [⟨Factor.int_factor (to_uint64 2), -3⟩, ⟨Factor.int_factor (to_uint64 5), -3⟩] := by
  decide

/-- The theorem of C17 applied to `metre` and `second` with the declarations of
`unit_definition.h`: `m / s * s` is `metre`. -/
theorem unit_divide_times_cancel_witness :
    canonical_unit metre ∧ canonical_unit second ∧
    (∃ Q W, unit_divide dimension_guide unit_guide metre second = Outcome.ok Q ∧
      unit_times dimension_guide unit_guide Q second = Outcome.ok W ∧
      typelist W.downcast_base_type.Dimension = typelist metre.downcast_base_type.Dimension ∧
      W.downcast_base_type.Magnitude = metre.downcast_base_type.Magnitude ∧
      (resolved_unit dimension_guide unit_guide metre → W = metre)) ∧
    (unit_divide dimension_guide unit_guide metre second).bind
      (fun Q => unit_times dimension_guide unit_guide Q second) = Outcome.ok metre := by
  have h := unit_divide_times_cancel dimension_guide unit_guide metre second
    canonical_unit_metre canonical_unit_second
  refine ⟨canonical_unit_metre, canonical_unit_second, h, ?_⟩
  obtain ⟨Q, W, hQ, hW, _, _, hres⟩ := h
  rw [hQ]
  simp only [Outcome.bind]
  rw [hW, hres resolved_unit_metre]

/-- The theorem of C18 applied to `metre`, `second` and the magnitude `1000`, with the
declarations of `unit_definition.h`: `km / ks` and `mm / ms` are the unit `m / s`, which is
`metre_per_second`. -/
theorem scaled_unit_quotient_witness :
    canonical_unit metre ∧ canonical_unit second ∧
    canonical MagnitudeComparator
      [⟨Factor.int_factor (to_uint64 2), 3⟩, ⟨Factor.int_factor (to_uint64 5), 3⟩] ∧
    (unit_divide dimension_guide unit_guide
        (ScaledUnit ⟨"kilometre"⟩ metre
          [⟨Factor.int_factor (to_uint64 2), 3⟩, ⟨Factor.int_factor (to_uint64 5), 3⟩])
        (ScaledUnit ⟨"kilosecond"⟩ second
          [⟨Factor.int_factor (to_uint64 2), 3⟩, ⟨Factor.int_factor (to_uint64 5), 3⟩])
      = unit_divide dimension_guide unit_guide metre second ∧
    ∃ Q, unit_divide dimension_guide unit_guide metre second = Outcome.ok Q) ∧
    kilometre.bind (fun km => kilosecond.bind fun ks =>
      unit_divide dimension_guide unit_guide km ks) = metre_per_second ∧
    millimetre.bind (fun mm => millisecond.bind fun ms =>
      unit_divide dimension_guide unit_guide mm ms) = metre_per_second := by
  have hk := scaled_unit_quotient dimension_guide unit_guide metre second
    [⟨Factor.int_factor (to_uint64 2), 3⟩, ⟨Factor.int_factor (to_uint64 5), 3⟩]
    ⟨"kilometre"⟩ ⟨"kilosecond"⟩ canonical_unit_metre canonical_unit_second canonical_kilo
  have hm := scaled_unit_quotient dimension_guide unit_guide metre second
    [⟨Factor.int_factor (to_uint64 2), -3⟩, ⟨Factor.int_factor (to_uint64 5), -3⟩]
    ⟨"millimetre"⟩ ⟨"millisecond"⟩ canonical_unit_metre canonical_unit_second canonical_milli
  refine ⟨canonical_unit_metre, canonical_unit_second, canonical_kilo, hk, ?_, ?_⟩
  · rw [kilometre_scaled, kilosecond_scaled]
    simp only [Outcome.bind]
    rw [hk.1, metre_divide_second]
  · rw [millimetre_scaled, millisecond_scaled]
    simp only [Outcome.bind]
    rw [hm.1, metre_divide_second]

/-- The theorem of C19 applied to `metre`, `second` and the magnitudes `1000` and `1 / 1000`,
with the declarations of `unit_definition.h`: `km * ms` is the unit `mm * ks`. -/
theorem scaled_unit_exchange_witness :
    canonical_unit metre ∧ canonical_unit second ∧
    canonical MagnitudeComparator
      [⟨Factor.int_factor (to_uint64 2), 3⟩, ⟨Factor.int_factor (to_uint64 5), 3⟩] ∧
    canonical MagnitudeComparator
      [⟨Factor.int_factor (to_uint64 2), -3⟩, ⟨Factor.int_factor (to_uint64 5), -3⟩] ∧
    (unit_times dimension_guide unit_guide
        (ScaledUnit ⟨"kilometre"⟩ metre
          [⟨Factor.int_factor (to_uint64 2), 3⟩, ⟨Factor.int_factor (to_uint64 5), 3⟩])
        (ScaledUnit ⟨"millisecond"⟩ second
          [⟨Factor.int_factor (to_uint64 2), -3⟩, ⟨Factor.int_factor (to_uint64 5), -3⟩])
      = unit_times dimension_guide unit_guide
        (ScaledUnit ⟨"millimetre"⟩ metre
          [⟨Factor.int_factor (to_uint64 2), -3⟩, ⟨Factor.int_factor (to_uint64 5), -3⟩])
        (ScaledUnit ⟨"kilosecond"⟩ second
          [⟨Factor.int_factor (to_uint64 2), 3⟩, ⟨Factor.int_factor (to_uint64 5), 3⟩]) ∧
    ∃ W, unit_times dimension_guide unit_guide
        (ScaledUnit ⟨"kilometre"⟩ metre
          [⟨Factor.int_factor (to_uint64 2), 3⟩, ⟨Factor.int_factor (to_uint64 5), 3⟩])
        (ScaledUnit ⟨"millisecond"⟩ second
          [⟨Factor.int_factor (to_uint64 2), -3⟩, ⟨Factor.int_factor (to_uint64 5), -3⟩])
      = Outcome.ok W) ∧
    kilometre.bind (fun km => millisecond.bind fun ms =>
        unit_times dimension_guide unit_guide km ms)
      = millimetre.bind (fun mm => kilosecond.bind fun ks =>
        unit_times dimension_guide unit_guide mm ks) := by
  have h := scaled_unit_exchange dimension_guide unit_guide metre second
    [⟨Factor.int_factor (to_uint64 2), 3⟩, ⟨Factor.int_factor (to_uint64 5), 3⟩]
    [⟨Factor.int_factor (to_uint64 2), -3⟩, ⟨Factor.int_factor (to_uint64 5), -3⟩]
    ⟨"kilometre"⟩ ⟨"millisecond"⟩ ⟨"millimetre"⟩ ⟨"kilosecond"⟩
    canonical_unit_metre canonical_unit_second canonical_kilo canonical_milli
  refine ⟨canonical_unit_metre, canonical_unit_second, canonical_kilo, canonical_milli, h, ?_⟩
  rw [kilometre_scaled, millisecond_scaled, millimetre_scaled, kilosecond_scaled]
  simp only [Outcome.bind]
  exact h.1

/-- The theorem of C20 applied to `metre` and `second` with the declarations of
`unit_definition.h`: the `Dimension` of `metre / second` is the declared type `Speed`. -/
theorem unit_product_dimension_resolved_witness :
    canonical_unit metre ∧ canonical_unit second ∧
    ((∃ raw W,
      make_combined_dimension_raw
        [⟨metre.downcast_base_type.Dimension, 1⟩, ⟨second.downcast_base_type.Dimension, 1⟩]
        = Outcome.ok raw ∧
      unit_times dimension_guide unit_guide metre second = Outcome.ok W ∧
      (∀ Target, dimension_guide raw = some Target →
        W.downcast_base_type.Dimension = downcast_type.child Target raw) ∧
      (dimension_guide raw = none → W.downcast_base_type.Dimension = downcast_type.base raw)) ∧
    (∃ raw W,
      make_combined_dimension_raw
        [⟨metre.downcast_base_type.Dimension, 1⟩,
          ⟨downcast_type.base (inverse_dimension_raw second.downcast_base_type.Dimension), 1⟩]
        = Outcome.ok raw ∧
      unit_divide dimension_guide unit_guide metre second = Outcome.ok W ∧
      (∀ Target, dimension_guide raw = some Target →
        W.downcast_base_type.Dimension = downcast_type.child Target raw) ∧
      (dimension_guide raw = none →
        W.downcast_base_type.Dimension = downcast_type.base raw))) ∧
    (∃ W, unit_divide dimension_guide unit_guide metre second = Outcome.ok W ∧
      Outcome.ok W.downcast_base_type.Dimension = Speed) := by
  refine ⟨canonical_unit_metre, canonical_unit_second,
    unit_product_dimension_resolved dimension_guide unit_guide metre second
      canonical_unit_metre canonical_unit_second, ?_⟩
  rw [metre_divide_second, metre_per_second_eq, Speed_eq]
  exact ⟨_, rfl, rfl⟩

end unit_definition
/-! ## The claims on the downcast protocol -/

namespace units

open meta

/-- The dimension of `inverse_unit<Unit>` is the type `dimension_raw<...>` that
`inverse_dimension_raw` returns, whatever the program declares: `inverse_unit_raw` does not pass
it through `meta::downcast`, and the `meta::downcast` of `inverse_unit` acts on the unit. -/
theorem inverse_unit_Dimension (unit_guide : unit_raw → Option Symbol)
    (Unit : downcast_type unit_raw) :
    (inverse_unit unit_guide Unit).downcast_base_type.Dimension
      = downcast_type.base (inverse_dimension_raw Unit.downcast_base_type.Dimension) := by
  unfold inverse_unit
  rw [downcast_base_type_downcast]
  rfl

end units

namespace unit_definition

open meta units

/-- C21: the dimension of `inverse_unit<U>` is meant to be the name declared for the inverted
dimension.  For `U = ScalarUnit` the inverted dimension is `dimension_raw<>`, for which the
library declares the name `Scalar`, and `multiply_unit` resolves it to `Scalar`; but the
dimension of `inverse_unit<ScalarUnit>` is the type `dimension_raw<>` itself, not `Scalar`. -/
theorem inverse_unit_dimension_not_resolved :
    inverse_dimension_raw ScalarUnit.downcast_base_type.Dimension = [] ∧
    downcast dimension_guide [] = Scalar ∧
    (inverse_unit unit_guide ScalarUnit).downcast_base_type.Dimension = downcast_type.base [] ∧
    (inverse_unit unit_guide ScalarUnit).downcast_base_type.Dimension ≠ Scalar ∧
    (∃ W, multiply_unit dimension_guide unit_guide ScalarUnit ScalarUnit = Outcome.ok W ∧
      W.downcast_base_type.Dimension = Scalar) := by
  have hs : downcast dimension_guide [] = Scalar := by
    rw [dimension_guide_eq]
    decide
  have hi : (inverse_unit unit_guide ScalarUnit).downcast_base_type.Dimension
      = downcast_type.base [] := inverse_unit_Dimension unit_guide ScalarUnit
  refine ⟨rfl, hs, hi, ?_, ?_⟩
  · rw [hi]
    decide
  · refine ⟨downcast unit_guide ⟨Scalar, []⟩, ?_, ?_⟩
    · have hd : make_combined_dimension_raw
          [⟨ScalarUnit.downcast_base_type.Dimension, 1⟩,
            ⟨ScalarUnit.downcast_base_type.Dimension, 1⟩] = Outcome.ok [] := by
        unfold make_combined_dimension_raw
        have hl : make_combined_dimension_raw_impl.list_of_list_of_dim_power
            [⟨ScalarUnit.downcast_base_type.Dimension, 1⟩,
              ⟨ScalarUnit.downcast_base_type.Dimension, 1⟩] = Outcome.ok [[], []] := by
          decide
        rw [hl]
        simp only [Outcome.bind, reduce, make_combined_dimension_raw_impl.reducer]
        rw [merge_combine_filter_nil_left, merge_combine_filter_nil_left]
      unfold multiply_unit multiply_unit_raw
      rw [hd]
      simp only [Outcome.bind]
      rw [hs]
      have hm : MultiplyMagnitude ScalarUnit.downcast_base_type.Magnitude
          ScalarUnit.downcast_base_type.Magnitude = [] := merge_combine_filter_nil_left _ _ _
      rw [hm]
    · rw [downcast_base_type_downcast]

end unit_definition
namespace units

open meta

theorem declared_downcast_guide_none {T : Type} [DecidableEq T]
    (declarations : List (Symbol × T)) (F : T) (h : ∀ d ∈ declarations, d.2 ≠ F) :
    declared_downcast_guide declarations F = none := by
  unfold declared_downcast_guide
  have hf : declarations.find? (fun d => d.2 = F) = none := by
    rw [List.find?_eq_none]
    intro d hd hF
    exact h d hd (by simpa using hF)
  rw [hf]

theorem declared_downcast_guide_some {T : Type} [DecidableEq T]
    (declarations : List (Symbol × T)) (F : T) (N : Symbol) (h : (N, F) ∈ declarations)
    (hunique : ∀ d ∈ declarations, d.2 = F → d.1 = N) :
    declared_downcast_guide declarations F = some N := by
  unfold declared_downcast_guide
  cases hf : declarations.find? (fun d => d.2 = F) with
  | none =>
    rw [List.find?_eq_none] at hf
    exact absurd (by simp) (hf (N, F) h)
  | some d =>
    have hd : d.2 = F := by simpa using List.find?_some hf
    have hN : d.1 = N := hunique d (List.mem_of_find?_eq_some hf) hd
    simp only [hN]

/-- C22: `meta::downcast` is a total lookup.  For every list of declarations and every
anonymous form `F`: if a name `N` is declared for exactly `F` (and every declaration for `F`
declares the name `N`), then `downcast` returns the declared type `N`, and if no declaration is
for `F`, then `downcast` returns `F` itself; in both cases the form underneath the result is
`F`. -/
theorem downcast_total_lookup {T : Type} [DecidableEq T] (declarations : List (Symbol × T))
    (F : T) :
    (∀ N, (N, F) ∈ declarations → (∀ d ∈ declarations, d.2 = F → d.1 = N) →
      downcast (declared_downcast_guide declarations) F = downcast_type.child N F) ∧
    ((∀ d ∈ declarations, d.2 ≠ F) →
      downcast (declared_downcast_guide declarations) F = downcast_type.base F) ∧
    (downcast (declared_downcast_guide declarations) F).downcast_base_type = F := by
  refine ⟨?_, ?_, downcast_base_type_downcast _ F⟩
  · intro N hN hunique
    unfold downcast
    rw [declared_downcast_guide_some declarations F N hN hunique]
  · intro hnone
    unfold downcast
    rw [declared_downcast_guide_none declarations F hnone]

end units

namespace unit_definition

open meta units

/-- The theorem of C22 on the dimensions that `unit_definition.h` declares: the form
`Length^1 Time^-1` resolves to `Speed`, and the form `Length^1 Time^-2`, for which no name is
declared, resolves to itself. -/
theorem downcast_total_lookup_witness :
    downcast dimension_guide [⟨⟨"Length"⟩, 1⟩, ⟨⟨"Time"⟩, -1⟩]
      = downcast_type.child ⟨"Speed"⟩ [⟨⟨"Length"⟩, 1⟩, ⟨⟨"Time"⟩, -1⟩] ∧
    downcast dimension_guide [⟨⟨"Length"⟩, 1⟩, ⟨⟨"Time"⟩, -2⟩]
      = downcast_type.base [⟨⟨"Length"⟩, 1⟩, ⟨⟨"Time"⟩, -2⟩] := by
  rw [dimension_guide_eq]
  constructor
  · exact (downcast_total_lookup _
      ([⟨⟨"Length"⟩, 1⟩, ⟨⟨"Time"⟩, -1⟩] : dimension_raw)).1 ⟨"Speed"⟩ (by decide) (by decide)
  · exact (downcast_total_lookup _
      ([⟨⟨"Length"⟩, 1⟩, ⟨⟨"Time"⟩, -2⟩] : dimension_raw)).2.1 (by decide)

end unit_definition

namespace units

open meta

theorem to_base_dimensions_child (N : Symbol) (F : dimension_raw) (e : Int) :
    to_base_dimensions ⟨downcast_type.child N F, e⟩
      = to_base_dimensions ⟨downcast_type.base F, e⟩ := rfl

theorem list_of_list_of_dim_power_append
    (terms1 terms2 terms2' : List (Power (downcast_type dimension_raw)))
    (h : make_combined_dimension_raw_impl.list_of_list_of_dim_power terms2
      = make_combined_dimension_raw_impl.list_of_list_of_dim_power terms2') :
    make_combined_dimension_raw_impl.list_of_list_of_dim_power (terms1 ++ terms2)
      = make_combined_dimension_raw_impl.list_of_list_of_dim_power (terms1 ++ terms2') := by
  induction terms1 with
  | nil => exact h
  | cons t terms1 ih =>
    show (to_base_dimensions t).bind (fun head =>
        (make_combined_dimension_raw_impl.list_of_list_of_dim_power (terms1 ++ terms2)).bind
          fun tail => Outcome.ok (head :: tail))
      = (to_base_dimensions t).bind (fun head =>
        (make_combined_dimension_raw_impl.list_of_list_of_dim_power (terms1 ++ terms2')).bind
          fun tail => Outcome.ok (head :: tail))
    rw [ih]

/-- C23: resolution is transparent to the combination of dimensions.  For every name `N`
declared for the form `F`, every exponent `e` and all other terms before and after it,
`make_combined_dimension_raw` gives the same result, be it a dimension or the failure of a
`static_assert`, for the term `Power<N, e>` as for the term `Power<F, e>`; and so does
`CombinedDimension`. -/
theorem make_combined_dimension_raw_transparent (N : Symbol) (F : dimension_raw) (e : Int)
    (before after : List (Power (downcast_type dimension_raw))) :
    make_combined_dimension_raw (before ++ ⟨named_dimension N F, e⟩ :: after)
      = make_combined_dimension_raw (before ++ ⟨downcast_type.base F, e⟩ :: after) ∧
    ∀ Child, CombinedDimension Child (before ++ ⟨named_dimension N F, e⟩ :: after)
      = CombinedDimension Child (before ++ ⟨downcast_type.base F, e⟩ :: after) := by
  have h : make_combined_dimension_raw (before ++ ⟨named_dimension N F, e⟩ :: after)
      = make_combined_dimension_raw (before ++ ⟨downcast_type.base F, e⟩ :: after) := by
    unfold make_combined_dimension_raw
    rw [list_of_list_of_dim_power_append before _ (⟨downcast_type.base F, e⟩ :: after)]
    simp only [make_combined_dimension_raw_impl.list_of_list_of_dim_power]
    rw [show named_dimension N F = downcast_type.child N F from rfl, to_base_dimensions_child]
  refine ⟨h, ?_⟩
  intro Child
  unfold CombinedDimension
  rw [h]

/-- The theorem of C23 on `Acceleration`, declared for `Length^1 Time^-2`: combined with
`Time`, the name and the form underneath it both give `Length^1 Time^-1`. -/
theorem make_combined_dimension_raw_transparent_witness :
    make_combined_dimension_raw
        [⟨named_dimension ⟨"Acceleration"⟩ [⟨⟨"Length"⟩, 1⟩, ⟨⟨"Time"⟩, -2⟩], 1⟩,
          ⟨unit_definition.Time, 1⟩]
      = Outcome.ok [⟨⟨"Length"⟩, 1⟩, ⟨⟨"Time"⟩, -1⟩] ∧
    make_combined_dimension_raw
        [⟨downcast_type.base [⟨⟨"Length"⟩, 1⟩, ⟨⟨"Time"⟩, -2⟩], 1⟩, ⟨unit_definition.Time, 1⟩]
      = Outcome.ok [⟨⟨"Length"⟩, 1⟩, ⟨⟨"Time"⟩, -1⟩] := by
  have h := (make_combined_dimension_raw_transparent ⟨"Acceleration"⟩
    [⟨⟨"Length"⟩, 1⟩, ⟨⟨"Time"⟩, -2⟩] 1 [] [⟨unit_definition.Time, 1⟩]).1
  simp only [List.nil_append] at h
  refine ⟨combined_Acceleration_Time.1, ?_⟩
  rw [← h]
  exact combined_Acceleration_Time.1

end units
/-! ## Evaluation of a magnitude -/

namespace units

open meta

/-- The function `int_pow<exp>` computes the power `value ^ exp`. -/
theorem int_pow_eq_zpow (exp : Int) (value : ℚ) : int_pow exp value = value ^ exp := by
  induction exp, value using int_pow.induct with
  | case1 exp value hneg ih =>
    rw [int_pow, if_pos hneg, ih, zpow_neg, one_div, inv_inv]
  | case2 value =>
    rw [int_pow]
    simp
  | case3 value =>
    rw [int_pow]
    simp
  | case4 exp value hneg h0 h1 heven ih =>
    rw [int_pow, if_neg hneg, if_neg h0, if_neg h1, if_pos heven, ih]
    have hd : exp.tdiv 2 = exp / 2 := Int.tdiv_eq_ediv (by omega) (by omega)
    have hm : exp.tmod 2 = exp % 2 := Int.tmod_eq_emod (by omega) (by omega)
    rw [hm] at heven
    rw [hd, ← pow_two, ← zpow_natCast, ← zpow_mul]
    congr 1
    push_cast
    omega
  | case5 exp value hneg h0 h1 hodd ih =>
    rw [int_pow, if_neg hneg, if_neg h0, if_neg h1, if_neg hodd, ih]
    have hd : exp.tdiv 2 = exp / 2 := Int.tdiv_eq_ediv (by omega) (by omega)
    have hm : exp.tmod 2 = exp % 2 := Int.tmod_eq_emod (by omega) (by omega)
    rw [hm] at hodd
    rw [hd, ← pow_two, ← zpow_natCast, ← zpow_mul]
    have he : exp = 2 * (exp / 2) + 1 := by omega
    by_cases hv : value = 0
    · subst hv
      rw [mul_zero, zero_zpow exp h0]
    · conv_rhs => rw [he]
      rw [zpow_add₀ hv, zpow_one]
      push_cast
      rfl

theorem ApplyMagnitudeAsFloat.reducer_eq (irrational_value : Symbol → ℚ) (acc : ℚ)
    (FactorPower : Power Factor) :
    ApplyMagnitudeAsFloat.reducer irrational_value acc FactorPower
      = acc * factor_value irrational_value FactorPower.Base ^ FactorPower.exponent := by
  unfold ApplyMagnitudeAsFloat.reducer factor_value
  cases FactorPower.Base <;> simp only [int_pow_eq_zpow]

theorem reduce_reducer_eq (irrational_value : Symbol → ℚ) (Magnitude : magnitude_raw) :
    ∀ acc : ℚ, reduce acc Magnitude (ApplyMagnitudeAsFloat.reducer irrational_value)
      = acc * magnitude_value irrational_value Magnitude := by
  induction Magnitude with
  | nil =>
    intro acc
    simp [reduce, magnitude_value]
  | cons p l ih =>
    intro acc
    rw [reduce, ih, ApplyMagnitudeAsFloat.reducer_eq]
    simp only [magnitude_value, List.map_cons, List.prod_cons]
    ring

/-- What `ApplyMagnitudeAsFloat::apply<Magnitude>(value)` returns is `value` times the number
that the magnitude stands for. -/
theorem ApplyMagnitudeAsFloat.apply_eq (irrational_value : Symbol → ℚ)
    (Magnitude : magnitude_raw) (value : ℚ) :
    ApplyMagnitudeAsFloat.apply irrational_value Magnitude value
      = magnitude_value irrational_value Magnitude * value := by
  unfold ApplyMagnitudeAsFloat.apply
  simp only
  rw [reduce_reducer_eq, one_mul]

end units
namespace units

open meta

theorem magnitude_value_nil (irrational_value : Symbol → ℚ) :
    magnitude_value irrational_value [] = 1 := rfl

theorem magnitude_value_cons (irrational_value : Symbol → ℚ) (p : Power Factor)
    (l : magnitude_raw) :
    magnitude_value irrational_value (p :: l)
      = factor_value irrational_value p.Base ^ p.exponent
        * magnitude_value irrational_value l := by
  simp [magnitude_value]

/-- The magnitude `InverseMagnitude<M>` stands for the inverse of the number of `M`. -/
theorem magnitude_value_inverse (irrational_value : Symbol → ℚ) (Magnitude : magnitude_raw) :
    magnitude_value irrational_value (InverseMagnitude Magnitude)
      = (magnitude_value irrational_value Magnitude)⁻¹ := by
  induction Magnitude with
  | nil => simp [InverseMagnitude, magnitude_value]
  | cons p l ih =>
    have hc : InverseMagnitude (p :: l) = ⟨p.Base, -p.exponent⟩ :: InverseMagnitude l := rfl
    rw [hc, magnitude_value_cons, magnitude_value_cons, ih, mul_inv, zpow_neg]

theorem magnitude_value_ne_zero (irrational_value : Symbol → ℚ) (Magnitude : magnitude_raw)
    (h : ∀ p ∈ Magnitude, factor_value irrational_value p.Base ≠ 0) :
    magnitude_value irrational_value Magnitude ≠ 0 := by
  induction Magnitude with
  | nil => simp [magnitude_value]
  | cons p l ih =>
    rw [magnitude_value_cons]
    exact mul_ne_zero (zpow_ne_zero _ (h p (List.mem_cons_self _ _)))
      (ih fun q hq => h q (List.mem_cons_of_mem _ hq))

/-- The magnitude `MultiplyMagnitude<M1, M2>` stands for the product of the numbers of `M1` and
`M2`, when no factor has the value `0`. -/
theorem magnitude_value_multiply (irrational_value : Symbol → ℚ)
    (Magnitude1 Magnitude2 : magnitude_raw)
    (h1 : ∀ p ∈ Magnitude1, factor_value irrational_value p.Base ≠ 0)
    (h2 : ∀ p ∈ Magnitude2, factor_value irrational_value p.Base ≠ 0) :
    magnitude_value irrational_value (MultiplyMagnitude Magnitude1 Magnitude2)
      = magnitude_value irrational_value Magnitude1
        * magnitude_value irrational_value Magnitude2 := by
  unfold MultiplyMagnitude
  revert h1 h2
  refine merge_combine_filter_induction MagnitudeComparator PowerCombiner
    (fun l1 l2 => (∀ p ∈ l1, factor_value irrational_value p.Base ≠ 0) →
      (∀ p ∈ l2, factor_value irrational_value p.Base ≠ 0) →
      magnitude_value irrational_value
          (merge_combine_filter l1 l2 MagnitudeComparator PowerCombiner)
        = magnitude_value irrational_value l1 * magnitude_value irrational_value l2)
    ?_ ?_ ?_ ?_ ?_ ?_ Magnitude1 Magnitude2
  · intro list2 _ _
    rw [merge_combine_filter_nil_left, magnitude_value_nil, one_mul]
  · intro h1 t1 _ _
    rw [merge_combine_filter_nil_right, magnitude_value_nil, mul_one]
  · intro a t1 b t2 hc hn ih ha hb
    rw [merge_combine_filter_equivalent_none MagnitudeComparator PowerCombiner t1 t2 hc hn,
      ih (fun q hq => ha q (List.mem_cons_of_mem _ hq))
        (fun q hq => hb q (List.mem_cons_of_mem _ hq)),
      magnitude_value_cons, magnitude_value_cons]
    have hbase : a.Base = b.Base :=
      (MagnitudeComparator_strict_total_order.equivalent_iff a b).mp hc
    have hsum := PowerCombiner_eq_none hn
    have hv := ha a (List.mem_cons_self _ _)
    have hone : factor_value irrational_value a.Base ^ a.exponent
        * factor_value irrational_value b.Base ^ b.exponent = 1 := by
      rw [← hbase, ← zpow_add₀ hv, hsum, zpow_zero]
    calc magnitude_value irrational_value t1 * magnitude_value irrational_value t2
        = (factor_value irrational_value a.Base ^ a.exponent
            * factor_value irrational_value b.Base ^ b.exponent)
          * (magnitude_value irrational_value t1 * magnitude_value irrational_value t2) := by
          rw [hone, one_mul]
      _ = _ := by ring
  · intro a t1 b t2 c hc hs ih ha hb
    rw [merge_combine_filter_equivalent_some MagnitudeComparator PowerCombiner t1 t2 hc hs,
      magnitude_value_cons,
      ih (fun q hq => ha q (List.mem_cons_of_mem _ hq))
        (fun q hq => hb q (List.mem_cons_of_mem _ hq)),
      magnitude_value_cons, magnitude_value_cons]
    have hbase : a.Base = b.Base :=
      (MagnitudeComparator_strict_total_order.equivalent_iff a b).mp hc
    obtain ⟨hcb, hce, _⟩ := PowerCombiner_eq_some hs
    have hv := ha a (List.mem_cons_self _ _)
    rw [hcb, hce, zpow_add₀ hv, ← hbase]
    ring
  · intro a t1 b t2 hc ih ha hb
    rw [merge_combine_filter_less MagnitudeComparator PowerCombiner t1 t2 hc,
      magnitude_value_cons, ih (fun q hq => ha q (List.mem_cons_of_mem _ hq)) hb,
      magnitude_value_cons irrational_value a t1]
    ring
  · intro a t1 b t2 hc ih ha hb
    rw [merge_combine_filter_greater MagnitudeComparator PowerCombiner t1 t2 hc,
      magnitude_value_cons, ih ha (fun q hq => hb q (List.mem_cons_of_mem _ hq)),
      magnitude_value_cons irrational_value b t2]
    ring

theorem factor_value_inverse_ne_zero (irrational_value : Symbol → ℚ)
    (Magnitude : magnitude_raw)
    (h : ∀ p ∈ Magnitude, factor_value irrational_value p.Base ≠ 0) :
    ∀ p ∈ InverseMagnitude Magnitude, factor_value irrational_value p.Base ≠ 0 := by
  intro p hp
  unfold InverseMagnitude at hp
  rw [List.mem_map] at hp
  obtain ⟨q, hq, rfl⟩ := hp
  exact h q hq

theorem factor_value_multiply_ne_zero (irrational_value : Symbol → ℚ)
    (Magnitude1 Magnitude2 : magnitude_raw)
    (h1 : ∀ p ∈ Magnitude1, factor_value irrational_value p.Base ≠ 0)
    (h2 : ∀ p ∈ Magnitude2, factor_value irrational_value p.Base ≠ 0) :
    ∀ p ∈ MultiplyMagnitude Magnitude1 Magnitude2,
      factor_value irrational_value p.Base ≠ 0 :=
  merge_combine_filter_base MagnitudeComparator
    (fun b => factor_value irrational_value b ≠ 0) Magnitude1 Magnitude2 h1 h2

end units
namespace units

open meta

theorem int_factor_value_to_uint64 (n : Nat) (h : n < 2 ^ 63) :
    int_factor_value (to_uint64 n) = (n : Int) := by
  unfold int_factor_value to_uint64
  simp only
  rw [UINT64_SIZE_eq]
  have hm : n % 18446744073709551616 = n := Nat.mod_eq_of_lt (by omega)
  rw [hm, if_pos h]

theorem magnitude_value_extract_factors (irrational_value : Symbol → ℚ) :
    ∀ factors : List factor_exponent,
      (∀ fe ∈ factors, fe.factor < 2 ^ 63 ∧ 0 ≤ fe.exponent) →
      magnitude_value irrational_value (extract_factors ⟨factors⟩)
        = ((factors_product ⟨factors⟩ : Nat) : ℚ) := by
  intro factors
  induction factors with
  | nil =>
    intro _
    simp [extract_factors, magnitude_value, factors_product]
  | cons fe l ih =>
    intro h
    have hl := ih fun x hx => h x (List.mem_cons_of_mem _ hx)
    obtain ⟨hf, he⟩ := h fe (List.mem_cons_self _ _)
    have hc : extract_factors ⟨fe :: l⟩
        = ⟨Factor.int_factor (to_uint64 fe.factor), fe.exponent⟩ :: extract_factors ⟨l⟩ := rfl
    have hp : factors_product ⟨fe :: l⟩
        = fe.factor ^ fe.exponent.toNat * factors_product ⟨l⟩ := by
      simp [factors_product]
    rw [hc, magnitude_value_cons, hl, hp]
    have hv : factor_value irrational_value (Factor.int_factor (to_uint64 fe.factor))
        = (fe.factor : ℚ) := by
      show ((int_factor_value (to_uint64 fe.factor) : Int) : ℚ) = _
      rw [int_factor_value_to_uint64 fe.factor hf]
      simp
    have hexp : fe.exponent = (fe.exponent.toNat : Int) := (Int.toNat_of_nonneg he).symm
    have hz : (fe.factor : ℚ) ^ fe.exponent = (fe.factor : ℚ) ^ fe.exponent.toNat := by
      conv_lhs => rw [hexp]
      exact zpow_natCast _ _
    simp only [hv]
    rw [hz]
    push_cast
    rfl

/-- For `0 < N < 2 ^ 63`, the magnitude `MagnitudeFromInt<N>`, when the factorization of `N`
fits into the array `factors`, stands for the number `N`, and none of its factors has the value
`0`. -/
theorem magnitude_value_MagnitudeFromInt (irrational_value : Symbol → ℚ) (N : Nat)
    (h0 : 0 < N) (hN : N < 2 ^ 63) (M : magnitude_raw) (h : MagnitudeFromInt N = Outcome.ok M) :
    magnitude_value irrational_value M = (N : ℚ) ∧
    ∀ p ∈ M, factor_value irrational_value p.Base ≠ 0 := by
  unfold MagnitudeFromInt at h
  rw [if_pos h0] at h
  have hU : N < UINT64_SIZE := by
    rw [UINT64_SIZE_eq]
    omega
  rcases prime_factorization_spec N h0 hU with hob | ⟨r, hr, hprod, _, hfe⟩
  · rw [hob] at h
    cases h
  · rw [hr] at h
    simp only [Outcome.bind, Outcome.ok.injEq] at h
    subst h
    have hbound : ∀ fe ∈ r.factors, fe.factor < 2 ^ 63 ∧ 0 ≤ fe.exponent := by
      intro fe hmem
      obtain ⟨h2, h1⟩ := hfe fe hmem
      have hd1 : fe.factor ∣ fe.factor ^ fe.exponent.toNat :=
        dvd_pow_self _ (by omega)
      have hd2 : fe.factor ^ fe.exponent.toNat ∣ factors_product r := by
        unfold factors_product
        apply List.dvd_prod
        rw [List.mem_map]
        exact ⟨fe, hmem, rfl⟩
      have hle : fe.factor ≤ N := by
        rw [← hprod]
        apply Nat.le_of_dvd
        · rw [hprod]
          exact h0
        · exact hd1.trans hd2
      exact ⟨by omega, by omega⟩
    refine ⟨?_, ?_⟩
    · rw [show r = ⟨r.factors⟩ from rfl, magnitude_value_extract_factors irrational_value
        r.factors hbound]
      rw [show (⟨r.factors⟩ : prime_factorization_result_t) = r from rfl, hprod]
    · intro p hp
      unfold extract_factors at hp
      rw [List.mem_map] at hp
      obtain ⟨fe, hmem, rfl⟩ := hp
      show ((int_factor_value (to_uint64 fe.factor) : Int) : ℚ) ≠ 0
      rw [int_factor_value_to_uint64 fe.factor (hbound fe hmem).1]
      have := (hfe fe hmem).1
      simp only [Int.cast_natCast, ne_eq, Nat.cast_eq_zero]
      omega

end units
/-! ## The claims on the value of a magnitude and on conversion factors -/

namespace units

open meta

/-- For `0 < N < 2 ^ 63` and a factorization of `N` that fits into the array `factors`,
`ApplyMagnitudeAsFloat::apply<MagnitudeFromInt<N>>(1)` is `N`. -/
theorem apply_MagnitudeFromInt (irrational_value : Symbol → ℚ) (N : Nat)
    (h0 : 0 < N) (hN : N < 2 ^ 63) (M : magnitude_raw) (h : MagnitudeFromInt N = Outcome.ok M) :
    ApplyMagnitudeAsFloat.apply irrational_value M 1 = (N : ℚ) := by
  rw [ApplyMagnitudeAsFloat.apply_eq, mul_one]
  exact (magnitude_value_MagnitudeFromInt irrational_value N h0 hN M h).1

/-- The value of a term `Power<int_factor<N>, 1>` with `N` from `2 ^ 63` on is `N - 2 ^ 64`,
a negative number: the member `int_factor<N>::value` is an `int64_t`. -/
theorem apply_large_int_factor (irrational_value : Symbol → ℚ) (N : Fin UINT64_SIZE)
    (h : 2 ^ 63 ≤ N.val) :
    ApplyMagnitudeAsFloat.apply irrational_value [⟨Factor.int_factor N, 1⟩] 1
      = (N.val : ℚ) - 2 ^ 64 := by
  rw [ApplyMagnitudeAsFloat.apply_eq, mul_one, magnitude_value_cons, magnitude_value_nil,
    mul_one, zpow_one]
  show ((int_factor_value N : Int) : ℚ) = _
  unfold int_factor_value
  rw [if_neg (by omega)]
  push_cast
  rfl

/-- C24: the value of `MagnitudeFromInt<N>` is meant to be `N` for every 64-bit `N > 0`.  For
`N = 614889782588491410`, the product of the first fifteen primes, no magnitude is built, as
`prime_factorization` writes past the end of the array `factors`; so there is no magnitude
whose value could be `N`. -/
theorem magnitude_from_int_value_fails :
    0 < 614889782588491410 ∧ 614889782588491410 < UINT64_SIZE ∧
    MagnitudeFromInt 614889782588491410 = Outcome.out_of_bounds ∧
    ¬ ∃ M, MagnitudeFromInt 614889782588491410 = Outcome.ok M ∧
      ApplyMagnitudeAsFloat.apply (fun _ => 0) M 1 = 614889782588491410 := by
  have h : MagnitudeFromInt 614889782588491410 = Outcome.out_of_bounds := by
    have hp : prime_factorization 614889782588491410 = Outcome.out_of_bounds := by decide
    unfold MagnitudeFromInt
    rw [if_pos (by decide), hp]
    rfl
  refine ⟨by decide, by decide, h, ?_⟩
  rintro ⟨M, hM, _⟩
  rw [h] at hM
  cases hM

/-- The parts of a ratio `a / b` with a magnitude. -/
theorem MagnitudeFromRatio_ok (num den : Int) (R : magnitude_raw)
    (h : MagnitudeFromRatio num den = Outcome.ok R) :
    ∃ A B, MagnitudeFromInt num.toNat = Outcome.ok A ∧ MagnitudeFromInt den.toNat = Outcome.ok B ∧
      R = MultiplyMagnitude A (InverseMagnitude B) := by
  unfold MagnitudeFromRatio at h
  split_ifs at h with hr
  cases hA : MagnitudeFromInt num.toNat with
  | ok A =>
    rw [hA] at h
    cases hB : MagnitudeFromInt den.toNat with
    | ok B =>
      rw [hB] at h
      simp only [Outcome.bind, Outcome.ok.injEq] at h
      exact ⟨A, B, rfl, rfl, h.symm⟩
    | out_of_bounds => rw [hB] at h; cases h
    | out_of_fuel => rw [hB] at h; cases h
    | ill_formed => rw [hB] at h; cases h
  | out_of_bounds => rw [hA] at h; cases h
  | out_of_fuel => rw [hA] at h; cases h
  | ill_formed => rw [hA] at h; cases h

/-- For `0 < a, b < 2 ^ 63`, the magnitude `MagnitudeFromRatio<a / b>`, when it is built,
stands for the number `a / b`, and none of its factors has the value `0`. -/
theorem magnitude_value_MagnitudeFromRatio (irrational_value : Symbol → ℚ) (a b : Int)
    (ha : 0 < a) (ha' : a < 2 ^ 63) (hb : 0 < b) (hb' : b < 2 ^ 63) (R : magnitude_raw)
    (h : MagnitudeFromRatio a b = Outcome.ok R) :
    magnitude_value irrational_value R = (a : ℚ) / b ∧
    ∀ p ∈ R, factor_value irrational_value p.Base ≠ 0 := by
  obtain ⟨A, B, hA, hB, rfl⟩ := MagnitudeFromRatio_ok a b R h
  obtain ⟨hvA, hzA⟩ := magnitude_value_MagnitudeFromInt irrational_value a.toNat (by omega)
    (by omega) A hA
  obtain ⟨hvB, hzB⟩ := magnitude_value_MagnitudeFromInt irrational_value b.toNat (by omega)
    (by omega) B hB
  have hzB' := factor_value_inverse_ne_zero irrational_value B hzB
  refine ⟨?_, factor_value_multiply_ne_zero irrational_value A _ hzA hzB'⟩
  rw [magnitude_value_multiply irrational_value A _ hzA hzB', magnitude_value_inverse, hvA, hvB]
  have hca : ((a.toNat : Nat) : ℚ) = (a : ℚ) := by
    have : ((a.toNat : Nat) : Int) = a := Int.toNat_of_nonneg (by omega)
    exact_mod_cast this
  have hcb : ((b.toNat : Nat) : ℚ) = (b : ℚ) := by
    have : ((b.toNat : Nat) : Int) = b := Int.toNat_of_nonneg (by omega)
    exact_mod_cast this
  rw [hca, hcb, div_eq_mul_inv]

/-- The conversion factor between two units of the same dimension is the quotient of the
numbers that their magnitudes stand for. -/
theorem conversion_factor_eq (irrational_value : Symbol → ℚ) (From To : downcast_type unit_raw)
    (hd : From.downcast_base_type.Dimension = To.downcast_base_type.Dimension)
    (hF : ∀ p ∈ From.downcast_base_type.Magnitude, factor_value irrational_value p.Base ≠ 0)
    (hT : ∀ p ∈ To.downcast_base_type.Magnitude, factor_value irrational_value p.Base ≠ 0) :
    conversion_factor irrational_value From To
      = Outcome.ok (magnitude_value irrational_value From.downcast_base_type.Magnitude
          / magnitude_value irrational_value To.downcast_base_type.Magnitude) := by
  unfold conversion_factor quantity_base.in_
  rw [if_pos hd]
  simp only
  rw [ApplyMagnitudeAsFloat.apply_eq, mul_one,
    magnitude_value_multiply irrational_value _ _ hF
      (factor_value_inverse_ne_zero irrational_value _ hT),
    magnitude_value_inverse, div_eq_mul_inv]

/-- For every unit `U` none of whose factors has the value `0`, and for `0 < a, b < 2 ^ 63`
such that the magnitude of the ratio `a / b` is built, the conversion factor from `U` to
`ScaledUnit<U, MagnitudeFromRatio<a / b>>` is `b / a` and the one in the opposite direction
is `a / b`. -/
theorem conversion_factor_scaled (irrational_value : Symbol → ℚ) (Child : Symbol)
    (U : downcast_type unit_raw) (a b : Int)
    (ha : 0 < a) (ha' : a < 2 ^ 63) (hb : 0 < b) (hb' : b < 2 ^ 63) (R : magnitude_raw)
    (h : MagnitudeFromRatio a b = Outcome.ok R)
    (hU : ∀ p ∈ U.downcast_base_type.Magnitude, factor_value irrational_value p.Base ≠ 0) :
    conversion_factor irrational_value U (ScaledUnit Child U R) = Outcome.ok ((b : ℚ) / a) ∧
    conversion_factor irrational_value (ScaledUnit Child U R) U = Outcome.ok ((a : ℚ) / b) := by
  obtain ⟨hvR, hzR⟩ := magnitude_value_MagnitudeFromRatio irrational_value a b ha ha' hb hb' R h
  have hV : ∀ p ∈ (ScaledUnit Child U R).downcast_base_type.Magnitude,
      factor_value irrational_value p.Base ≠ 0 :=
    factor_value_multiply_ne_zero irrational_value _ R hU hzR
  have hmV : magnitude_value irrational_value (ScaledUnit Child U R).downcast_base_type.Magnitude
      = magnitude_value irrational_value U.downcast_base_type.Magnitude * ((a : ℚ) / b) := by
    rw [← hvR]
    exact magnitude_value_multiply irrational_value _ R hU hzR
  have hmU := magnitude_value_ne_zero irrational_value _ hU
  have ha0 : (a : ℚ) ≠ 0 := by exact_mod_cast (by omega : a ≠ 0)
  have hb0 : (b : ℚ) ≠ 0 := by exact_mod_cast (by omega : b ≠ 0)
  constructor
  · rw [conversion_factor_eq irrational_value U (ScaledUnit Child U R) rfl hU hV, hmV]
    congr 1
    field_simp
    ring
  · rw [conversion_factor_eq irrational_value (ScaledUnit Child U R) U rfl hV hU, hmV]
    congr 1
    field_simp
    ring

end units

namespace unit_definition

open meta units

/-- C25: the conversion factor from `U` to `ScaledUnit<U, MagnitudeFromRatio<a / b>>` is meant
to be `b / a` for all positive `a` and `b` below `2 ^ 63`.  For `a = 614889782588491410`, the
product of the first fifteen primes, and `b = 1` the magnitude of the ratio is not built, as
`prime_factorization` writes past the end of the array `factors`; so there is no scaled unit and
no conversion factor. -/
theorem conversion_factor_scaled_fails :
    (0 : Int) < 614889782588491410 ∧ (614889782588491410 : Int) < 2 ^ 63 ∧
    MagnitudeFromRatio 614889782588491410 1 = Outcome.out_of_bounds ∧
    ¬ ∃ R, MagnitudeFromRatio 614889782588491410 1 = Outcome.ok R ∧
      conversion_factor (fun _ => 0) metre (ScaledUnit ⟨"scaled"⟩ metre R)
        = Outcome.ok (1 / 614889782588491410) := by
  have h : MagnitudeFromRatio 614889782588491410 1 = Outcome.out_of_bounds := by
    have hp : prime_factorization 614889782588491410 = Outcome.out_of_bounds := by decide
    have hm : MagnitudeFromInt 614889782588491410 = Outcome.out_of_bounds := by
      unfold MagnitudeFromInt
      rw [if_pos (by decide), hp]
      rfl
    unfold MagnitudeFromRatio
    rw [if_pos (by decide)]
    have t : (614889782588491410 : Int).toNat = 614889782588491410 := by decide
    rw [t, hm]
    rfl
  refine ⟨by decide, by decide, h, ?_⟩
  rintro ⟨R, hR, _⟩
  rw [h] at hR
  cases hR

/-- The conversion factors of the test `Unit conversion`: from `metre` to `kilometre` it is
`1 / 1000`, and from `metre` to `millimetre` it is `1000`. -/
theorem conversion_factor_metre :
    (∃ km, kilometre = Outcome.ok km ∧
      conversion_factor (fun _ => 0) metre km = Outcome.ok (1 / 1000)) ∧
    (∃ mm, millimetre = Outcome.ok mm ∧
      conversion_factor (fun _ => 0) metre mm = Outcome.ok 1000) := by
  constructor
  · have hk := (conversion_factor_scaled (fun _ => 0) ⟨"kilometre"⟩ metre 1000 1 (by decide)
      (by decide) (by decide) (by decide) _ MagnitudeFromRatio_kilo
      (by intro p hp; cases hp)).1
    refine ⟨ScaledUnit ⟨"kilometre"⟩ metre
      [⟨Factor.int_factor (to_uint64 2), 3⟩, ⟨Factor.int_factor (to_uint64 5), 3⟩], ?_, ?_⟩
    · unfold kilometre
      rw [MagnitudeFromRatio_kilo]
      rfl
    · rw [hk]
      norm_num
  · have hm := (conversion_factor_scaled (fun _ => 0) ⟨"millimetre"⟩ metre 1 1000 (by decide)
      (by decide) (by decide) (by decide) _ MagnitudeFromRatio_milli
      (by intro p hp; cases hp)).1
    refine ⟨ScaledUnit ⟨"millimetre"⟩ metre
      [⟨Factor.int_factor (to_uint64 2), -3⟩, ⟨Factor.int_factor (to_uint64 5), -3⟩], ?_, ?_⟩
    · unfold millimetre
      rw [MagnitudeFromRatio_milli]
      rfl
    · rw [hm]
      norm_num

end unit_definition
/-! ## The claims on `PowerCombiner` and on rejected inputs -/

namespace units

open meta

/-- C26: for two terms of the same base with the exponents `e1` and `e2`, `PowerCombiner`
returns `notype` exactly when `e1 + e2 = 0`, and otherwise the term of that base with the
exponent `e1 + e2`; a term that it returns never has the exponent `0`. -/
theorem PowerCombiner_spec {T : Type} (Pow1 Pow2 : Power T) (h : Pow1.Base = Pow2.Base) :
    (PowerCombiner Pow1 Pow2 = none ↔ Pow1.exponent + Pow2.exponent = 0) ∧
    (Pow1.exponent + Pow2.exponent ≠ 0 →
      PowerCombiner Pow1 Pow2 = some ⟨Pow1.Base, Pow1.exponent + Pow2.exponent⟩ ∧
      PowerCombiner Pow1 Pow2 = some ⟨Pow2.Base, Pow1.exponent + Pow2.exponent⟩) ∧
    (∀ c, PowerCombiner Pow1 Pow2 = some c → c.exponent ≠ 0) := by
  unfold PowerCombiner
  simp only
  by_cases h0 : Pow1.exponent + Pow2.exponent = 0
  · rw [if_pos h0]
    refine ⟨⟨fun _ => h0, fun _ => rfl⟩, fun hne => absurd h0 hne, ?_⟩
    intro c hc
    cases hc
  · rw [if_neg h0]
    refine ⟨⟨fun hc => ?_, fun hz => absurd hz h0⟩, fun _ => ⟨rfl, by rw [h]⟩, ?_⟩
    · cases hc
    intro c hc
    cases hc
    exact h0

/-- The theorem of C26 on powers of `Length`: the exponents `1` and `-1` annihilate each other,
the exponents `1` and `2` give the exponent `3`. -/
theorem PowerCombiner_spec_witness :
    PowerCombiner (⟨⟨"Length"⟩, 1⟩ : Power Symbol) ⟨⟨"Length"⟩, -1⟩ = none ∧
    PowerCombiner (⟨⟨"Length"⟩, 1⟩ : Power Symbol) ⟨⟨"Length"⟩, 2⟩ = some ⟨⟨"Length"⟩, 3⟩ :=
  ⟨(PowerCombiner_spec (⟨⟨"Length"⟩, 1⟩ : Power Symbol) ⟨⟨"Length"⟩, -1⟩ rfl).1.mpr
      (by decide),
    ((PowerCombiner_spec (⟨⟨"Length"⟩, 1⟩ : Power Symbol) ⟨⟨"Length"⟩, 2⟩ rfl).2.1
      (by decide)).1⟩

/-- For `n = 0` the loop of `process_factor(2)` is not left, whatever the number of rounds:
`n` stays `0`, which is divisible by the factor. -/
theorem process_factor_loop_zero (factor : Nat) :
    ∀ (fuel : Nat) (exponent : Int), process_factor_loop fuel factor 0 exponent = none := by
  intro fuel
  induction fuel with
  | zero =>
    intro exponent
    rfl
  | succ fuel ih =>
    intro exponent
    unfold process_factor_loop
    simp only [Nat.zero_div, Nat.zero_mod, if_true]
    exact ih (exponent + 1)

theorem prime_factorization_fuel_zero (fuel : Nat) :
    prime_factorization_fuel fuel 0 = Outcome.out_of_fuel := by
  unfold prime_factorization_fuel
  simp only [Nat.zero_mod, if_true]
  unfold process_factor
  rw [process_factor_loop_zero]
  rfl

/-- C27, as stated: `prime_factorization(0)` is meant to report a failure.  The function has
no check of its argument; with `n = 0` it enters the loop of `process_factor(2)` and does not
leave it, so that it ends neither with a failure nor with a list of factors, whatever the
number of rounds it is given. -/
theorem prime_factorization_zero_not_rejected :
    prime_factorization 0 = Outcome.out_of_fuel ∧
    ¬ ∃ fuel, prime_factorization_fuel fuel 0 = Outcome.ill_formed ∨
      prime_factorization_fuel fuel 0 = Outcome.out_of_bounds := by
  refine ⟨prime_factorization_fuel_zero _, ?_⟩
  rintro ⟨fuel, h | h⟩ <;> rw [prime_factorization_fuel_zero] at h <;> cases h

/-- C27, amended: `prime_factorization` does not check its argument.  Called with `n = 0` it
does not return: the loop of `process_factor(2)` is not left within any number of rounds, so
that no list of factors is produced and no failure is reported by the function.  The input `0`
is rejected one level up: `MagnitudeFromInt<0>` fails its `static_assert(N > 0)`. -/
theorem prime_factorization_zero_never_returns (fuel : Nat) :
    process_factor_loop fuel 2 0 0 = none ∧
    prime_factorization_fuel fuel 0 = Outcome.out_of_fuel ∧
    (∀ r, prime_factorization_fuel fuel 0 ≠ Outcome.ok r) ∧
    MagnitudeFromInt 0 = Outcome.ill_formed := by
  refine ⟨process_factor_loop_zero 2 fuel 0, prime_factorization_fuel_zero fuel, ?_, rfl⟩
  intro r h
  rw [prime_factorization_fuel_zero] at h
  cases h

theorem MagnitudeFromInt_fails_or_ok (N : Nat) (hN : N < UINT64_SIZE) :
    MagnitudeFromInt N = Outcome.ill_formed ∨ MagnitudeFromInt N = Outcome.out_of_bounds ∨
      ∃ M, MagnitudeFromInt N = Outcome.ok M := by
  unfold MagnitudeFromInt
  by_cases h0 : N > 0
  · rw [if_pos h0]
    rcases prime_factorization_spec N h0 hN with h | ⟨r, h, _⟩
    · rw [h]
      exact Or.inr (Or.inl rfl)
    · rw [h]
      exact Or.inr (Or.inr ⟨_, rfl⟩)
  · rw [if_neg h0]
    exact Or.inl rfl

/-- C28: a magnitude cannot be built from `0`.  `MagnitudeFromInt<0>` fails its
`static_assert`, and for every ratio whose numerator or denominator is `0`,
`MagnitudeFromRatio` fails: no magnitude is produced. -/
theorem magnitude_of_zero_rejected (num den : Int) (h : num = 0 ∨ den = 0) :
    MagnitudeFromInt 0 = Outcome.ill_formed ∧
    (MagnitudeFromRatio num den = Outcome.ill_formed ∨
      MagnitudeFromRatio num den = Outcome.out_of_bounds) ∧
    ∀ M, MagnitudeFromRatio num den ≠ Outcome.ok M := by
  have key : MagnitudeFromRatio num den = Outcome.ill_formed ∨
      MagnitudeFromRatio num den = Outcome.out_of_bounds := by
    unfold MagnitudeFromRatio
    by_cases hr : 0 ≤ num ∧ num < UINT64_SIZE ∧ 0 ≤ den ∧ den < UINT64_SIZE
    · rw [if_pos hr]
      rcases h with h | h
      · subst h
        exact Or.inl rfl
      · subst h
        have hN : num.toNat < UINT64_SIZE := by
          have := hr.2.1
          omega
        rcases MagnitudeFromInt_fails_or_ok num.toNat hN with h1 | h1 | ⟨M, h1⟩
        · rw [h1]
          exact Or.inl rfl
        · rw [h1]
          exact Or.inr rfl
        · rw [h1]
          exact Or.inl rfl
    · rw [if_neg hr]
      exact Or.inl rfl
  refine ⟨rfl, key, ?_⟩
  intro M hM
  rcases key with k | k <;> rw [k] at hM <;> cases hM

/-- The theorem of C28 on the ratios `0 / 5` and `5 / 0`. -/
theorem magnitude_of_zero_rejected_witness :
    MagnitudeFromRatio 0 5 = Outcome.ill_formed ∧ MagnitudeFromRatio 5 0 = Outcome.ill_formed ∧
    (∀ M, MagnitudeFromRatio 0 5 ≠ Outcome.ok M) ∧ ∀ M, MagnitudeFromRatio 5 0 ≠ Outcome.ok M :=
  ⟨by decide, by decide, (magnitude_of_zero_rejected 0 5 (Or.inl rfl)).2.2,
    (magnitude_of_zero_rejected 5 0 (Or.inr rfl)).2.2⟩

/-- C29: a conversion between units of different dimensions is rejected.  For every quantity of
a unit `U1` and every unit `U2` whose member `Dimension` is not the one of `U1`, neither
`in<U2>()` nor `as<U2>()` is available, and no magnitude is evaluated. -/
theorem conversion_dimension_mismatch (irrational_value : Symbol → ℚ) (q : quantity)
    (Unit2 : downcast_type unit_raw)
    (h : q.unit.downcast_base_type.Dimension ≠ Unit2.downcast_base_type.Dimension) :
    quantity_base.in_ irrational_value q Unit2 = Outcome.ill_formed ∧
    quantity_base.as_ irrational_value q Unit2 = Outcome.ill_formed := by
  unfold quantity_base.as_ quantity_base.in_
  rw [if_neg h, if_neg h]
  exact ⟨rfl, rfl⟩

/-- C30: `prime_factorization(1)` returns the empty list, and `MagnitudeFromInt<1>` is the
empty magnitude `magnitude_raw<>`. -/
theorem prime_factorization_one :
    prime_factorization 1 = Outcome.ok ⟨[]⟩ ∧ MagnitudeFromInt 1 = Outcome.ok [] :=
  ⟨by decide, by decide⟩

end units

namespace unit_definition

open meta units

/-- The theorem of C29 on a length in metres and the unit `second`: the dimensions `Length` and
`Time` differ and the conversion is rejected. -/
theorem conversion_dimension_mismatch_witness :
    (⟨metre, 1 / 2⟩ : quantity).unit.downcast_base_type.Dimension
      ≠ second.downcast_base_type.Dimension ∧
    quantity_base.in_ (fun _ => 0) ⟨metre, 1 / 2⟩ second = Outcome.ill_formed ∧
    quantity_base.as_ (fun _ => 0) ⟨metre, 1 / 2⟩ second = Outcome.ill_formed :=
  ⟨by decide, conversion_dimension_mismatch (fun _ => 0) ⟨metre, 1 / 2⟩ second (by decide)⟩

end unit_definition

/-! ## The merge sort of `meta.hpp` -/

namespace meta

open units

section sorting

variable {α : Type} (Comp : α → α → ordering)

theorem is_less_or_equivalent_iff (ord : ordering) :
    is_less_or_equivalent ord = true ↔ ord ≠ ordering.greater := by
  cases ord <;> simp [is_less_or_equivalent, ordering.to_int]

theorem merge_impl_append (result list1 list2 : List α) :
    ∀ pre : List α, merge_impl Comp (pre ++ result) list1 list2
      = pre ++ merge_impl Comp result list1 list2 := by
  induction result, list1, list2 using merge_impl.induct Comp with
  | case1 result list2 =>
    intro pre
    simp [merge_impl, concat]
  | case2 result h1 t1 =>
    intro pre
    simp [merge_impl, concat]
  | case3 result h1 t1 h2 t2 c hc ih =>
    intro pre
    rw [merge_impl, merge_impl]
    simp only [c, hc, if_true]
    rw [List.append_assoc]
    exact ih pre
  | case4 result h1 t1 h2 t2 c hc ih =>
    intro pre
    rw [merge_impl, merge_impl]
    simp only [c, hc, Bool.false_eq_true, if_false]
    rw [List.append_assoc]
    exact ih pre

theorem merge_nil_left (list2 : List α) : merge [] list2 Comp = list2 := by
  simp [merge, merge_impl, concat]

theorem merge_nil_right (list1 : List α) : merge list1 [] Comp = list1 := by
  cases list1 <;> simp [merge, merge_impl, concat]

theorem merge_cons_le {h1 h2 : α} (t1 t2 : List α) (hc : Comp h1 h2 ≠ ordering.greater) :
    merge (h1 :: t1) (h2 :: t2) Comp = h1 :: merge t1 (h2 :: t2) Comp := by
  unfold merge
  rw [merge_impl]
  simp only [(is_less_or_equivalent_iff _).mpr hc, if_true]
  have h := merge_impl_append Comp [] t1 (h2 :: t2) [h1]
  simpa using h

theorem merge_cons_greater {h1 h2 : α} (t1 t2 : List α) (hc : Comp h1 h2 = ordering.greater) :
    merge (h1 :: t1) (h2 :: t2) Comp = h2 :: merge (h1 :: t1) t2 Comp := by
  unfold merge
  rw [merge_impl]
  have hf : is_less_or_equivalent (Comp h1 h2) = false := by
    rw [hc]
    rfl
  simp only [hf]
  have h := merge_impl_append Comp [] (h1 :: t1) t2 [h2]
  simpa using h

/-- Induction along the recursion of `merge`. -/
theorem merge_induction (motive : List α → List α → Prop)
    (nil_left : ∀ list2, motive [] list2)
    (nil_right : ∀ h1 t1, motive (h1 :: t1) [])
    (le : ∀ h1 t1 h2 t2, Comp h1 h2 ≠ ordering.greater →
      motive t1 (h2 :: t2) → motive (h1 :: t1) (h2 :: t2))
    (greater : ∀ h1 t1 h2 t2, Comp h1 h2 = ordering.greater →
      motive (h1 :: t1) t2 → motive (h1 :: t1) (h2 :: t2))
    (list1 list2 : List α) : motive list1 list2 :=
  merge_impl.induct Comp (fun _ a b => motive a b)
    (fun _ list2 => nil_left list2)
    (fun _ h1 t1 => nil_right h1 t1)
    (fun _ h1 t1 h2 t2 hc ih => le h1 t1 h2 t2 ((is_less_or_equivalent_iff _).mp hc) ih)
    (fun _ h1 t1 h2 t2 hc ih => greater h1 t1 h2 t2 (by
      by_contra hne
      exact hc ((is_less_or_equivalent_iff _).mpr hne)) ih)
    [] list1 list2

/-- The merged list is a permutation of the two lists together. -/
theorem merge_perm (list1 list2 : List α) :
    (merge list1 list2 Comp).Perm (list1 ++ list2) := by
  induction list1, list2 using merge_induction Comp with
  | nil_left list2 =>
    rw [merge_nil_left]
    exact List.Perm.refl _
  | nil_right h1 t1 =>
    rw [merge_nil_right, List.append_nil]
  | le h1 t1 h2 t2 hc ih =>
    rw [merge_cons_le Comp t1 t2 hc]
    exact List.Perm.cons h1 ih
  | greater h1 t1 h2 t2 hc ih =>
    rw [merge_cons_greater Comp t1 t2 hc]
    exact (List.Perm.cons h2 ih).trans List.perm_middle.symm

end sorting

end meta

namespace meta

open units

section sorted

variable {α : Type} {Comp : α → α → ordering}

theorem TotalPreorder.le_refl (hC : TotalPreorder Comp) (a : α) :
    Comp a a ≠ ordering.greater := by
  intro h
  have h' := (hC.greater_iff a a).mp h
  rw [h] at h'
  cases h'

theorem TotalPreorder.le_of_greater (hC : TotalPreorder Comp) {a b : α}
    (h : Comp a b = ordering.greater) : Comp b a ≠ ordering.greater := by
  rw [(hC.greater_iff a b).mp h]
  decide

theorem TotalPreorder.le_of_equivalent (hC : TotalPreorder Comp) {a b : α}
    (h : Comp a b = ordering.equivalent) : Comp b a ≠ ordering.greater := by
  intro hg
  have h' := (hC.greater_iff b a).mp hg
  rw [h] at h'
  cases h'

/-- Merging two sorted lists gives a sorted list. -/
theorem merge_sorted (hC : TotalPreorder Comp) (list1 list2 : List α) :
    list1.Pairwise (fun a b => Comp a b ≠ ordering.greater) →
    list2.Pairwise (fun a b => Comp a b ≠ ordering.greater) →
    (merge list1 list2 Comp).Pairwise (fun a b => Comp a b ≠ ordering.greater) := by
  induction list1, list2 using merge_induction Comp with
  | nil_left list2 =>
    intro _ h2
    rw [merge_nil_left]
    exact h2
  | nil_right h1 t1 =>
    intro h1 _
    rw [merge_nil_right]
    exact h1
  | le h1 t1 h2 t2 hc ih =>
    intro hs1 hs2
    rw [merge_cons_le Comp t1 t2 hc, List.pairwise_cons]
    rw [List.pairwise_cons] at hs1
    refine ⟨?_, ih hs1.2 hs2⟩
    intro b hb
    rw [(merge_perm Comp t1 (h2 :: t2)).mem_iff, List.mem_append] at hb
    rcases hb with hb | hb
    · exact hs1.1 b hb
    · rw [List.mem_cons] at hb
      rcases hb with rfl | hb
      · exact hc
      · exact hC.le_trans h1 h2 b hc ((List.pairwise_cons.mp hs2).1 b hb)
  | greater h1 t1 h2 t2 hc ih =>
    intro hs1 hs2
    rw [merge_cons_greater Comp t1 t2 hc, List.pairwise_cons]
    rw [List.pairwise_cons] at hs2
    refine ⟨?_, ih hs1 hs2.2⟩
    intro b hb
    rw [(merge_perm Comp (h1 :: t1) t2).mem_iff, List.mem_append] at hb
    have h21 := hC.le_of_greater hc
    rcases hb with hb | hb
    · rw [List.mem_cons] at hb
      rcases hb with rfl | hb
      · exact h21
      · exact hC.le_trans h2 h1 b h21 ((List.pairwise_cons.mp hs1).1 b hb)
    · exact hs2.1 b hb

/-- Merging keeps the elements that are equivalent to `x` in their order: those of the first
list, which is sorted, come before those of the second list. -/
theorem merge_filter (hC : TotalPreorder Comp) (x : α) (list1 list2 : List α) :
    list1.Pairwise (fun a b => Comp a b ≠ ordering.greater) →
    (merge list1 list2 Comp).filter (fun y => decide (Comp x y = ordering.equivalent))
      = list1.filter (fun y => decide (Comp x y = ordering.equivalent))
        ++ list2.filter (fun y => decide (Comp x y = ordering.equivalent)) := by
  induction list1, list2 using merge_induction Comp with
  | nil_left list2 =>
    intro _
    rw [merge_nil_left]
    rfl
  | nil_right h1 t1 =>
    intro _
    rw [merge_nil_right, List.filter_nil, List.append_nil]
  | le h1 t1 h2 t2 hc ih =>
    intro hs1
    rw [merge_cons_le Comp t1 t2 hc, List.filter_cons, List.filter_cons,
      ih (List.pairwise_cons.mp hs1).2]
    split_ifs <;> simp
  | greater h1 t1 h2 t2 hc ih =>
    intro hs1
    rw [merge_cons_greater Comp t1 t2 hc, List.filter_cons, ih hs1]
    by_cases hx : Comp x h2 = ordering.equivalent
    · have hnil : (h1 :: t1).filter (fun y => decide (Comp x y = ordering.equivalent)) = [] := by
        rw [List.filter_eq_nil_iff]
        intro a ha hxa
        have hxa' : Comp x a = ordering.equivalent := by simpa using hxa
        have hax : Comp a x ≠ ordering.greater := hC.le_of_equivalent hxa'
        have hxh : Comp x h2 ≠ ordering.greater := by
          rw [hx]
          decide
        have hah : Comp a h2 ≠ ordering.greater := hC.le_trans a x h2 hax hxh
        have h1a : Comp h1 a ≠ ordering.greater := by
          rw [List.mem_cons] at ha
          rcases ha with rfl | ha
          · exact hC.le_refl _
          · exact (List.pairwise_cons.mp hs1).1 a ha
        exact hC.le_trans h1 a h2 h1a hah hc
      rw [hnil, List.filter_cons]
      simp [hx]
    · rw [List.filter_cons]
      simp [hx]

end sorted

end meta

namespace meta

open units

section sort

variable {α : Type}

theorem split_impl_eq : ∀ (idx : Nat) (left right : List α), idx ≤ right.length →
    split_impl idx left right = Outcome.ok (left ++ right.take idx, right.drop idx) := by
  intro idx
  induction idx with
  | zero =>
    intro left right _
    simp [split_impl]
  | succ idx ih =>
    intro left right h
    cases right with
    | nil => simp at h
    | cons head tail =>
      rw [split_impl, ih _ _ (by simpa using h)]
      simp

/-- Splitting a list at an index within its length gives the first `idx` elements and the
rest. -/
theorem split_eq (idx : Nat) (list : List α) (h : idx ≤ list.length) :
    split idx list = Outcome.ok (list.take idx, list.drop idx) := by
  unfold split
  rw [split_impl_eq idx [] list h]
  rfl

theorem sort_short (list : List α) (Comp : α → α → ordering) (h : list.length < 2) :
    sort list Comp = Outcome.ok list := by
  rw [sort, if_pos h]

theorem sort_long (list : List α) (Comp : α → α → ordering) (h : ¬ list.length < 2) :
    sort list Comp
      = (sort (list.take (list.length / 2)) Comp).bind fun sorted_left =>
          (sort (list.drop (list.length / 2)) Comp).bind fun sorted_right =>
            Outcome.ok (merge sorted_left sorted_right Comp) := by
  rw [sort, if_neg h]
  simp only
  have hs := split_eq (list.length / 2) list (Nat.div_le_self _ _)
  split
  · rename_i left right heq
    rw [hs] at heq
    simp only [Outcome.ok.injEq, Prod.mk.injEq] at heq
    obtain ⟨rfl, rfl⟩ := heq
    rfl
  · rename_i heq
    rw [hs] at heq
    cases heq
  · rename_i heq
    rw [hs] at heq
    cases heq
  · rename_i heq
    rw [hs] at heq
    cases heq

/-- The function `sort` returns a list; the list is a permutation of the argument, it is
sorted, and the elements that are equivalent to any `x` are in it in the order in which they
are in the argument. -/
theorem sort_spec {Comp : α → α → ordering} (hC : TotalPreorder Comp) :
    ∀ (n : Nat) (list : List α), list.length ≤ n →
      ∃ result, sort list Comp = Outcome.ok result ∧ result.Perm list ∧
        result.Pairwise (fun a b => Comp a b ≠ ordering.greater) ∧
        ∀ x, result.filter (fun y => decide (Comp x y = ordering.equivalent))
          = list.filter (fun y => decide (Comp x y = ordering.equivalent)) := by
  intro n
  induction n with
  | zero =>
    intro list hlen
    have hnil : list = [] := List.length_eq_zero.mp (by omega)
    subst hnil
    exact ⟨[], sort_short [] Comp (by simp), List.Perm.refl _, List.Pairwise.nil,
      fun _ => rfl⟩
  | succ n ih =>
    intro list hlen
    by_cases h : list.length < 2
    · refine ⟨list, sort_short list Comp h, List.Perm.refl _, ?_, fun _ => rfl⟩
      match list, h with
      | [], _ => exact List.Pairwise.nil
      | [a], _ => exact List.pairwise_singleton _ a
      | _ :: _ :: _, h =>
        simp only [List.length_cons] at h
        omega
    · have hl : (list.take (list.length / 2)).length ≤ n := by
        rw [List.length_take]
        omega
      have hr : (list.drop (list.length / 2)).length ≤ n := by
        rw [List.length_drop]
        omega
      obtain ⟨sl, hsl, hpl, hsortl, hfl⟩ := ih _ hl
      obtain ⟨sr, hsr, hpr, hsortr, hfr⟩ := ih _ hr
      refine ⟨merge sl sr Comp, ?_, ?_, merge_sorted hC sl sr hsortl hsortr, ?_⟩
      · rw [sort_long list Comp h, hsl, hsr]
        rfl
      · have hp := (merge_perm Comp sl sr).trans (List.Perm.append hpl hpr)
        rw [List.take_append_drop] at hp
        exact hp
      · intro x
        rw [merge_filter hC x sl sr hsortl, hfl x, hfr x, ← List.filter_append,
          List.take_append_drop]

end sort

end meta

/-! ## The products `factor * factor` of the loop conditions -/

namespace units

theorem main_loop_overflows_step {budget originalN fuel n factor incr n' factor' incr' : Nat}
    {result result' : prime_factorization_result_t} (hn : n > 1)
    (hc : (factor * factor) % UINT64_SIZE < originalN)
    (hp : process_factor budget factor n result = Outcome.ok (n', result'))
    (ha : advance_to_next_prime budget originalN n' factor incr = some (factor', incr'))
    (hrest : main_loop_overflows budget originalN fuel n' factor' incr' result') :
    main_loop_overflows budget originalN (fuel + 1) n factor incr result := by
  unfold main_loop_overflows
  refine ⟨hn, Or.inr ⟨hc, ?_⟩⟩
  rw [hp]
  simp only
  rw [ha]
  exact Or.inr hrest

theorem main_loop_overflows_advance {budget originalN fuel n factor incr n' : Nat}
    {result result' : prime_factorization_result_t} (hn : n > 1)
    (hc : (factor * factor) % UINT64_SIZE < originalN)
    (hp : process_factor budget factor n result = Outcome.ok (n', result'))
    (hov : advance_to_next_prime_overflows budget originalN n' factor incr) :
    main_loop_overflows budget originalN (fuel + 1) n factor incr result := by
  unfold main_loop_overflows
  refine ⟨hn, Or.inr ⟨hc, ?_⟩⟩
  rw [hp]
  exact Or.inl hov

/-- When `n` has been reduced to `1` and `originalN` is above `(2 ^ 32 - 3) ^ 2`, the loop of
`advance_to_next_prime` runs through the numbers of the wheel up to `2 ^ 32 + 1`, whose square
is not below `2 ^ 64`: none of them divides `1`, and the squares of those up to `2 ^ 32 - 3` are
below `originalN`. -/
theorem advance_to_next_prime_overflows_of_large (originalN : Nat)
    (hN : (2 ^ 32 - 3) * (2 ^ 32 - 3) < originalN) :
    ∀ fuel factor incr : Nat, wheel factor incr → 1 ≤ factor → factor ≤ 2 ^ 32 - 3 →
      2 ^ 32 + 1 ≤ fuel + factor →
      advance_to_next_prime_overflows fuel originalN 1 factor incr := by
  intro fuel
  induction fuel with
  | zero =>
    intro factor incr _ _ hle hfuel
    omega
  | succ fuel ih =>
    intro factor incr hw h1 hle hfuel
    unfold advance_to_next_prime_overflows
    simp only
    have hincr : incr = 4 ∨ incr = 2 := by
      rcases hw with ⟨_, rfl⟩ | ⟨_, rfl⟩
      · exact Or.inl rfl
      · exact Or.inr rfl
    have hsum : factor + incr < UINT64_SIZE := by
      rw [UINT64_SIZE_eq]
      omega
    rw [Nat.mod_eq_of_lt hsum]
    have hw' : wheel (factor + incr) (incr ^^^ 6) := by
      rcases hw with ⟨hm, rfl⟩ | ⟨hm, rfl⟩
      · exact Or.inr ⟨by omega, by decide⟩
      · exact Or.inl ⟨by omega, by decide⟩
    have hmod : 1 % (factor + incr) ≠ 0 := by
      rw [Nat.mod_eq_of_lt (by omega)]
      decide
    refine ⟨hmod, ?_⟩
    by_cases hbig : factor + incr ≤ 2 ^ 32 - 3
    · right
      have hsq : (factor + incr) * (factor + incr) ≤ (2 ^ 32 - 3) * (2 ^ 32 - 3) :=
        Nat.mul_le_mul hbig hbig
      have hlt : (factor + incr) * (factor + incr) < UINT64_SIZE := by
        rw [UINT64_SIZE_eq]
        omega
      rw [Nat.mod_eq_of_lt hlt]
      exact ⟨by omega, ih (factor + incr) (incr ^^^ 6) hw' (by omega) hbig (by omega)⟩
    · left
      have heq : factor + incr = 2 ^ 32 + 1 := by
        rcases hw with ⟨hm, rfl⟩ | ⟨hm, rfl⟩ <;> omega
      rw [heq, UINT64_SIZE_eq]
      decide

end units

namespace units

/-- C36: every product `factor * factor` that a loop condition of `prime_factorization`
evaluates is meant to be below `2 ^ 64`.  For `n = 18446744056529682432 = 2 ^ 64 - 2 ^ 34
= 2 ^ 34 * 3 ^ 2 * 7 * 11 * 31 * 151 * 331` the remainder is `1` once `331` is divided out, and
`advance_to_next_prime` then runs on, as no `factor` divides `1` and `factor * factor` stays
below `originalN`, until `factor = 2 ^ 32 + 1`: its square `2 ^ 64 + 2 ^ 33 + 1` is not below
`2 ^ 64`, and the 64-bit comparison `2 ^ 33 + 1 < originalN` holds, whereas the comparison of
the integers does not. -/
theorem prime_factorization_product_overflows :
    0 < 18446744056529682432 ∧ 18446744056529682432 < UINT64_SIZE ∧
    prime_factorization_overflows 18446744056529682432 ∧
    ((2 ^ 32 + 1) * (2 ^ 32 + 1)) % UINT64_SIZE < 18446744056529682432 ∧
    ¬ ((2 ^ 32 + 1) * (2 ^ 32 + 1) < 18446744056529682432) := by
  refine ⟨by decide, by decide, ?_, by decide, by decide⟩
  unfold prime_factorization_overflows prime_factorization_fuel_overflows
  simp only
  have h2 : process_factor UINT64_SIZE 2 18446744056529682432 ⟨[]⟩
      = Outcome.ok (1073741823, ⟨[⟨2, 34⟩]⟩) := by decide
  have h3 : process_factor UINT64_SIZE 3 1073741823 ⟨[⟨2, 34⟩]⟩
      = Outcome.ok (119304647, ⟨[⟨2, 34⟩, ⟨3, 2⟩]⟩) := by decide
  have a0 : advance_to_next_prime UINT64_SIZE 18446744056529682432 119304647 1 4
      = some (7, 4) := by decide
  have p7 : process_factor UINT64_SIZE 7 119304647 ⟨[⟨2, 34⟩, ⟨3, 2⟩]⟩
      = Outcome.ok (17043521, ⟨[⟨2, 34⟩, ⟨3, 2⟩, ⟨7, 1⟩]⟩) := by decide
  have a7 : advance_to_next_prime UINT64_SIZE 18446744056529682432 17043521 7 4
      = some (11, 2) := by decide
  have p11 : process_factor UINT64_SIZE 11 17043521 ⟨[⟨2, 34⟩, ⟨3, 2⟩, ⟨7, 1⟩]⟩
      = Outcome.ok (1549411, ⟨[⟨2, 34⟩, ⟨3, 2⟩, ⟨7, 1⟩, ⟨11, 1⟩]⟩) := by decide
  have a11 : advance_to_next_prime UINT64_SIZE 18446744056529682432 1549411 11 2
      = some (31, 4) := by decide
  have p31 : process_factor UINT64_SIZE 31 1549411 ⟨[⟨2, 34⟩, ⟨3, 2⟩, ⟨7, 1⟩, ⟨11, 1⟩]⟩
      = Outcome.ok (49981, ⟨[⟨2, 34⟩, ⟨3, 2⟩, ⟨7, 1⟩, ⟨11, 1⟩, ⟨31, 1⟩]⟩) := by decide
  have a31 : advance_to_next_prime UINT64_SIZE 18446744056529682432 49981 31 4
      = some (151, 4) := by decide
  have p151 : process_factor UINT64_SIZE 151 49981
      ⟨[⟨2, 34⟩, ⟨3, 2⟩, ⟨7, 1⟩, ⟨11, 1⟩, ⟨31, 1⟩]⟩
      = Outcome.ok (331, ⟨[⟨2, 34⟩, ⟨3, 2⟩, ⟨7, 1⟩, ⟨11, 1⟩, ⟨31, 1⟩, ⟨151, 1⟩]⟩) := by
    decide
  have a151 : advance_to_next_prime UINT64_SIZE 18446744056529682432 331 151 4
      = some (331, 4) := by decide
  have p331 : process_factor UINT64_SIZE 331 331
      ⟨[⟨2, 34⟩, ⟨3, 2⟩, ⟨7, 1⟩, ⟨11, 1⟩, ⟨31, 1⟩, ⟨151, 1⟩]⟩
      = Outcome.ok (1,
          ⟨[⟨2, 34⟩, ⟨3, 2⟩, ⟨7, 1⟩, ⟨11, 1⟩, ⟨31, 1⟩, ⟨151, 1⟩, ⟨331, 1⟩]⟩) := by
    decide
  have hlast : advance_to_next_prime_overflows UINT64_SIZE 18446744056529682432 1 331 4 :=
    advance_to_next_prime_overflows_of_large 18446744056529682432 (by decide)
      UINT64_SIZE 331 4 (Or.inl ⟨by decide, rfl⟩) (by decide) (by decide) (by decide)
  rw [if_pos (by decide), h2]
  simp only
  rw [if_pos (by decide), h3]
  simp only
  rw [a0]
  refine Or.inr ?_
  show main_loop_overflows UINT64_SIZE 18446744056529682432 (18446744073709551615 + 1)
    119304647 7 4 _
  refine main_loop_overflows_step (by decide) (by decide) p7 a7 ?_
  show main_loop_overflows UINT64_SIZE 18446744056529682432 (18446744073709551614 + 1)
    17043521 11 2 _
  refine main_loop_overflows_step (by decide) (by decide) p11 a11 ?_
  show main_loop_overflows UINT64_SIZE 18446744056529682432 (18446744073709551613 + 1)
    1549411 31 4 _
  refine main_loop_overflows_step (by decide) (by decide) p31 a31 ?_
  show main_loop_overflows UINT64_SIZE 18446744056529682432 (18446744073709551612 + 1)
    49981 151 4 _
  refine main_loop_overflows_step (by decide) (by decide) p151 a151 ?_
  show main_loop_overflows UINT64_SIZE 18446744056529682432 (18446744073709551611 + 1)
    331 331 4 _
  exact main_loop_overflows_advance (by decide) (by decide) p331 hlast

end units

/-! ## The claims on `MagnitudeComparator` -/

namespace units

open meta

/-- For factors below `2 ^ 63`, where the member `value` of `int_factor<N>` is `N`,
`MagnitudeComparator` compares integer factors as numbers. -/
theorem MagnitudeComparator_int_factor (a b : Nat) (ha : a < 2 ^ 63) (hb : b < 2 ^ 63)
    (e1 e2 : Int) :
    (MagnitudeComparator ⟨Factor.int_factor (to_uint64 a), e1⟩
        ⟨Factor.int_factor (to_uint64 b), e2⟩ = ordering.less ↔ a < b) ∧
    (MagnitudeComparator ⟨Factor.int_factor (to_uint64 a), e1⟩
        ⟨Factor.int_factor (to_uint64 b), e2⟩ = ordering.equivalent ↔ a = b) ∧
    (MagnitudeComparator ⟨Factor.int_factor (to_uint64 a), e1⟩
        ⟨Factor.int_factor (to_uint64 b), e2⟩ = ordering.greater ↔ a > b) := by
  simp only [MagnitudeComparator, int_factor_value_to_uint64 a ha,
    int_factor_value_to_uint64 b hb]
  split_ifs with h1 h2 <;> refine ⟨⟨?_, ?_⟩, ⟨?_, ?_⟩, ⟨?_, ?_⟩⟩ <;> intro h <;>
    first
      | rfl
      | omega
      | cases h

/-- An integer factor compares `less` than any other factor. -/
theorem MagnitudeComparator_int_factor_other (N : Fin UINT64_SIZE) (T : Symbol) (e1 e2 : Int) :
    MagnitudeComparator ⟨Factor.int_factor N, e1⟩ ⟨Factor.other T, e2⟩ = ordering.less ∧
    MagnitudeComparator ⟨Factor.other T, e1⟩ ⟨Factor.int_factor N, e2⟩ = ordering.greater :=
  ⟨rfl, rfl⟩

/-- C31: `MagnitudeComparator` is meant to compare `int_factor<a>` and `int_factor<b>` as the
numbers `a` and `b`.  The member `value` of `int_factor<N>` is an `int64_t`: for
`a = 9223372036854775808 = 2 ^ 63` it is `-9223372036854775808`, and `int_factor<a>` compares
`less` than `int_factor<2>` although `a > 2`. -/
theorem MagnitudeComparator_int_factor_not_numeric :
    9223372036854775808 < UINT64_SIZE ∧
    int_factor_value (to_uint64 9223372036854775808) = -9223372036854775808 ∧
    MagnitudeComparator ⟨Factor.int_factor (to_uint64 9223372036854775808), 1⟩
      ⟨Factor.int_factor (to_uint64 2), 1⟩ = ordering.less ∧
    ¬ (9223372036854775808 < 2) := by
  refine ⟨by decide, by decide, by decide, by decide⟩

/-- The factors that `prime_factorization` returns, except the last one, are below `2 ^ 63`:
two of them multiply to at most `n`. -/
theorem factors_pairwise_bound :
    ∀ factors : List factor_exponent,
      factors.Pairwise (fun a b => a.factor < b.factor) →
      (∀ fe ∈ factors, 2 ≤ fe.factor ∧ 1 ≤ fe.exponent) →
      factors_product ⟨factors⟩ < UINT64_SIZE →
      factors.Pairwise (fun a b => a.factor < b.factor ∧ b.factor < 2 ^ 63) := by
  intro factors
  induction factors with
  | nil =>
    intro _ _ _
    exact List.Pairwise.nil
  | cons x t ih =>
    intro hs hfe hprod
    rw [List.pairwise_cons] at hs ⊢
    have hp : factors_product ⟨x :: t⟩ = x.factor ^ x.exponent.toNat * factors_product ⟨t⟩ := by
      simp [factors_product]
    have hx := hfe x (List.mem_cons_self _ _)
    have hxpow : x.factor ≤ x.factor ^ x.exponent.toNat :=
      Nat.le_self_pow (by omega) _
    have htpos : 0 < factors_product ⟨t⟩ := by
      unfold factors_product
      apply List.prod_pos
      intro a ha
      rw [List.mem_map] at ha
      obtain ⟨fe, hmem, rfl⟩ := ha
      have := (hfe fe (List.mem_cons_of_mem _ hmem)).1
      exact Nat.pos_pow_of_pos _ (by omega)
    rw [hp] at hprod
    refine ⟨?_, ih hs.2 (fun fe hmem => hfe fe (List.mem_cons_of_mem _ hmem)) ?_⟩
    · intro b hb
      refine ⟨hs.1 b hb, ?_⟩
      have hbfe := hfe b (List.mem_cons_of_mem _ hb)
      have hbdvd : b.factor ^ b.exponent.toNat ∣ factors_product ⟨t⟩ := by
        unfold factors_product
        apply List.dvd_prod
        rw [List.mem_map]
        exact ⟨b, hb, rfl⟩
      have hble : b.factor ≤ factors_product ⟨t⟩ :=
        (Nat.le_self_pow (by omega) _).trans (Nat.le_of_dvd htpos hbdvd)
      have h2 : 2 * b.factor ≤ x.factor ^ x.exponent.toNat * factors_product ⟨t⟩ :=
        Nat.mul_le_mul (by omega) hble
      rw [UINT64_SIZE_eq] at hprod
      omega
    · have h1 : 1 ≤ x.factor ^ x.exponent.toNat := by omega
      calc factors_product ⟨t⟩ = 1 * factors_product ⟨t⟩ := (Nat.one_mul _).symm
        _ ≤ x.factor ^ x.exponent.toNat * factors_product ⟨t⟩ := Nat.mul_le_mul h1 (le_refl _)
        _ < UINT64_SIZE := hprod

/-- Whenever `MagnitudeFromInt<N>` is built, for `0 < N < 2 ^ 64`, its terms are strictly
increasing under `MagnitudeComparator` in the order in which `prime_factorization` emits them,
and none has the exponent `0`. -/
theorem MagnitudeFromInt_canonical (N : Nat) (h0 : 0 < N) (hN : N < UINT64_SIZE)
    (M : magnitude_raw) (h : MagnitudeFromInt N = Outcome.ok M) :
    canonical MagnitudeComparator M := by
  unfold MagnitudeFromInt at h
  rw [if_pos h0] at h
  have hspec := prime_factorization_fuel_spec N h0 hN UINT64_SIZE (le_refl _)
  unfold prime_factorization at h
  cases hrun : prime_factorization_fuel UINT64_SIZE N with
  | ok r =>
    rw [hrun] at h hspec
    simp only [Outcome.bind, Outcome.ok.injEq] at h
    subst h
    obtain ⟨hprod, hs, hfe⟩ := hspec
    have hb := factors_pairwise_bound r.factors hs hfe (by
      rw [show (⟨r.factors⟩ : prime_factorization_result_t) = r from rfl, hprod]
      exact hN)
    constructor
    · rw [strictly_increasing_iff_pairwise MagnitudeComparator_strict_total_order]
      unfold extract_factors
      rw [List.pairwise_map]
      refine List.Pairwise.imp ?_ hb
      intro a b hab
      exact ((MagnitudeComparator_int_factor a.factor b.factor (by omega) hab.2 _ _).1).mpr
        hab.1
    · intro p hp
      unfold extract_factors at hp
      rw [List.mem_map] at hp
      obtain ⟨fe, hmem, rfl⟩ := hp
      have := (hfe fe hmem).2
      show fe.exponent ≠ 0
      omega
  | out_of_bounds => rw [hrun] at h; cases h
  | out_of_fuel => rw [hrun] at h; cases h
  | ill_formed => rw [hrun] at h; cases h

/-- C32: the terms of `MagnitudeFromInt<N>` are meant to be strictly increasing under
`MagnitudeComparator` for every 64-bit `N > 0`.  For `N = 614889782588491410`, the product of
the first fifteen primes, there is no list of terms: `prime_factorization` writes past the end
of the array `factors`. -/
theorem magnitude_from_int_sorted_fails :
    0 < 614889782588491410 ∧ 614889782588491410 < UINT64_SIZE ∧
    MagnitudeFromInt 614889782588491410 = Outcome.out_of_bounds ∧
    ¬ ∃ M, MagnitudeFromInt 614889782588491410 = Outcome.ok M ∧
      strictly_increasing MagnitudeComparator M := by
  have h : MagnitudeFromInt 614889782588491410 = Outcome.out_of_bounds := by
    have hp : prime_factorization 614889782588491410 = Outcome.out_of_bounds := by decide
    unfold MagnitudeFromInt
    rw [if_pos (by decide), hp]
    rfl
  refine ⟨by decide, by decide, h, ?_⟩
  rintro ⟨M, hM, _⟩
  rw [h] at hM
  cases hM

/-- C38: `MagnitudeComparator` is a consistent strict total order on factors.  For all terms
`x` and `y`, the comparison of `x` with `y` is `less` exactly when the comparison of `y` with
`x` is `greater`, it is `equivalent` exactly when `x` and `y` have the same factor, and `less`
is transitive; the exponents of the terms play no part. -/
theorem MagnitudeComparator_consistent (x y z : Power Factor) :
    (MagnitudeComparator x y = ordering.less ↔ MagnitudeComparator y x = ordering.greater) ∧
    (MagnitudeComparator x y = ordering.equivalent ↔ x.Base = y.Base) ∧
    (MagnitudeComparator x y = ordering.less → MagnitudeComparator y z = ordering.less →
      MagnitudeComparator x z = ordering.less) ∧
    (∀ e1 e2 : Int, MagnitudeComparator ⟨x.Base, e1⟩ ⟨y.Base, e2⟩ = MagnitudeComparator x y) :=
  ⟨(MagnitudeComparator_strict_total_order.greater_iff y x).symm,
    MagnitudeComparator_strict_total_order.equivalent_iff x y,
    MagnitudeComparator_strict_total_order.less_trans x y z,
    fun _ _ => MagnitudeComparator_strict_total_order.base_only _ _ x y rfl rfl⟩

/-- The theorem of C38 on the factors `2`, `5` and `pi`. -/
theorem MagnitudeComparator_consistent_witness :
    MagnitudeComparator ⟨Factor.int_factor (to_uint64 2), 1⟩
      ⟨Factor.int_factor (to_uint64 5), 1⟩ = ordering.less ∧
    MagnitudeComparator ⟨Factor.int_factor (to_uint64 5), 1⟩
      ⟨Factor.other ⟨"pi"⟩, 1⟩ = ordering.less ∧
    MagnitudeComparator ⟨Factor.int_factor (to_uint64 2), 1⟩
      ⟨Factor.other ⟨"pi"⟩, 1⟩ = ordering.less ∧
    MagnitudeComparator ⟨Factor.int_factor (to_uint64 5), 1⟩
      ⟨Factor.int_factor (to_uint64 2), 1⟩ = ordering.greater :=
  ⟨by decide, by decide,
    (MagnitudeComparator_consistent ⟨Factor.int_factor (to_uint64 2), 1⟩
      ⟨Factor.int_factor (to_uint64 5), 1⟩ ⟨Factor.other ⟨"pi"⟩, 1⟩).2.2.1
      (by decide) (by decide),
    (MagnitudeComparator_consistent ⟨Factor.int_factor (to_uint64 2), 1⟩
      ⟨Factor.int_factor (to_uint64 5), 1⟩ ⟨Factor.other ⟨"pi"⟩, 1⟩).1.mp (by decide)⟩

end units

/-! ## The claims on `sort`, `int_pow` and the division of quantities -/

namespace units

open meta

/-- A comparator of powers that is a strict total order on the bases is a total preorder. -/
theorem StrictTotalOrder.total_preorder {T : Type} {Comp : Power T → Power T → ordering}
    (L : StrictTotalOrder Comp) : TotalPreorder Comp where
  greater_iff := L.greater_iff
  le_trans := by
    intro a b c hab hbc hac
    have hca : Comp c a = ordering.less := (L.greater_iff a c).mp hac
    cases h1 : Comp a b with
    | greater => exact hab h1
    | less =>
      cases h2 : Comp b c with
      | greater => exact hbc h2
      | less =>
        have h := L.less_trans a b c h1 h2
        rw [h] at hac
        cases hac
      | equivalent =>
        have hb : b.Base = c.Base := (L.equivalent_iff b c).mp h2
        have h := L.base_only a b a c rfl hb
        rw [h1, hac] at h
        cases h
    | equivalent =>
      have ha : a.Base = b.Base := (L.equivalent_iff a b).mp h1
      have h := L.base_only a c b c ha rfl
      rw [hac] at h
      exact hbc h.symm

end units

namespace meta

open units

/-- C33: for every list and every comparator that is a total preorder, `sort` returns a list
that is a permutation of its argument and is sorted: no element is `greater` than an element
after it. -/
theorem sort_perm_sorted {α : Type} (Comp : α → α → ordering) (hC : TotalPreorder Comp)
    (list : List α) :
    ∃ result, sort list Comp = Outcome.ok result ∧ result.Perm list ∧
      result.Pairwise (fun a b => Comp a b ≠ ordering.greater) := by
  obtain ⟨result, hr, hp, hs, _⟩ := sort_spec hC list.length list (le_refl _)
  exact ⟨result, hr, hp, hs⟩

/-- C34: `sort` is stable.  For every list and every comparator that is a total preorder, the
elements that the comparator reports as equivalent to any given `x` are in the list that `sort`
returns in the same order as in its argument. -/
theorem sort_stable {α : Type} (Comp : α → α → ordering) (hC : TotalPreorder Comp)
    (list : List α) :
    ∃ result, sort list Comp = Outcome.ok result ∧
      ∀ x, result.filter (fun y => decide (Comp x y = ordering.equivalent))
        = list.filter (fun y => decide (Comp x y = ordering.equivalent)) := by
  obtain ⟨result, hr, _, _, hf⟩ := sort_spec hC list.length list (le_refl _)
  exact ⟨result, hr, hf⟩

end meta

namespace units

open meta

/-- The function `sort` on four powers of the factors `5` and `2`: the powers of `2` come
first, and the powers of the same factor keep their order. -/
theorem sort_powers :
    sort [⟨Factor.int_factor (to_uint64 5), 1⟩, ⟨Factor.int_factor (to_uint64 2), 1⟩,
        ⟨Factor.int_factor (to_uint64 5), 2⟩, ⟨Factor.int_factor (to_uint64 2), 2⟩]
      MagnitudeComparator
    = Outcome.ok [⟨Factor.int_factor (to_uint64 2), 1⟩, ⟨Factor.int_factor (to_uint64 2), 2⟩,
        ⟨Factor.int_factor (to_uint64 5), 1⟩, ⟨Factor.int_factor (to_uint64 5), 2⟩] := by
  rw [sort_long _ _ (by decide)]
  have hl : sort [⟨Factor.int_factor (to_uint64 5), 1⟩, ⟨Factor.int_factor (to_uint64 2), 1⟩]
      MagnitudeComparator
      = Outcome.ok [⟨Factor.int_factor (to_uint64 2), 1⟩,
          ⟨Factor.int_factor (to_uint64 5), 1⟩] := by
    rw [sort_long _ _ (by decide)]
    simp only [List.length_cons, List.length_nil, List.take, List.drop]
    rw [sort_short _ _ (by decide), sort_short _ _ (by decide)]
    simp only [Outcome.bind]
    rw [merge_cons_greater MagnitudeComparator [] [] (by decide), merge_nil_right]
  have hr : sort [⟨Factor.int_factor (to_uint64 5), 2⟩, ⟨Factor.int_factor (to_uint64 2), 2⟩]
      MagnitudeComparator
      = Outcome.ok [⟨Factor.int_factor (to_uint64 2), 2⟩,
          ⟨Factor.int_factor (to_uint64 5), 2⟩] := by
    rw [sort_long _ _ (by decide)]
    simp only [List.length_cons, List.length_nil, List.take, List.drop]
    rw [sort_short _ _ (by decide), sort_short _ _ (by decide)]
    simp only [Outcome.bind]
    rw [merge_cons_greater MagnitudeComparator [] [] (by decide), merge_nil_right]
  simp only [List.length_cons, List.length_nil, List.take, List.drop]
  rw [hl, hr]
  simp only [Outcome.bind]
  rw [merge_cons_le MagnitudeComparator _ _ (by decide),
    merge_cons_greater MagnitudeComparator _ _ (by decide),
    merge_cons_le MagnitudeComparator _ _ (by decide), merge_nil_left]

/-- The theorem of C33 on four powers of the factors `5` and `2`, compared by
`MagnitudeComparator`. -/
theorem sort_perm_sorted_witness :
    TotalPreorder MagnitudeComparator ∧
    ∃ result,
      sort [⟨Factor.int_factor (to_uint64 5), 1⟩, ⟨Factor.int_factor (to_uint64 2), 1⟩,
          ⟨Factor.int_factor (to_uint64 5), 2⟩, ⟨Factor.int_factor (to_uint64 2), 2⟩]
        MagnitudeComparator = Outcome.ok result ∧
      result.Perm [⟨Factor.int_factor (to_uint64 5), 1⟩, ⟨Factor.int_factor (to_uint64 2), 1⟩,
          ⟨Factor.int_factor (to_uint64 5), 2⟩, ⟨Factor.int_factor (to_uint64 2), 2⟩] ∧
      result.Pairwise (fun a b => MagnitudeComparator a b ≠ ordering.greater) :=
  ⟨MagnitudeComparator_strict_total_order.total_preorder,
    sort_perm_sorted MagnitudeComparator MagnitudeComparator_strict_total_order.total_preorder _⟩

/-- The theorem of C34 on four powers of the factors `5` and `2`, compared by
`MagnitudeComparator`: the powers of `5` come out as `5^1, 5^2`, in the order of the
argument. -/
theorem sort_stable_witness :
    TotalPreorder MagnitudeComparator ∧
    (sort [⟨Factor.int_factor (to_uint64 5), 1⟩, ⟨Factor.int_factor (to_uint64 2), 1⟩,
        ⟨Factor.int_factor (to_uint64 5), 2⟩, ⟨Factor.int_factor (to_uint64 2), 2⟩]
      MagnitudeComparator
    = Outcome.ok [⟨Factor.int_factor (to_uint64 2), 1⟩, ⟨Factor.int_factor (to_uint64 2), 2⟩,
        ⟨Factor.int_factor (to_uint64 5), 1⟩, ⟨Factor.int_factor (to_uint64 5), 2⟩]) ∧
    ∃ result,
      sort [⟨Factor.int_factor (to_uint64 5), 1⟩, ⟨Factor.int_factor (to_uint64 2), 1⟩,
          ⟨Factor.int_factor (to_uint64 5), 2⟩, ⟨Factor.int_factor (to_uint64 2), 2⟩]
        MagnitudeComparator = Outcome.ok result ∧
      ∀ x, result.filter (fun y => decide (MagnitudeComparator x y = ordering.equivalent))
        = [⟨Factor.int_factor (to_uint64 5), 1⟩, ⟨Factor.int_factor (to_uint64 2), 1⟩,
            ⟨Factor.int_factor (to_uint64 5), 2⟩, ⟨Factor.int_factor (to_uint64 2), 2⟩].filter
          (fun y => decide (MagnitudeComparator x y = ordering.equivalent)) :=
  ⟨MagnitudeComparator_strict_total_order.total_preorder, sort_powers,
    sort_stable MagnitudeComparator MagnitudeComparator_strict_total_order.total_preorder _⟩

/-- C35: over the rational numbers, for every value `v` other than `0` and every exponent `e`,
`int_pow<e>(v)` is the power `v ^ e`; for a negative exponent it is the reciprocal
`1 / v ^ (-e)`, and for the exponent `0` it is `1`. -/
theorem int_pow_spec (e : Int) (v : ℚ) (hv : v ≠ 0) :
    int_pow e v = v ^ e ∧ (e < 0 → int_pow e v = 1 / v ^ (-e)) ∧ int_pow 0 v = 1 ∧
    int_pow e v ≠ 0 := by
  refine ⟨int_pow_eq_zpow e v, ?_, ?_, ?_⟩
  · intro _
    rw [int_pow_eq_zpow, zpow_neg, one_div, inv_inv]
  · rw [int_pow_eq_zpow, zpow_zero]
  · rw [int_pow_eq_zpow]
    exact zpow_ne_zero e hv

/-- The theorem of C35 on the value `2`: `int_pow<10>(2)` is `1024` and `int_pow<-3>(2)` is
`1 / 8`. -/
theorem int_pow_spec_witness :
    int_pow 10 2 = 1024 ∧ int_pow (-3) 2 = 1 / 8 ∧ int_pow 0 2 = 1 := by
  have h10 := (int_pow_spec 10 2 (by norm_num)).1
  have h3 := (int_pow_spec (-3) 2 (by norm_num)).2.1 (by decide)
  have h0 := (int_pow_spec 0 2 (by norm_num)).2.2.1
  refine ⟨?_, ?_, h0⟩
  · rw [h10]
    norm_num
  · rw [h3]
    norm_num

end units

namespace unit_definition

open meta units

/-- C37: the expression `k / q` is meant to be `quantity<ScalarUnit>(k) / q`.  The operator
takes the scalar as `rhs` and the quantity as `lhs` and returns
`lhs / quantity<ScalarUnit>(rhs)`, which is `q / k`: for `k = 6` and `q = 2 * m` the result is
`1 / 3` in metres, whereas `quantity<ScalarUnit>(6) / q` is `3` in the unit `metre^-1`. -/
theorem scalar_divide_quantity_swapped :
    (∀ (dimension_guide : dimension_raw → Option Symbol) (unit_guide : unit_raw → Option Symbol)
      (k : ℚ) (q : quantity),
      scalar_divide_quantity dimension_guide unit_guide k q
        = quantity_divide_scalar dimension_guide unit_guide q k) ∧
    scalar_divide_quantity dimension_guide unit_guide 6 ⟨metre, 2⟩
      = Outcome.ok ⟨metre, 1 / 3⟩ ∧
    quantity_divide dimension_guide unit_guide ⟨ScalarUnit, 6⟩ ⟨metre, 2⟩
      = Outcome.ok ⟨downcast_type.base ⟨downcast_type.base [⟨⟨"Length"⟩, -1⟩], []⟩, 3⟩ ∧
    scalar_divide_quantity dimension_guide unit_guide 6 ⟨metre, 2⟩
      ≠ quantity_divide dimension_guide unit_guide ⟨ScalarUnit, 6⟩ ⟨metre, 2⟩ := by
  have hq : unit_divide dimension_guide unit_guide metre ScalarUnit = Outcome.ok metre := by
    rw [unit_divide_eq dimension_guide unit_guide metre ScalarUnit (by decide) (by decide)]
    have hd : make_combined_dimension_raw_impl.reducer
        (typelist metre.downcast_base_type.Dimension)
        ((typelist ScalarUnit.downcast_base_type.Dimension).map Power.inverse)
        = [⟨⟨"Length"⟩, 1⟩] := merge_combine_filter_nil_right _ _ _
    have hm : MultiplyMagnitude metre.downcast_base_type.Magnitude
        (ScalarUnit.downcast_base_type.Magnitude.map Power.inverse) = [] :=
      merge_combine_filter_nil_left _ _ _
    rw [hd, hm, dimension_guide_eq, unit_guide_eq]
    exact congrArg Outcome.ok (by decide)
  have hs : unit_divide dimension_guide unit_guide ScalarUnit metre
      = Outcome.ok (downcast_type.base ⟨downcast_type.base [⟨⟨"Length"⟩, -1⟩], []⟩) := by
    rw [unit_divide_eq dimension_guide unit_guide ScalarUnit metre (by decide) (by decide)]
    have hd : make_combined_dimension_raw_impl.reducer
        (typelist ScalarUnit.downcast_base_type.Dimension)
        ((typelist metre.downcast_base_type.Dimension).map Power.inverse)
        = [⟨⟨"Length"⟩, -1⟩] := merge_combine_filter_nil_left _ _ _
    have hm : MultiplyMagnitude ScalarUnit.downcast_base_type.Magnitude
        (metre.downcast_base_type.Magnitude.map Power.inverse) = [] :=
      merge_combine_filter_nil_left _ _ _
    rw [hd, hm, dimension_guide_eq, unit_guide_eq]
    exact congrArg Outcome.ok (by decide)
  have e1 : scalar_divide_quantity dimension_guide unit_guide 6 ⟨metre, 2⟩
      = Outcome.ok ⟨metre, 1 / 3⟩ := by
    unfold scalar_divide_quantity quantity_divide
    unfold unit_divide at hq
    simp only
    rw [hq]
    simp only [Outcome.bind, Outcome.ok.injEq, quantity.mk.injEq, true_and]
    norm_num
  have e2 : quantity_divide dimension_guide unit_guide ⟨ScalarUnit, 6⟩ ⟨metre, 2⟩
      = Outcome.ok ⟨downcast_type.base ⟨downcast_type.base [⟨⟨"Length"⟩, -1⟩], []⟩, 3⟩ := by
    unfold quantity_divide
    unfold unit_divide at hs
    simp only
    rw [hs]
    simp only [Outcome.bind, Outcome.ok.injEq, quantity.mk.injEq, true_and]
    norm_num
  refine ⟨fun _ _ _ _ => rfl, e1, e2, ?_⟩
  rw [e1, e2]
  intro h
  simp only [Outcome.ok.injEq, quantity.mk.injEq] at h
  have h2 := h.2
  norm_num at h2

end unit_definition
